import Mathlib

/-!
# Verification of the LRUcache repository's cache engines

Shallow embedding of the repository's cache engines (`LruCache.h`,
`LfuCache.h`, `ArcCache/*`) and proofs about them.

Modelling conventions:
* C++ `int` fields are modelled as `Int`, `size_t` counters as `Nat`.
  Truncating C++ integer division is `Int.tdiv`; the places where an `int`
  is compared with a `size_t` are noted at each definition.
* `std::unordered_map` is modelled as an association list; its iteration
  order (unspecified in C++) is fixed to the list order where the source
  iterates over a map (`LfuCache::handleOverMaxAverageNum`).
* Each mutex-guarded public member function becomes a pure function from
  state to state; `throw` becomes an `Option`/`Except` result.
-/

set_option linter.unusedSectionVars false

namespace LRUCacheRepo

variable {K : Type} [DecidableEq K] {A : Type} {V : Type}

/-- Association-list lookup (models `std::unordered_map::find`). -/
def alookup (l : List (K × A)) (k : K) : Option A :=
  match l with
  | [] => none
  | (k', a) :: t => if k' = k then some a else alookup t k

/-- Association-list erase of the first binding of `k`
(models `std::unordered_map::erase`). -/
def aerase (l : List (K × A)) (k : K) : List (K × A) :=
  match l with
  | [] => []
  | (k', a) :: t => if k' = k then t else (k', a) :: aerase t k

/-- Keys of an association list. -/
def akeys (l : List (K × A)) : List K := l.map Prod.fst

@[simp] theorem alookup_nil (k : K) : alookup ([] : List (K × A)) k = none := rfl

@[simp] theorem alookup_cons (k' : K) (a : A) (t : List (K × A)) (k : K) :
    alookup ((k', a) :: t) k = if k' = k then some a else alookup t k := rfl

@[simp] theorem aerase_nil (k : K) : aerase ([] : List (K × A)) k = [] := rfl

@[simp] theorem aerase_cons (k' : K) (a : A) (t : List (K × A)) (k : K) :
    aerase ((k', a) :: t) k = if k' = k then t else (k', a) :: aerase t k := rfl

@[simp] theorem akeys_nil : akeys ([] : List (K × A)) = [] := rfl

@[simp] theorem akeys_cons (k' : K) (a : A) (t : List (K × A)) :
    akeys ((k', a) :: t) = k' :: akeys t := rfl

theorem alookup_append (l₁ l₂ : List (K × A)) (k : K) :
    alookup (l₁ ++ l₂) k = (alookup l₁ k).orElse (fun _ => alookup l₂ k) := by
  induction l₁ with
  | nil => simp [alookup]
  | cons h t ih =>
    obtain ⟨k', a⟩ := h
    by_cases hk : k' = k <;> simp [alookup, hk, ih]

theorem alookup_isSome_iff_mem_akeys (l : List (K × A)) (k : K) :
    (alookup l k).isSome ↔ k ∈ akeys l := by
  induction l with
  | nil => simp
  | cons h t ih =>
    obtain ⟨k', a⟩ := h
    by_cases hk : k' = k
    · simp [hk]
    · simp only [alookup_cons, akeys_cons, List.mem_cons, if_neg hk]
      rw [ih]
      constructor
      · exact Or.inr
      · rintro (h | h)
        · exact absurd h.symm hk
        · exact h

theorem alookup_eq_none_iff_not_mem (l : List (K × A)) (k : K) :
    alookup l k = none ↔ k ∉ akeys l := by
  rw [← alookup_isSome_iff_mem_akeys]
  cases h : alookup l k <;> simp [h]

theorem akeys_aerase_subset (l : List (K × A)) (k : K) :
    ∀ x ∈ akeys (aerase l k), x ∈ akeys l := by
  induction l with
  | nil => simp [aerase]
  | cons h t ih =>
    obtain ⟨k', a⟩ := h
    intro x hx
    by_cases hk : k' = k
    · rw [aerase_cons, if_pos hk] at hx
      exact List.mem_cons_of_mem _ hx
    · rw [aerase_cons, if_neg hk] at hx
      rw [akeys_cons, List.mem_cons] at hx ⊢
      rcases hx with hx | hx
      · exact Or.inl hx
      · exact Or.inr (ih x hx)

theorem nodup_akeys_aerase (l : List (K × A)) (k : K)
    (h : (akeys l).Nodup) : (akeys (aerase l k)).Nodup := by
  induction l with
  | nil => simp [aerase]
  | cons hd t ih =>
    obtain ⟨k', a⟩ := hd
    rw [akeys_cons, List.nodup_cons] at h
    by_cases hk : k' = k
    · rw [aerase_cons, if_pos hk]
      exact h.2
    · rw [aerase_cons, if_neg hk, akeys_cons, List.nodup_cons]
      exact ⟨fun hmem => h.1 (akeys_aerase_subset t k _ hmem), ih h.2⟩

theorem alookup_aerase_self (l : List (K × A)) (k : K)
    (h : (akeys l).Nodup) : alookup (aerase l k) k = none := by
  induction l with
  | nil => simp [aerase]
  | cons hd t ih =>
    obtain ⟨k', a⟩ := hd
    rw [akeys_cons, List.nodup_cons] at h
    by_cases hk : k' = k
    · subst hk
      rw [aerase_cons, if_pos rfl]
      rw [alookup_eq_none_iff_not_mem]
      exact h.1
    · rw [aerase_cons, if_neg hk, alookup_cons, if_neg hk]
      exact ih h.2

theorem alookup_aerase_ne (l : List (K × A)) (k k' : K) (h : k ≠ k') :
    alookup (aerase l k) k' = alookup l k' := by
  induction l with
  | nil => simp [aerase]
  | cons hd t ih =>
    obtain ⟨k'', a⟩ := hd
    by_cases hk : k'' = k
    · rw [aerase_cons, if_pos hk, alookup_cons, if_neg (fun hc => h (hk ▸ hc))]
    · rw [aerase_cons, if_neg hk, alookup_cons, alookup_cons, ih]

theorem mem_akeys_aerase_of_ne (l : List (K × A)) (k k' : K) (h : k' ≠ k)
    (hmem : k' ∈ akeys l) : k' ∈ akeys (aerase l k) := by
  induction l with
  | nil => exact absurd hmem (by simp)
  | cons hd t ih =>
    obtain ⟨k'', a⟩ := hd
    rw [akeys_cons, List.mem_cons] at hmem
    by_cases hk : k'' = k
    · subst hk
      rcases hmem with hmem | hmem
      · exact absurd hmem h
      · rwa [aerase_cons, if_pos rfl]
    · rw [aerase_cons, if_neg hk, akeys_cons, List.mem_cons]
      rcases hmem with hmem | hmem
      · exact Or.inl hmem
      · exact Or.inr (ih hmem)

/-!
## `Cache::LruCache` (src/LruCache.h)

State: one doubly-linked list with sentinels (modelled as `entries`, head =
least-recently-used, last element = most-recently-used) kept consistent with
the key index `nodeMap_` (the list itself, looked up by key).  The C++
capacity field is an `int`; `nodeMap_.size() == capacity_` compares it with
a `size_t`, modelled by casting the length to `Int`.
-/

/-- State of `Cache::LruCache<Key, Value>`.  `entries` is the linked list
from `dummyHead_` (old end, first) to `dummyTail_` (recent end, last),
merged with `nodeMap_` (their contents coincide in every reachable state). -/
structure LruSt (K V : Type) where
  capacity : Int
  entries : List (K × V)
deriving Repr, DecidableEq

namespace LruSt

/-- Key set of the cache (domain of `nodeMap_`). -/
def keys (s : LruSt K V) : List K := akeys s.entries

/-- `LruCache::LruCache(int capacity)`.  The source *constructs*
`std::invalid_argument` when `capacity_ <= 0` but never throws it, so the
constructor completes normally for every capacity; the guard only decides
whether `initializeList()` runs. -/
def create (K V : Type) (capacity : Int) : Except String (LruSt K V) :=
  .ok { capacity := capacity, entries := [] }

/-- `LruCache::get(Key key)` (the `std::optional` overload): on a hit, move
the node to the most-recent end and return its value; on a miss, return
`std::nullopt` with no structural change. -/
def get (s : LruSt K V) (k : K) : Option V × LruSt K V :=
  match alookup s.entries k with
  | some v => (some v, { s with entries := aerase s.entries k ++ [(k, v)] })
  | none => (none, s)

/-- `LruCache::get(Key key, Value&)`: same state change; the out-parameter
is written only on a hit (callers pass a default-constructed value). -/
def getB (s : LruSt K V) (k : K) (out : V) : Bool × V × LruSt K V :=
  match get s k with
  | (some v, s') => (true, v, s')
  | (none, s') => (false, out, s')

/-- `LruCache::evictLeastRecent`: detach `dummyHead_->next_` and erase its
key from the map.  On an empty list the detach is a no-op on `dummyTail_`
and the erase removes the sentinel's default key (absent), so the model's
`List.tail []` matches. -/
def evictLeastRecent (s : LruSt K V) : LruSt K V :=
  { s with entries := s.entries.tail }

/-- `LruCache::put(Key, Value)`: update-and-promote if present, else
`addNewNode` (evicting the least-recent node first when
`nodeMap_.size() == capacity_`). -/
def put (s : LruSt K V) (k : K) (v : V) : LruSt K V :=
  match alookup s.entries k with
  | some _ => { s with entries := aerase s.entries k ++ [(k, v)] }
  | none =>
      let s1 := if (s.entries.length : Int) = s.capacity then evictLeastRecent s else s
      { s1 with entries := s1.entries ++ [(k, v)] }

/-- `LruCache::remove(Key)`: throws `std::out_of_range` when the key is
absent. -/
def remove (s : LruSt K V) (k : K) : Option (LruSt K V) :=
  match alookup s.entries k with
  | some _ => some { s with entries := aerase s.entries k }
  | none => none

/-- Well-formedness: keys are unique (holds in every reachable state; the
C++ `unordered_map` enforces it for the index and insertions keep the list
in sync). -/
def wf (s : LruSt K V) : Prop := s.keys.Nodup

instance (s : LruSt K V) : Decidable s.wf := by unfold wf; infer_instance

end LruSt

theorem akeys_append (l₁ l₂ : List (K × A)) :
    akeys (l₁ ++ l₂) = akeys l₁ ++ akeys l₂ := by simp [akeys]

theorem akeys_tail (l : List (K × A)) : akeys l.tail = (akeys l).tail := by
  cases l <;> simp [akeys]

theorem alookup_append_singleton_self (l : List (K × A)) (k : K) (a : A)
    (h : alookup l k = none) : alookup (l ++ [(k, a)]) k = some a := by
  rw [alookup_append, h]
  simp [alookup]

theorem alookup_tail_none (l : List (K × A)) (k : K) (h : alookup l k = none) :
    alookup l.tail k = none := by
  cases l with
  | nil => simp
  | cons hd t =>
    obtain ⟨k', a⟩ := hd
    rw [alookup_cons] at h
    by_cases hk : k' = k
    · rw [if_pos hk] at h; exact absurd h (by simp)
    · rw [if_neg hk] at h; simpa using h

theorem nodup_akeys_append_singleton (l : List (K × A)) (k : K) (a : A)
    (hn : (akeys l).Nodup) (h : alookup l k = none) :
    (akeys (l ++ [(k, a)])).Nodup := by
  rw [akeys_append, List.nodup_append]
  refine ⟨hn, by simp [akeys], ?_⟩
  intro x hx hx2
  simp [akeys] at hx2
  subst hx2
  rw [alookup_eq_none_iff_not_mem] at h
  exact h hx

theorem nodup_akeys_tail (l : List (K × A)) (hn : (akeys l).Nodup) :
    (akeys l.tail).Nodup := by
  rw [akeys_tail]
  exact hn.sublist (List.tail_sublist _)

namespace LruSt

theorem wf_put (s : LruSt K V) (k : K) (v : V) (h : s.wf) : (put s k v).wf := by
  unfold wf keys at *
  cases hl : alookup s.entries k with
  | some v' =>
      simp only [put, hl]
      exact nodup_akeys_append_singleton _ _ _ (nodup_akeys_aerase _ _ h)
        (alookup_aerase_self _ _ h)
  | none =>
      by_cases hc : (s.entries.length : Int) = s.capacity
      · simp only [put, hl, evictLeastRecent, if_pos hc]
        exact nodup_akeys_append_singleton _ _ _ (nodup_akeys_tail _ h)
          (alookup_tail_none _ _ hl)
      · simp only [put, hl, if_neg hc]
        exact nodup_akeys_append_singleton _ _ _ h hl

/-- After `put s k v`, looking up `k` yields `v` (needs unique keys). -/
theorem alookup_put_self (s : LruSt K V) (k : K) (v : V) (h : s.wf) :
    alookup (put s k v).entries k = some v := by
  cases hl : alookup s.entries k with
  | some v' =>
      simp only [put, hl]
      exact alookup_append_singleton_self _ _ _ (alookup_aerase_self _ _ h)
  | none =>
      by_cases hc : (s.entries.length : Int) = s.capacity
      · simp only [put, hl, evictLeastRecent, if_pos hc]
        exact alookup_append_singleton_self _ _ _ (alookup_tail_none _ _ hl)
      · simp only [put, hl, if_neg hc]
        exact alookup_append_singleton_self _ _ _ hl

/-- A `get` on a hit returns the stored value and keeps the key present. -/
theorem get_hit (s : LruSt K V) (k : K) (v : V)
    (h : alookup s.entries k = some v) :
    get s k = (some v, { s with entries := aerase s.entries k ++ [(k, v)] }) := by
  simp only [get, h]

theorem get_miss (s : LruSt K V) (k : K) (h : alookup s.entries k = none) :
    get s k = (none, s) := by
  simp only [get, h]

end LruSt

theorem length_aerase_add_one (l : List (K × A)) (k : K)
    (h : alookup l k ≠ none) : (aerase l k).length + 1 = l.length := by
  induction l with
  | nil => simp [alookup] at h
  | cons hd t ih =>
    obtain ⟨k', a⟩ := hd
    by_cases hk : k' = k
    · simp [aerase, hk]
    · rw [alookup_cons, if_neg hk] at h
      simp only [aerase_cons, if_neg hk, List.length_cons]
      rw [← ih h]

theorem mem_akeys_aerase_iff_of_ne (l : List (K × A)) (k k' : K) (h : k' ≠ k) :
    k' ∈ akeys (aerase l k) ↔ k' ∈ akeys l :=
  ⟨akeys_aerase_subset l k k', mem_akeys_aerase_of_ne l k k' h⟩

/-- **C3**: for the LRU cache at full capacity, inserting a new key evicts
exactly one entry — the least-recently-used one, i.e. the head of the list,
which is the older of any two keys inserted and never re-accessed — and a
`put` that updates an existing key evicts nothing: the size and the key set
are unchanged. -/
theorem claim_C3_lru_full_capacity_eviction (K V : Type) [DecidableEq K]
    (s : LruSt K V) (h : s.wf) (hfull : (s.entries.length : Int) = s.capacity) :
    (∀ k v, alookup s.entries k = none →
        (LruSt.put s k v).entries = s.entries.tail ++ [(k, v)] ∧
        ∀ e rest, s.entries = e :: rest → e.1 ∉ (LruSt.put s k v).keys) ∧
    (∀ k v, alookup s.entries k ≠ none →
        (LruSt.put s k v).entries.length = s.entries.length ∧
        ∀ k', (k' ∈ (LruSt.put s k v).keys ↔ k' ∈ s.keys)) := by
  constructor
  · intro k v hl
    have hent : (LruSt.put s k v).entries = s.entries.tail ++ [(k, v)] := by
      simp only [LruSt.put, hl, if_pos hfull, LruSt.evictLeastRecent]
    refine ⟨hent, ?_⟩
    intro e rest hrest
    have hkek : e.1 ≠ k := by
      intro hek
      rw [hrest, alookup_cons, if_pos hek] at hl
      exact absurd hl (by simp)
    have hnd : e.1 ∉ akeys rest := by
      have := h
      unfold LruSt.wf LruSt.keys at this
      rw [hrest, akeys_cons, List.nodup_cons] at this
      exact this.1
    unfold LruSt.keys
    rw [hent, hrest]
    simp only [List.tail_cons, akeys_append, akeys_cons, akeys_nil, List.mem_append,
      List.mem_cons, List.not_mem_nil]
    rintro (hmem | hmem)
    · exact hnd hmem
    · rcases hmem with hmem | hmem
      · exact hkek hmem
      · exact hmem
  · intro k v hl
    cases hlk : alookup s.entries k with
    | none => exact absurd hlk hl
    | some v' =>
      have hent : (LruSt.put s k v).entries = aerase s.entries k ++ [(k, v)] := by
        simp only [LruSt.put, hlk]
      constructor
      · rw [hent, List.length_append]
        simp only [List.length_cons, List.length_nil]
        rw [← length_aerase_add_one s.entries k hl]
      · intro k'
        unfold LruSt.keys
        rw [hent, akeys_append]
        simp only [akeys_cons, akeys_nil, List.mem_append, List.mem_cons,
          List.not_mem_nil, or_false]
        by_cases hk : k' = k
        · subst hk
          simp only [or_true, true_iff]
          rw [← alookup_isSome_iff_mem_akeys, hlk]
          rfl
        · rw [mem_akeys_aerase_iff_of_ne s.entries k k' hk]
          simp [hk]

/-- Witness for C3: a concrete full cache of capacity 2; inserting key 3
evicts the older key 1 and keeps key 2, and updating key 2 evicts nothing. -/
theorem claim_C3_lru_full_capacity_eviction_witness :
    (LruSt.put (⟨2, [(1, 10), (2, 20)]⟩ : LruSt Nat Nat) 3 30).entries =
      [(2, 20), (3, 30)] ∧
    (1 : Nat) ∉ (LruSt.put (⟨2, [(1, 10), (2, 20)]⟩ : LruSt Nat Nat) 3 30).keys ∧
    (LruSt.put (⟨2, [(1, 10), (2, 20)]⟩ : LruSt Nat Nat) 2 25).entries.length = 2 := by
  have h := claim_C3_lru_full_capacity_eviction Nat Nat
    (⟨2, [(1, 10), (2, 20)]⟩ : LruSt Nat Nat) (by decide) (by decide)
  refine ⟨?_, ?_, ?_⟩
  · have := (h.1 3 30 (by decide)).1
    simpa using this
  · exact (h.1 3 30 (by decide)).2 (1, 10) [(2, 20)] rfl
  · have := (h.2 2 25 (by decide)).1
    simpa using this

/-- Association-list in-place update-or-append (models
`std::unordered_map::operator[]` assignment). -/
def aupdate (l : List (K × A)) (k : K) (a : A) : List (K × A) :=
  match l with
  | [] => [(k, a)]
  | (k', a') :: t => if k' = k then (k, a) :: t else (k', a') :: aupdate t k a

@[simp] theorem aupdate_nil (k : K) (a : A) :
    aupdate ([] : List (K × A)) k a = [(k, a)] := rfl

@[simp] theorem aupdate_cons (k' : K) (a' : A) (t : List (K × A)) (k : K) (a : A) :
    aupdate ((k', a') :: t) k a =
      if k' = k then (k, a) :: t else (k', a') :: aupdate t k a := rfl

theorem alookup_aupdate_self (l : List (K × A)) (k : K) (a : A) :
    alookup (aupdate l k a) k = some a := by
  induction l with
  | nil => simp [alookup]
  | cons hd t ih =>
    obtain ⟨k', a'⟩ := hd
    by_cases hk : k' = k
    · simp [hk, alookup]
    · simp [hk, alookup, ih]

theorem alookup_aupdate_ne (l : List (K × A)) (k k' : K) (a : A) (h : k ≠ k') :
    alookup (aupdate l k a) k' = alookup l k' := by
  induction l with
  | nil => simp [alookup, h]
  | cons hd t ih =>
    obtain ⟨k'', a'⟩ := hd
    by_cases hk : k'' = k
    · rw [aupdate_cons, if_pos hk, alookup_cons, alookup_cons, if_neg h,
        if_neg (fun hc => h (hk ▸ hc))]
    · rw [aupdate_cons, if_neg hk, alookup_cons, alookup_cons, ih]

theorem mem_akeys_aupdate (l : List (K × A)) (k k' : K) (a : A) :
    k' ∈ akeys (aupdate l k a) ↔ (k' = k ∨ k' ∈ akeys l) := by
  induction l with
  | nil => simp [akeys]
  | cons hd t ih =>
    obtain ⟨k'', a'⟩ := hd
    by_cases hk : k'' = k
    · subst hk
      rw [aupdate_cons, if_pos rfl, akeys_cons, akeys_cons]
      simp only [List.mem_cons]
      tauto
    · rw [aupdate_cons, if_neg hk, akeys_cons, akeys_cons]
      simp only [List.mem_cons, ih]
      tauto

theorem nodup_akeys_aupdate (l : List (K × A)) (k : K) (a : A)
    (h : (akeys l).Nodup) : (akeys (aupdate l k a)).Nodup := by
  induction l with
  | nil => simp [akeys]
  | cons hd t ih =>
    obtain ⟨k', a'⟩ := hd
    rw [akeys_cons, List.nodup_cons] at h
    by_cases hk : k' = k
    · subst hk
      rw [aupdate_cons, if_pos rfl, akeys_cons, List.nodup_cons]
      exact h
    · rw [aupdate_cons, if_neg hk, akeys_cons, List.nodup_cons]
      refine ⟨?_, ih h.2⟩
      rw [mem_akeys_aupdate]
      rintro (hc | hc)
      · exact hk hc
      · exact h.1 hc

namespace LruSt

theorem wf_get (s : LruSt K V) (k : K) (h : s.wf) : (get s k).2.wf := by
  cases hl : alookup s.entries k with
  | some v =>
      simp only [get, hl]
      unfold wf keys at *
      exact nodup_akeys_append_singleton _ _ _ (nodup_akeys_aerase _ _ h)
        (alookup_aerase_self _ _ h)
  | none => simpa only [get, hl] using h

theorem get_snd_entries (s : LruSt K V) (k : K) :
    ((get s k).2).entries = match alookup s.entries k with
      | some v => aerase s.entries k ++ [(k, v)]
      | none => s.entries := by
  cases hl : alookup s.entries k <;> simp only [get, hl]

/-- On a miss the state is unchanged. -/
theorem get_miss_state (s : LruSt K V) (k : K) (h : alookup s.entries k = none) :
    (get s k).2 = s := by
  simp only [get, h]

theorem wf_remove (s : LruSt K V) (k : K) (s' : LruSt K V)
    (hr : remove s k = some s') (h : s.wf) : s'.wf := by
  unfold remove at hr
  cases hl : alookup s.entries k with
  | none => rw [hl] at hr; exact absurd hr (by simp)
  | some v =>
      rw [hl] at hr
      simp only [Option.some.injEq] at hr
      subst hr
      unfold wf keys at *
      exact nodup_akeys_aerase _ _ h

/-- Membership of a key is invariant under `get` (a hit only re-orders). -/
theorem alookup_get_snd (s : LruSt K V) (k k' : K) (h : s.wf) :
    alookup ((get s k).2).entries k' = alookup s.entries k' := by
  cases hl : alookup s.entries k with
  | none => simp only [get, hl]
  | some v =>
      simp only [get, hl]
      by_cases hk : k' = k
      · subst hk
        rw [alookup_append_singleton_self _ _ _ (alookup_aerase_self _ _ h), hl]
      · rw [alookup_append, alookup_aerase_ne _ _ _ (fun hc => hk hc.symm)]
        cases hl2 : alookup s.entries k' with
        | none =>
            have hone : alookup [(k, v)] k' = none := by
              rw [alookup_cons, if_neg (fun hc => hk hc.symm)]
              rfl
            simp [Option.orElse, hone]
        | some v' => simp [Option.orElse]

end LruSt

/-!
## `Cache::LruKCache` (src/LruCache.h)

An inner LRU main cache, an inner LRU history cache mapping key to access
count (`LruCache<Key, size_t>`), and the pending-value map
`historyValueMap_`.  `remove` on the history can throw, hence the `Option`
results.
-/

/-- State of `Cache::LruKCache<Key, Value>`. -/
structure LrukSt (K V : Type) where
  k : Int
  main : LruSt K V
  history : LruSt K Int
  pending : List (K × V)
deriving Repr, DecidableEq

namespace LrukSt

/-- `LruKCache::LruKCache(int capacity, int historyListCapacity, int k)`:
the base `LruCache` and the history are constructed first (neither throws —
see `LruSt.create`), then `k <= 0` throws `std::invalid_argument`. -/
def create (K V : Type) (capacity historyListCapacity kArg : Int) :
    Except String (LrukSt K V) :=
  if kArg ≤ 0 then .error "k must greater than 0"
  else .ok { k := kArg
             main := { capacity := capacity, entries := [] }
             history := { capacity := historyListCapacity, entries := [] }
             pending := [] }

/-- `LruKCache::moveToLruCache`: remove from history (throws if absent),
erase the pending value, insert into the main LRU cache. -/
def moveToLruCache (s : LrukSt K V) (key : K) (v : V) : Option (LrukSt K V) :=
  match s.history.remove key with
  | none => none
  | some h' => some { s with
      history := h'
      pending := aerase s.pending key
      main := s.main.put key v }

/-- `LruKCache::get(Key)`: probe the main cache; on a miss bump the history
count, then return the pending value if any, promoting when the count
reached `k_`. -/
def get (s : LrukSt K V) (key : K) : Option (Option V × LrukSt K V) :=
  match LruSt.get s.main key with
  | (some v, m') => some (some v, { s with main := m' })
  | (none, m') =>
    let hres := LruSt.get s.history key
    let historyCount : Int := (hres.1.getD 0) + 1
    let h2 := hres.2.put key historyCount
    let s1 : LrukSt K V := { s with main := m', history := h2 }
    match alookup s.pending key with
    | none => some (none, s1)
    | some pv =>
      if s.k ≤ historyCount then
        match s1.moveToLruCache key pv with
        | none => none
        | some s2 => some (some pv, s2)
      else
        some (some pv, s1)

/-- `LruKCache::put(Key, Value)`: update in place if resident (note the
residency probe is a `get` and so also promotes recency), else bump history,
record the pending value, and promote when the count reached `k_`. -/
def put (s : LrukSt K V) (key : K) (value : V) : Option (LrukSt K V) :=
  match LruSt.get s.main key with
  | (some _, m') => some { s with main := m'.put key value }
  | (none, m') =>
    let hres := LruSt.get s.history key
    let historyCount : Int := (hres.1.getD 0) + 1
    let h2 := hres.2.put key historyCount
    let s1 : LrukSt K V := { s with
      main := m'
      history := h2
      pending := aupdate s.pending key value }
    if s.k ≤ historyCount then s1.moveToLruCache key value else some s1

/-- Residency in the main cache. -/
def mainContains (s : LrukSt K V) (key : K) : Bool :=
  (alookup s.main.entries key).isSome

def wf (s : LrukSt K V) : Prop :=
  s.main.wf ∧ s.history.wf ∧ (akeys s.pending).Nodup

instance (s : LrukSt K V) : Decidable s.wf := by
  unfold wf; infer_instance

end LrukSt

/-- A public operation on a key-value cache, for execution traces. -/
inductive CacheOp (K V : Type) where
  | put (k : K) (v : V)
  | get (k : K)
deriving Repr, DecidableEq

/-- One public `LruKCache` operation (`none` = an exception escaped). -/
def lrukStep (s : LrukSt K V) (op : CacheOp K V) : Option (LrukSt K V) :=
  match op with
  | .put k v => s.put k v
  | .get k => (s.get k).map Prod.snd

/-- Run a list of public operations on a `LruKCache`. -/
def lrukRun (s : LrukSt K V) : List (CacheOp K V) → Option (LrukSt K V)
  | [] => some s
  | op :: ops => match lrukStep s op with
    | none => none
    | some s' => lrukRun s' ops

theorem alookup_tail_some (l : List (K × A)) (key : K) (c : A)
    (hw : (akeys l).Nodup) (h : alookup l.tail key = some c) :
    alookup l key = some c := by
  cases l with
  | nil => exact absurd h (by simp)
  | cons hd t =>
    obtain ⟨k0, a0⟩ := hd
    simp only [List.tail_cons] at h
    rw [alookup_cons]
    by_cases hk : k0 = key
    · exfalso
      rw [akeys_cons, List.nodup_cons] at hw
      apply hw.1
      rw [hk]
      rw [← alookup_isSome_iff_mem_akeys, h]
      rfl
    · rw [if_neg hk]
      exact h

namespace LruSt

theorem get_fst (s : LruSt K V) (k : K) : (get s k).1 = alookup s.entries k := by
  cases hl : alookup s.entries k <;> simp [get, hl]

/-- A `put` of another key can only drop `key` (by eviction), never change
its value: if `key` maps to `c` afterwards, it did before as well. -/
theorem alookup_put_ne_sub (s : LruSt K V) (k' : K) (v : V) (key : K) (c : V)
    (hw : s.wf) (hne : key ≠ k')
    (h : alookup (put s k' v).entries key = some c) :
    alookup s.entries key = some c := by
  have hsing : alookup [(k', v)] key = none := by
    rw [alookup_cons, if_neg (fun hc => hne hc.symm)]
    rfl
  cases hl : alookup s.entries k' with
  | some v0 =>
      simp only [put, hl] at h
      rw [alookup_append, alookup_aerase_ne _ _ _ (fun hc => hne hc.symm)] at h
      cases h2 : alookup s.entries key with
      | some c2 => rw [h2] at h; simpa [Option.orElse] using h
      | none => rw [h2] at h; simp [Option.orElse, hsing] at h
  | none =>
      by_cases hc : (s.entries.length : Int) = s.capacity
      · simp only [put, hl, if_pos hc, evictLeastRecent] at h
        rw [alookup_append] at h
        cases h2 : alookup s.entries.tail key with
        | some c2 =>
            rw [h2] at h
            have hc2 : c2 = c := by simpa [Option.orElse] using h
            subst hc2
            exact alookup_tail_some s.entries key c2 hw h2
        | none => rw [h2] at h; simp [Option.orElse, hsing] at h
      · simp only [put, hl, if_neg hc] at h
        rw [alookup_append] at h
        cases h2 : alookup s.entries key with
        | some c2 => rw [h2] at h; simpa [Option.orElse] using h
        | none => rw [h2] at h; simp [Option.orElse, hsing] at h

end LruSt

namespace LrukSt

/-- The history count that the current operation on `key` computes
(`historyCount` in `LruKCache::get`/`put`: stored count, default 0,
incremented). -/
def histNewCount (s : LrukSt K V) (key : K) : Int :=
  (alookup s.history.entries key).getD 0 + 1

theorem histNewCount_eq (s : LrukSt K V) (key : K) :
    ((LruSt.get s.history key).1.getD 0) + 1 = histNewCount s key := by
  rw [LruSt.get_fst, histNewCount]

theorem wf_moveToLruCache (s : LrukSt K V) (key : K) (v : V) (s' : LrukSt K V)
    (hw : s.wf) (h : moveToLruCache s key v = some s') : s'.wf := by
  obtain ⟨hwm, hwh, hwp⟩ := hw
  unfold moveToLruCache at h
  cases hr : s.history.remove key with
  | none => rw [hr] at h; exact absurd h (by simp)
  | some h' =>
      rw [hr] at h
      simp only [Option.some.injEq] at h
      subst h
      exact ⟨LruSt.wf_put _ _ _ hwm, LruSt.wf_remove _ _ _ hr hwh,
        nodup_akeys_aerase _ _ hwp⟩

theorem moveToLruCache_isSome (s : LrukSt K V) (key : K) (v : V)
    (h : alookup s.history.entries key ≠ none) :
    ∃ s', moveToLruCache s key v = some s' ∧
      s' = { s with
        history := { s.history with entries := aerase s.history.entries key }
        pending := aerase s.pending key
        main := s.main.put key v } := by
  unfold moveToLruCache LruSt.remove
  cases hl : alookup s.history.entries key with
  | none => exact absurd hl h
  | some c => exact ⟨_, rfl, rfl⟩

theorem wf_put_lruk (s : LrukSt K V) (key : K) (v : V) (s' : LrukSt K V)
    (hw : s.wf) (h : put s key v = some s') : s'.wf := by
  obtain ⟨hwm, hwh, hwp⟩ := hw
  have hwm' : (LruSt.get s.main key).2.wf := LruSt.wf_get s.main key hwm
  have hwh2 : ((LruSt.get s.history key).2.put key
      ((LruSt.get s.history key).1.getD 0 + 1)).wf :=
    LruSt.wf_put _ _ _ (LruSt.wf_get s.history key hwh)
  unfold put at h
  cases heq : LruSt.get s.main key with
  | mk r m' =>
    rw [heq] at h
    cases r with
    | some v0 =>
        simp only [Option.some.injEq] at h
        subst h
        refine ⟨LruSt.wf_put _ _ _ ?_, hwh, hwp⟩
        rw [heq] at hwm'
        exact hwm'
    | none =>
        simp only at h
        rw [heq] at hwm'
        split at h
        · exact wf_moveToLruCache _ _ _ _ ⟨hwm', hwh2, nodup_akeys_aupdate _ _ _ hwp⟩ h
        · simp only [Option.some.injEq] at h
          subst h
          exact ⟨hwm', hwh2, nodup_akeys_aupdate _ _ _ hwp⟩

theorem wf_get_lruk (s : LrukSt K V) (key : K) (r : Option V) (s' : LrukSt K V)
    (hw : s.wf) (h : get s key = some (r, s')) : s'.wf := by
  obtain ⟨hwm, hwh, hwp⟩ := hw
  have hwm' : (LruSt.get s.main key).2.wf := LruSt.wf_get s.main key hwm
  have hwh2 : ((LruSt.get s.history key).2.put key
      ((LruSt.get s.history key).1.getD 0 + 1)).wf :=
    LruSt.wf_put _ _ _ (LruSt.wf_get s.history key hwh)
  unfold get at h
  cases heq : LruSt.get s.main key with
  | mk r0 m' =>
    rw [heq] at h
    cases r0 with
    | some v0 =>
        simp only [Option.some.injEq, Prod.mk.injEq] at h
        rw [← h.2]
        rw [heq] at hwm'
        exact ⟨hwm', hwh, hwp⟩
    | none =>
        simp only at h
        rw [heq] at hwm'
        split at h
        · simp only [Option.some.injEq, Prod.mk.injEq] at h
          rw [← h.2]
          exact ⟨hwm', hwh2, hwp⟩
        · split at h
          · split at h
            · exact absurd h (by simp)
            · rename_i s2 hmv
              simp only [Option.some.injEq, Prod.mk.injEq] at h
              rw [← h.2]
              apply wf_moveToLruCache _ _ _ _ ?hwS hmv
              exact ⟨hwm', hwh2, hwp⟩
          · simp only [Option.some.injEq, Prod.mk.injEq] at h
            rw [← h.2]
            exact ⟨hwm', hwh2, hwp⟩

theorem mainContains_false_iff (s : LrukSt K V) (key : K) :
    s.mainContains key = false ↔ alookup s.main.entries key = none := by
  unfold mainContains
  cases hl : alookup s.main.entries key <;> simp

theorem mainContains_true_iff (s : LrukSt K V) (key : K) :
    s.mainContains key = true ↔ alookup s.main.entries key ≠ none := by
  unfold mainContains
  cases hl : alookup s.main.entries key <;> simp

/-- `LruKCache::put` on a key not resident in the main cache, fully
unfolded. -/
theorem put_miss_eq (s : LrukSt K V) (key : K) (v : V)
    (hml : alookup s.main.entries key = none) :
    put s key v =
      (if s.k ≤ (LruSt.get s.history key).1.getD 0 + 1 then
        LrukSt.moveToLruCache
          { s with
            history := (LruSt.get s.history key).2.put key
              ((LruSt.get s.history key).1.getD 0 + 1)
            pending := aupdate s.pending key v } key v
      else
        some { s with
          history := (LruSt.get s.history key).2.put key
            ((LruSt.get s.history key).1.getD 0 + 1)
          pending := aupdate s.pending key v }) := by
  unfold put
  rw [LruSt.get_miss s.main key hml]

/-- `LruKCache::put` on a resident key, fully unfolded. -/
theorem put_hit_eq (s : LrukSt K V) (key : K) (v0 : V) (v : V)
    (hml : alookup s.main.entries key = some v0) :
    put s key v = some { s with main := ((LruSt.get s.main key).2).put key v } := by
  unfold put
  rw [LruSt.get_hit s.main key v0 hml]

/-- `LruKCache::get` on a key not resident in the main cache when no pending
value exists: the history count is still bumped but the result is absent. -/
theorem get_miss_nopending_eq (s : LrukSt K V) (key : K)
    (hml : alookup s.main.entries key = none)
    (hp : alookup s.pending key = none) :
    get s key = some (none, { s with
        history := (LruSt.get s.history key).2.put key
          ((LruSt.get s.history key).1.getD 0 + 1) }) := by
  unfold get
  rw [LruSt.get_miss s.main key hml]
  simp only [hp]

/-- `LruKCache::get` on a key not resident in the main cache when a pending
value exists, fully unfolded. -/
theorem get_miss_pending_eq (s : LrukSt K V) (key : K) (pv : V)
    (hml : alookup s.main.entries key = none)
    (hp : alookup s.pending key = some pv) :
    get s key =
      (if s.k ≤ (LruSt.get s.history key).1.getD 0 + 1 then
        match LrukSt.moveToLruCache { s with
            history := (LruSt.get s.history key).2.put key
              ((LruSt.get s.history key).1.getD 0 + 1) } key pv with
        | none => none
        | some s2 => some (some pv, s2)
      else some (some pv, { s with
        history := (LruSt.get s.history key).2.put key
          ((LruSt.get s.history key).1.getD 0 + 1) })) := by
  unfold get
  rw [LruSt.get_miss s.main key hml]
  simp only [hp]

/-- `LruKCache::get` on a resident key, fully unfolded. -/
theorem get_hit_eq (s : LrukSt K V) (key : K) (v : V)
    (hml : alookup s.main.entries key = some v) :
    get s key = some (some v, { s with main := (LruSt.get s.main key).2 }) := by
  unfold get
  rw [LruSt.get_hit s.main key v hml]

/-- Admission through `put` on a non-resident key: the key enters the main
cache iff the incremented history count reaches `k_`, and then it carries
the value just offered. -/
theorem put_admission (s : LrukSt K V) (key : K) (v : V)
    (hw : s.wf) (hm : s.mainContains key = false) :
    ∃ s', put s key v = some s' ∧
      (s'.mainContains key = true ↔ s.k ≤ histNewCount s key) ∧
      (s.k ≤ histNewCount s key → alookup s'.main.entries key = some v) := by
  obtain ⟨hwm, hwh, hwp⟩ := hw
  have hml := (mainContains_false_iff s key).1 hm
  rw [put_miss_eq s key v hml, histNewCount_eq]
  by_cases hcnt : s.k ≤ histNewCount s key
  · rw [if_pos hcnt]
    obtain ⟨s', hs', hdef⟩ := moveToLruCache_isSome
      { s with
        history := (LruSt.get s.history key).2.put key (histNewCount s key)
        pending := aupdate s.pending key v } key v
      (by
        simp only
        rw [LruSt.alookup_put_self _ _ _ (LruSt.wf_get s.history key hwh)]
        simp)
    refine ⟨s', hs', ?_, ?_⟩
    · rw [hdef]
      simp only [mainContains_true_iff]
      rw [LruSt.alookup_put_self _ _ _ hwm]
      simp [hcnt]
    · intro _
      rw [hdef]
      exact LruSt.alookup_put_self _ _ _ hwm
  · rw [if_neg hcnt]
    refine ⟨_, rfl, ?_, fun hc => absurd hc hcnt⟩
    simp only [mainContains_true_iff]
    simp [hml, hcnt]

/-- Admission through `get` on a non-resident key: the key enters the main
cache iff a pending value exists *and* the incremented history count reaches
`k_`; it then carries the pending value.  A `get` with no pending value never
admits, whatever the count. -/
theorem get_admission (s : LrukSt K V) (key : K)
    (hw : s.wf) (hm : s.mainContains key = false) :
    ∃ r s', get s key = some (r, s') ∧
      (s'.mainContains key = true ↔
        (alookup s.pending key ≠ none ∧ s.k ≤ histNewCount s key)) ∧
      (∀ pv, alookup s.pending key = some pv → s.k ≤ histNewCount s key →
        alookup s'.main.entries key = some pv ∧ r = some pv) := by
  obtain ⟨hwm, hwh, hwp⟩ := hw
  have hml := (mainContains_false_iff s key).1 hm
  cases hp : alookup s.pending key with
  | none =>
      rw [get_miss_nopending_eq s key hml hp]
      refine ⟨none, _, rfl, ?_, ?_⟩
      · simp only [mainContains_true_iff]
        simp [hml, hp]
      · intro pv hpv
        exact absurd hpv (by simp)
  | some pv =>
      rw [get_miss_pending_eq s key pv hml hp, histNewCount_eq]
      by_cases hcnt : s.k ≤ histNewCount s key
      · rw [if_pos hcnt]
        obtain ⟨s', hs', hdef⟩ := moveToLruCache_isSome
          { s with
            history := (LruSt.get s.history key).2.put key (histNewCount s key) } key pv
          (by
            simp only
            rw [LruSt.alookup_put_self _ _ _ (LruSt.wf_get s.history key hwh)]
            simp)
        rw [hs']
        refine ⟨some pv, s', rfl, ?_, ?_⟩
        · rw [hdef]
          simp only [mainContains_true_iff]
          rw [LruSt.alookup_put_self _ _ _ hwm]
          simp [hp, hcnt]
        · intro pv' hpv' _
          simp only [Option.some.injEq] at hpv'
          subst hpv'
          rw [hdef]
          exact ⟨LruSt.alookup_put_self _ _ _ hwm, rfl⟩
      · rw [if_neg hcnt]
        refine ⟨some pv, _, rfl, ?_, ?_⟩
        · simp only [mainContains_true_iff]
          simp [hml, hcnt]
        · intro pv' hpv' hc
          exact absurd hc hcnt

theorem moveToLruCache_eq (s : LrukSt K V) (key : K) (v : V) (s' : LrukSt K V)
    (hsome : alookup s.history.entries key ≠ none)
    (h : moveToLruCache s key v = some s') :
    s' = { s with
      history := { s.history with entries := aerase s.history.entries key }
      pending := aerase s.pending key
      main := s.main.put key v } := by
  obtain ⟨s2, h2, hdef⟩ := moveToLruCache_isSome s key v hsome
  rw [h2] at h
  simp only [Option.some.injEq] at h
  rw [← h]
  exact hdef

end LrukSt

namespace LruSt

/-- Chaining a recency-probing `get` with a `put` of another key `kk`
preserves any binding of `key`. -/
theorem alookup_get_put_ne_sub (m : LruSt K V) (kk key : K) (v : V) (c : V)
    (hw : m.wf) (hne : key ≠ kk)
    (h : alookup (((LruSt.get m kk).2).put kk v).entries key = some c) :
    alookup m.entries key = some c := by
  have hw2 := LruSt.wf_get m kk hw
  have := LruSt.alookup_put_ne_sub _ kk v key c hw2 hne h
  rwa [LruSt.alookup_get_snd m kk key hw] at this

end LruSt

/-- Does this operation address `key`? -/
def opOn (key : K) : CacheOp K V → Bool
  | .put kk _ => kk = key
  | .get kk => kk = key

/-- Number of operations in a trace that address `key`. -/
def opsOn (key : K) (ops : List (CacheOp K V)) : Nat :=
  (ops.filter (opOn key)).length

@[simp] theorem opsOn_nil (key : K) : opsOn key ([] : List (CacheOp K V)) = 0 := rfl

theorem opsOn_cons (key : K) (op : CacheOp K V) (ops : List (CacheOp K V)) :
    opsOn key (op :: ops) = (if opOn key op then 1 else 0) + opsOn key ops := by
  unfold opsOn
  cases hop : opOn key op <;> simp [List.filter_cons, hop, Nat.add_comm]

namespace LrukSt

theorem k_moveToLruCache (s : LrukSt K V) (key : K) (v : V) (s' : LrukSt K V)
    (h : moveToLruCache s key v = some s') : s'.k = s.k := by
  unfold moveToLruCache at h
  split at h
  · exact absurd h (by simp)
  · simp only [Option.some.injEq] at h
    rw [← h]

theorem k_put (s : LrukSt K V) (key : K) (v : V) (s' : LrukSt K V)
    (h : put s key v = some s') : s'.k = s.k := by
  unfold put at h
  cases heq : LruSt.get s.main key with
  | mk r m' =>
    rw [heq] at h
    cases r with
    | some v0 =>
        simp only [Option.some.injEq] at h
        rw [← h]
    | none =>
        simp only at h
        split at h
        · have hk := k_moveToLruCache _ _ _ _ h
          exact hk
        · simp only [Option.some.injEq] at h
          rw [← h]

theorem k_get (s : LrukSt K V) (key : K) (r : Option V) (s' : LrukSt K V)
    (h : get s key = some (r, s')) : s'.k = s.k := by
  unfold get at h
  cases heq : LruSt.get s.main key with
  | mk r0 m' =>
    rw [heq] at h
    cases r0 with
    | some v0 =>
        simp only [Option.some.injEq, Prod.mk.injEq] at h
        rw [← h.2]
    | none =>
        simp only at h
        split at h
        · simp only [Option.some.injEq, Prod.mk.injEq] at h
          rw [← h.2]
        · split at h
          · split at h
            · exact absurd h (by simp)
            · rename_i s2 hmv
              simp only [Option.some.injEq, Prod.mk.injEq] at h
              rw [← h.2]
              have hk := k_moveToLruCache _ _ _ _ hmv
              exact hk
          · simp only [Option.some.injEq, Prod.mk.injEq] at h
            rw [← h.2]

theorem k_step (s s' : LrukSt K V) (op : CacheOp K V)
    (h : lrukStep s op = some s') : s'.k = s.k := by
  cases op with
  | put kk v => exact k_put s kk v s' h
  | get kk =>
    simp only [lrukStep] at h
    cases hg : get s kk with
    | none => rw [hg] at h; exact absurd h (by simp)
    | some rs =>
        obtain ⟨r, s2⟩ := rs
        rw [hg] at h
        simp only [Option.map_some', Option.some.injEq] at h
        rw [← h]
        exact k_get s kk r s2 hg

theorem wf_step (s s' : LrukSt K V) (op : CacheOp K V)
    (hw : s.wf) (h : lrukStep s op = some s') : s'.wf := by
  cases op with
  | put kk v => exact wf_put_lruk s kk v s' hw h
  | get kk =>
    simp only [lrukStep] at h
    cases hg : get s kk with
    | none => rw [hg] at h; exact absurd h (by simp)
    | some rs =>
        obtain ⟨r, s2⟩ := rs
        rw [hg] at h
        simp only [Option.map_some', Option.some.injEq] at h
        rw [← h]
        exact wf_get_lruk s kk r s2 hw hg

/-- One-step preservation of the counting invariant behind C4: residency of
`key` in the main cache requires at least `k_` operations on `key`, and the
stored history count for `key` never exceeds the number of operations on
`key` so far (`n` before the step, bumped when the step addresses `key`). -/
theorem count_inv_step (key : K) (s s' : LrukSt K V) (op : CacheOp K V) (n : Int)
    (hn : 0 ≤ n) (hw : s.wf)
    (hmain : s.mainContains key = true → s.k ≤ n)
    (hhist : ∀ c, alookup s.history.entries key = some c → c ≤ n)
    (hstep : lrukStep s op = some s') :
    (s'.mainContains key = true → s.k ≤ n + (if opOn key op then 1 else 0)) ∧
    (∀ c, alookup s'.history.entries key = some c →
      c ≤ n + (if opOn key op then 1 else 0)) := by
  obtain ⟨hwm, hwh, hwp⟩ := hw
  have hbump : n ≤ n + (if opOn key op then 1 else 0) := by
    by_cases hb : opOn key op <;> simp [hb]
  have hnewcount : histNewCount s key ≤ n + 1 := by
    unfold histNewCount
    cases hc0 : alookup s.history.entries key with
    | none => simp only [Option.getD_none]; omega
    | some c0 =>
        have := hhist c0 hc0
        simp only [Option.getD_some]
        omega
  have hH2ne : ∀ kk (cnt : Int), key ≠ kk → ∀ c,
      alookup (((LruSt.get s.history kk).2).put kk cnt).entries key = some c →
      c ≤ n :=
    fun kk cnt hne c hc =>
      hhist c (LruSt.alookup_get_put_ne_sub s.history kk key cnt c hwh hne hc)
  have hwh2 : ∀ kk (cnt : Int), (((LruSt.get s.history kk).2).put kk cnt).wf :=
    fun kk cnt => LruSt.wf_put _ _ _ (LruSt.wf_get s.history kk hwh)
  cases op with
  | put kk v =>
    simp only [lrukStep] at hstep
    have hb1 : opOn key (CacheOp.put kk v) = true ↔ kk = key := by simp [opOn]
    cases hml : alookup s.main.entries kk with
    | some v0 =>
      rw [put_hit_eq s kk v0 v hml] at hstep
      simp only [Option.some.injEq] at hstep
      subst hstep
      refine ⟨?_, fun c hc => le_trans (hhist c hc) hbump⟩
      intro hc'
      refine le_trans (hmain ?_) hbump
      rw [mainContains_true_iff] at hc' ⊢
      simp only at hc'
      by_cases hkk : key = kk
      · rw [hkk, hml]
        simp
      · cases h2 : alookup (((LruSt.get s.main kk).2).put kk v).entries key with
        | none => exact absurd h2 hc'
        | some c =>
            rw [LruSt.alookup_get_put_ne_sub s.main kk key v c hwm hkk h2]
            simp
    | none =>
      rw [put_miss_eq s kk v hml, histNewCount_eq] at hstep
      split at hstep
      · rename_i hcnt
        have hsome : alookup (((LruSt.get s.history kk).2).put kk
            (histNewCount s kk)).entries kk ≠ none := by
          rw [LruSt.alookup_put_self _ _ _ (LruSt.wf_get s.history kk hwh)]
          simp
        have hs' := moveToLruCache_eq _ _ _ _ hsome hstep
        subst hs'
        constructor
        · intro hc'
          rw [mainContains_true_iff] at hc'
          simp only at hc'
          by_cases hkk : key = kk
          · rw [if_pos (hb1.2 hkk.symm)]
            refine le_trans hcnt ?_
            rw [← hkk]
            exact hnewcount
          · refine le_trans (hmain ?_) hbump
            rw [mainContains_true_iff]
            cases h2 : alookup ((s.main.put kk v)).entries key with
            | none => exact absurd h2 hc'
            | some c =>
                rw [LruSt.alookup_put_ne_sub s.main kk v key c hwm hkk h2]
                simp
        · intro c hc
          simp only at hc
          by_cases hkk : key = kk
          · rw [hkk, alookup_aerase_self _ _ (hwh2 kk (histNewCount s kk))] at hc
            exact absurd hc (by simp)
          · rw [alookup_aerase_ne _ _ _ (fun hc2 => hkk hc2.symm)] at hc
            exact le_trans (hH2ne kk (histNewCount s kk) hkk c hc) hbump
      · rename_i hcnt
        simp only [Option.some.injEq] at hstep
        subst hstep
        constructor
        · intro hc'
          rw [mainContains_true_iff] at hc'
          simp only at hc'
          refine le_trans (hmain ?_) hbump
          rw [mainContains_true_iff]
          exact hc'
        · intro c hc
          simp only at hc
          by_cases hkk : key = kk
          · rw [hkk, LruSt.alookup_put_self _ _ _ (LruSt.wf_get s.history kk hwh)] at hc
            simp only [Option.some.injEq] at hc
            rw [if_pos (hb1.2 hkk.symm), ← hc, ← hkk]
            exact hnewcount
          · exact le_trans (hH2ne kk _ hkk c hc) hbump
  | get kk =>
    simp only [lrukStep] at hstep
    have hb1 : opOn (V := V) key (CacheOp.get kk) = true ↔ kk = key := by
      simp [opOn]
    cases hgr : get s kk with
    | none => rw [hgr] at hstep; exact absurd hstep (by simp)
    | some rs =>
      obtain ⟨r, s2⟩ := rs
      rw [hgr] at hstep
      simp only [Option.map_some', Option.some.injEq] at hstep
      subst hstep
      cases hml : alookup s.main.entries kk with
      | some v0 =>
        rw [get_hit_eq s kk v0 hml] at hgr
        simp only [Option.some.injEq, Prod.mk.injEq] at hgr
        obtain ⟨hr, hs2⟩ := hgr
        rw [← hs2]
        refine ⟨?_, fun c hc => le_trans (hhist c (by simpa using hc)) hbump⟩
        intro hc'
        refine le_trans (hmain ?_) hbump
        rw [mainContains_true_iff] at hc' ⊢
        simp only at hc'
        rwa [LruSt.alookup_get_snd s.main kk key hwm] at hc'
      | none =>
        cases hp : alookup s.pending kk with
        | none =>
          rw [get_miss_nopending_eq s kk hml hp, histNewCount_eq] at hgr
          simp only [Option.some.injEq, Prod.mk.injEq] at hgr
          obtain ⟨hr, hs2⟩ := hgr
          rw [← hs2]
          constructor
          · intro hc'
            rw [mainContains_true_iff] at hc'
            simp only at hc'
            refine le_trans (hmain ?_) hbump
            rw [mainContains_true_iff]
            exact hc'
          · intro c hc
            simp only at hc
            by_cases hkk : key = kk
            · rw [hkk, LruSt.alookup_put_self _ _ _ (LruSt.wf_get s.history kk hwh)] at hc
              simp only [Option.some.injEq] at hc
              rw [if_pos (hb1.2 hkk.symm), ← hc, ← hkk]
              exact hnewcount
            · exact le_trans (hH2ne kk _ hkk c hc) hbump
        | some pv =>
          rw [get_miss_pending_eq s kk pv hml hp, histNewCount_eq] at hgr
          split at hgr
          · rename_i hcnt
            split at hgr
            · exact absurd hgr (by simp)
            · rename_i s3 hmv
              simp only [Option.some.injEq, Prod.mk.injEq] at hgr
              obtain ⟨hr, hs2⟩ := hgr
              rw [← hs2]
              have hsome : alookup (((LruSt.get s.history kk).2).put kk
                  (histNewCount s kk)).entries kk ≠ none := by
                rw [LruSt.alookup_put_self _ _ _ (LruSt.wf_get s.history kk hwh)]
                simp
              have hs3 := moveToLruCache_eq _ _ _ _ hsome hmv
              subst hs3
              constructor
              · intro hc'
                rw [mainContains_true_iff] at hc'
                simp only at hc'
                by_cases hkk : key = kk
                · rw [if_pos (hb1.2 hkk.symm)]
                  refine le_trans hcnt ?_
                  rw [← hkk]
                  exact hnewcount
                · refine le_trans (hmain ?_) hbump
                  rw [mainContains_true_iff]
                  cases h2 : alookup ((s.main.put kk pv)).entries key with
                  | none => exact absurd h2 hc'
                  | some c =>
                      rw [LruSt.alookup_put_ne_sub s.main kk pv key c hwm hkk h2]
                      simp
              · intro c hc
                simp only at hc
                by_cases hkk : key = kk
                · rw [hkk, alookup_aerase_self _ _
                    (hwh2 kk (histNewCount s kk))] at hc
                  exact absurd hc (by simp)
                · rw [alookup_aerase_ne _ _ _ (fun hc2 => hkk hc2.symm)] at hc
                  exact le_trans (hH2ne kk (histNewCount s kk) hkk c hc) hbump
          · rename_i hcnt
            simp only [Option.some.injEq, Prod.mk.injEq] at hgr
            obtain ⟨hr, hs2⟩ := hgr
            rw [← hs2]
            constructor
            · intro hc'
              rw [mainContains_true_iff] at hc'
              simp only at hc'
              refine le_trans (hmain ?_) hbump
              rw [mainContains_true_iff]
              exact hc'
            · intro c hc
              simp only at hc
              by_cases hkk : key = kk
              · rw [hkk, LruSt.alookup_put_self _ _ _
                  (LruSt.wf_get s.history kk hwh)] at hc
                simp only [Option.some.injEq] at hc
                rw [if_pos (hb1.2 hkk.symm), ← hc, ← hkk]
                exact hnewcount
              · exact le_trans (hH2ne kk _ hkk c hc) hbump

end LrukSt

theorem opsOn_cons_int (key : K) (op : CacheOp K V) (ops : List (CacheOp K V)) :
    ((opsOn key (op :: ops) : Nat) : Int) =
      (if opOn key op then 1 else 0) + (opsOn key ops : Int) := by
  rw [opsOn_cons]
  by_cases h : opOn key op <;> simp [h]

namespace LrukSt

/-- Trace-level counting invariant: along any successful run, residency
requires `k_` operations on the key and history counts are bounded by the
operation count. -/
theorem count_inv_run (key : K) :
    ∀ (ops : List (CacheOp K V)) (s s' : LrukSt K V) (n : Int),
      0 ≤ n → s.wf →
      (s.mainContains key = true → s.k ≤ n) →
      (∀ c, alookup s.history.entries key = some c → c ≤ n) →
      lrukRun s ops = some s' →
      (s'.mainContains key = true → s.k ≤ n + (opsOn key ops : Int)) ∧
      (∀ c, alookup s'.history.entries key = some c →
        c ≤ n + (opsOn key ops : Int)) := by
  intro ops
  induction ops with
  | nil =>
    intro s s' n hn hw hmain hhist hrun
    simp only [lrukRun, Option.some.injEq] at hrun
    subst hrun
    constructor
    · intro h
      have := hmain h
      simp only [opsOn_nil, Nat.cast_zero, add_zero]
      exact this
    · intro c hc
      have := hhist c hc
      simp only [opsOn_nil, Nat.cast_zero, add_zero]
      exact this
  | cons op ops ih =>
    intro s s' n hn hw hmain hhist hrun
    unfold lrukRun at hrun
    cases hstep : lrukStep s op with
    | none => rw [hstep] at hrun; exact absurd hrun (by simp)
    | some s1 =>
      rw [hstep] at hrun
      have hw1 : s1.wf := wf_step s s1 op hw hstep
      have hk1 : s1.k = s.k := k_step s s1 op hstep
      have hinv := count_inv_step key s s1 op n hn hw hmain hhist hstep
      have hge : (0 : Int) ≤ n + (if opOn key op then 1 else 0) := by
        by_cases hb : opOn key op <;> simp [hb] <;> omega
      have hih := ih s1 s' (n + (if opOn key op then 1 else 0)) hge hw1
        (fun h => hk1 ▸ hinv.1 h) hinv.2 hrun
      rw [opsOn_cons_int]
      by_cases hb : opOn key op
      · simp only [hb, if_true] at hih ⊢
        constructor
        · intro h
          have := hk1 ▸ hih.1 h
          omega
        · intro c hc
          have := hih.2 c hc
          omega
      · simp only [hb, if_false] at hih ⊢
        constructor
        · intro h
          have := hk1 ▸ hih.1 h
          omega
        · intro c hc
          have := hih.2 c hc
          omega

end LrukSt

/-- **C4, counterexample**: the claim says a key becomes resident in the
main cache exactly on the earliest `get` or `put` that brings its history
count to ≥ K.  With K = 2 and two `get`s on key 1 (never put), the second
`get` brings the count to 2 ≥ K, yet key 1 is not resident: `LruKCache::get`
returns before the promotion check when no pending value exists. -/
theorem claim_C4_lruk_admission_counterexample :
    (lrukRun ({ k := 2, main := ⟨2, []⟩, history := ⟨10, []⟩, pending := [] } :
        LrukSt Nat Nat) [CacheOp.get 1, CacheOp.get 1]).map
      (fun s => (alookup s.history.entries 1, s.mainContains 1)) =
      some (some 2, false) := by decide

/-- **C4 (amended)**: (A) a key resident in the main cache has seen at least
`k_` operations on it, so fewer than K `get`s/`put`s never yield a main-cache
hit; (B) a `put` on a non-resident key admits it exactly when the bumped
history count reaches `k_`, carrying the value just offered (which is the
most recent pending value); (C) a `get` on a non-resident key admits it
exactly when a pending value exists *and* the bumped count reaches `k_`,
carrying the pending value. -/
theorem claim_C4_lruk_admission_amended (K V : Type) [DecidableEq K]
    (capacity histCap kArg : Int) (s0 : LrukSt K V)
    (hcreate : LrukSt.create K V capacity histCap kArg = .ok s0) :
    (∀ ops s' key, lrukRun s0 ops = some s' →
       s'.mainContains key = true → s0.k ≤ (opsOn key ops : Int)) ∧
    (∀ (s : LrukSt K V) key v, s.wf → s.mainContains key = false →
       ∃ s', LrukSt.put s key v = some s' ∧
         (s'.mainContains key = true ↔ s.k ≤ LrukSt.histNewCount s key) ∧
         (s.k ≤ LrukSt.histNewCount s key →
           alookup s'.main.entries key = some v)) ∧
    (∀ (s : LrukSt K V) key, s.wf → s.mainContains key = false →
       ∃ r s', LrukSt.get s key = some (r, s') ∧
         (s'.mainContains key = true ↔
           (alookup s.pending key ≠ none ∧ s.k ≤ LrukSt.histNewCount s key)) ∧
         (∀ pv, alookup s.pending key = some pv →
           s.k ≤ LrukSt.histNewCount s key →
           alookup s'.main.entries key = some pv ∧ r = some pv)) := by
  unfold LrukSt.create at hcreate
  split at hcreate
  · exact absurd hcreate (by simp)
  · simp only [Except.ok.injEq] at hcreate
    subst hcreate
    refine ⟨?_, ?_, ?_⟩
    · intro ops s' key hrun hmc
      have h := LrukSt.count_inv_run key ops _ s' 0 le_rfl
        (by constructor <;> simp [LruSt.wf, LruSt.keys, akeys])
        (by intro h; exact absurd h (by simp [LrukSt.mainContains, alookup]))
        (by intro c hc; exact absurd hc (by simp [alookup]))
        hrun
      simpa using h.1 hmc
    · intro s key v hw hm
      exact LrukSt.put_admission s key v hw hm
    · intro s key hw hm
      exact LrukSt.get_admission s key hw hm

/-- Witness for the amended C4 at concrete inputs: `k = 2`; two `put`s of
key 1 make it resident, and the theorem then forces at least 2 operations
on key 1 in the trace — and indeed `opsOn` counts 2. -/
theorem claim_C4_lruk_admission_amended_witness :
    (2 : Int) ≤ ((opsOn 1 [CacheOp.put (K := Nat) (V := Nat) 1 7,
      CacheOp.put 1 8] : Nat) : Int) := by
  have h := (claim_C4_lruk_admission_amended Nat Nat 2 10 2 _ rfl).1
  exact h [CacheOp.put 1 7, CacheOp.put 1 8]
    { k := 2, main := ⟨2, [(1, 8)]⟩, history := ⟨10, []⟩, pending := [] } 1
    (by decide) (by decide)

namespace LrukSt

/-- One-step preservation of the never-put invariant: if `key` has no
pending value and is not resident, any operation other than a `put` of
`key` keeps it that way. -/
theorem noput_inv_step (key : K) (s s' : LrukSt K V) (op : CacheOp K V)
    (hw : s.wf) (hop : ∀ v, op ≠ CacheOp.put key v)
    (hpend : alookup s.pending key = none) (hmc : s.mainContains key = false)
    (hstep : lrukStep s op = some s') :
    alookup s'.pending key = none ∧ s'.mainContains key = false := by
  obtain ⟨hwm, hwh, hwp⟩ := hw
  have hmcn := (mainContains_false_iff s key).1 hmc
  cases op with
  | put kk v =>
    have hkk : key ≠ kk := by
      intro hc
      exact hop v (by rw [hc])
    simp only [lrukStep] at hstep
    cases hml : alookup s.main.entries kk with
    | some v0 =>
      rw [put_hit_eq s kk v0 v hml] at hstep
      simp only [Option.some.injEq] at hstep
      subst hstep
      refine ⟨hpend, ?_⟩
      rw [mainContains_false_iff]
      simp only
      cases h2 : alookup (((LruSt.get s.main kk).2).put kk v).entries key with
      | none => rfl
      | some c =>
          exfalso
          have := LruSt.alookup_get_put_ne_sub s.main kk key v c hwm hkk h2
          rw [hmcn] at this
          exact absurd this (by simp)
    | none =>
      rw [put_miss_eq s kk v hml, histNewCount_eq] at hstep
      split at hstep
      · have hsome : alookup (((LruSt.get s.history kk).2).put kk
            (histNewCount s kk)).entries kk ≠ none := by
          rw [LruSt.alookup_put_self _ _ _ (LruSt.wf_get s.history kk hwh)]
          simp
        have hs' := moveToLruCache_eq _ _ _ _ hsome hstep
        subst hs'
        constructor
        · simp only
          rw [alookup_aerase_ne _ _ _ (fun hc => hkk hc.symm)]
          rw [alookup_aupdate_ne _ _ _ _ (fun hc => hkk hc.symm)]
          exact hpend
        · rw [mainContains_false_iff]
          simp only
          cases h2 : alookup ((s.main.put kk v)).entries key with
          | none => rfl
          | some c =>
              exfalso
              have := LruSt.alookup_put_ne_sub s.main kk v key c hwm hkk h2
              rw [hmcn] at this
              exact absurd this (by simp)
      · simp only [Option.some.injEq] at hstep
        subst hstep
        constructor
        · simp only
          rw [alookup_aupdate_ne _ _ _ _ (fun hc => hkk hc.symm)]
          exact hpend
        · rw [mainContains_false_iff]
          exact hmcn
  | get kk =>
    simp only [lrukStep] at hstep
    cases hgr : get s kk with
    | none => rw [hgr] at hstep; exact absurd hstep (by simp)
    | some rs =>
      obtain ⟨r, s2⟩ := rs
      rw [hgr] at hstep
      simp only [Option.map_some', Option.some.injEq] at hstep
      subst hstep
      cases hml : alookup s.main.entries kk with
      | some v0 =>
        rw [get_hit_eq s kk v0 hml] at hgr
        simp only [Option.some.injEq, Prod.mk.injEq] at hgr
        rw [← hgr.2]
        refine ⟨hpend, ?_⟩
        rw [mainContains_false_iff]
        simp only
        rw [LruSt.alookup_get_snd s.main kk key hwm]
        exact hmcn
      | none =>
        cases hp : alookup s.pending kk with
        | none =>
          rw [get_miss_nopending_eq s kk hml hp] at hgr
          simp only [Option.some.injEq, Prod.mk.injEq] at hgr
          rw [← hgr.2]
          exact ⟨hpend, by rw [mainContains_false_iff]; exact hmcn⟩
        | some pv =>
          have hkk : key ≠ kk := by
            intro hc
            rw [← hc, hpend] at hp
            exact absurd hp (by simp)
          rw [get_miss_pending_eq s kk pv hml hp, histNewCount_eq] at hgr
          split at hgr
          · split at hgr
            · exact absurd hgr (by simp)
            · rename_i s3 hmv
              simp only [Option.some.injEq, Prod.mk.injEq] at hgr
              rw [← hgr.2]
              have hsome : alookup (((LruSt.get s.history kk).2).put kk
                  (histNewCount s kk)).entries kk ≠ none := by
                rw [LruSt.alookup_put_self _ _ _ (LruSt.wf_get s.history kk hwh)]
                simp
              have hs3 := moveToLruCache_eq _ _ _ _ hsome hmv
              subst hs3
              constructor
              · simp only
                rw [alookup_aerase_ne _ _ _ (fun hc => hkk hc.symm)]
                exact hpend
              · rw [mainContains_false_iff]
                simp only
                cases h2 : alookup ((s.main.put kk pv)).entries key with
                | none => rfl
                | some c =>
                    exfalso
                    have := LruSt.alookup_put_ne_sub s.main kk pv key c hwm hkk h2
                    rw [hmcn] at this
                    exact absurd this (by simp)
          · simp only [Option.some.injEq, Prod.mk.injEq] at hgr
            rw [← hgr.2]
            exact ⟨hpend, by rw [mainContains_false_iff]; exact hmcn⟩

/-- Trace-level never-put invariant. -/
theorem noput_inv_run (key : K) :
    ∀ (ops : List (CacheOp K V)) (s s' : LrukSt K V),
      s.wf → (∀ v, CacheOp.put key v ∉ ops) →
      alookup s.pending key = none → s.mainContains key = false →
      lrukRun s ops = some s' →
      alookup s'.pending key = none ∧ s'.mainContains key = false := by
  intro ops
  induction ops with
  | nil =>
    intro s s' hw hops hpend hmc hrun
    simp only [lrukRun, Option.some.injEq] at hrun
    subst hrun
    exact ⟨hpend, hmc⟩
  | cons op ops ih =>
    intro s s' hw hops hpend hmc hrun
    unfold lrukRun at hrun
    cases hstep : lrukStep s op with
    | none => rw [hstep] at hrun; exact absurd hrun (by simp)
    | some s1 =>
      rw [hstep] at hrun
      have hop : ∀ v, op ≠ CacheOp.put key v := by
        intro v hc
        exact hops v (by rw [← hc]; exact List.mem_cons_self op ops)
      have h1 := noput_inv_step key s s1 op hw hop hpend hmc hstep
      exact ih s1 s' (wf_step s s1 op hw hstep)
        (fun v hmem => hops v (List.mem_cons_of_mem op hmem)) h1.1 h1.2 hrun

end LrukSt

/-- **C10, counterexample**: the claim says a key that has been put at
least once, with history count below K after the current `get`'s increment,
gets its most recently put value back.  With `capacity = 1, K = 2`: key 1 is
put twice (admitted), then key 2 is put twice (admitted, evicting key 1).
`get(1)` now increments key 1's history to 1 < K = 2, and key 1 *was* put,
yet the `get` returns absent — the pending value was erased at admission. -/
theorem claim_C10_lruk_pending_get_counterexample :
    (lrukRun ({ k := 2, main := ⟨1, []⟩, history := ⟨10, []⟩, pending := [] } :
        LrukSt Nat Nat)
        [CacheOp.put 1 5, CacheOp.put 1 5, CacheOp.put 2 6, CacheOp.put 2 6]).bind
      (fun s => (s.get 1).map
        (fun r => (r.1, r.2.mainContains 1, alookup r.2.history.entries 1))) =
      some (none, false, some 1) := by decide

/-- **C10 (amended)**: (i) if a *pending value* is stored for the key (it
has been put and not since admitted) and the incremented history count is
still below K, `get` returns that pending value and the key stays
non-resident; (ii) a key never put in the whole trace has no pending value,
is not resident, and `get` on it returns absent. -/
theorem claim_C10_lruk_pending_get (K V : Type) [DecidableEq K] :
    (∀ (s : LrukSt K V) key pv, s.wf → s.mainContains key = false →
      alookup s.pending key = some pv → LrukSt.histNewCount s key < s.k →
      ∃ s', LrukSt.get s key = some (some pv, s') ∧
        s'.mainContains key = false) ∧
    (∀ (capacity histCap kArg : Int) (s0 : LrukSt K V)
        (ops : List (CacheOp K V)) s' key,
      LrukSt.create K V capacity histCap kArg = .ok s0 →
      (∀ v, CacheOp.put key v ∉ ops) →
      lrukRun s0 ops = some s' →
      alookup s'.pending key = none ∧ s'.mainContains key = false ∧
      (LrukSt.get s' key).map Prod.fst = some none) := by
  constructor
  · intro s key pv hw hm hp hcnt
    have hml := (LrukSt.mainContains_false_iff s key).1 hm
    rw [LrukSt.get_miss_pending_eq s key pv hml hp, LrukSt.histNewCount_eq]
    rw [if_neg (by omega)]
    refine ⟨_, rfl, ?_⟩
    rw [LrukSt.mainContains_false_iff]
    exact hml
  · intro capacity histCap kArg s0 ops s' key hcreate hops hrun
    unfold LrukSt.create at hcreate
    split at hcreate
    · exact absurd hcreate (by simp)
    · simp only [Except.ok.injEq] at hcreate
      subst hcreate
      have h := LrukSt.noput_inv_run key ops _ s'
        (by constructor <;> simp [LruSt.wf, LruSt.keys, akeys])
        hops (by simp [alookup])
        (by simp [LrukSt.mainContains, alookup])
        hrun
      refine ⟨h.1, h.2, ?_⟩
      rw [LrukSt.get_miss_nopending_eq s' key
        ((LrukSt.mainContains_false_iff s' key).1 h.2) h.1]
      rfl

/-- Witness for the amended C10: concrete state with pending value 5 for
key 1 and history count 0; `get 1` returns 5 and key 1 stays out of the
main cache; and a trace that never puts key 7 leaves key 7 absent. -/
theorem claim_C10_lruk_pending_get_witness :
    ((LrukSt.get (⟨2, ⟨2, []⟩, ⟨10, []⟩, [(1, 5)]⟩ : LrukSt Nat Nat) 1).map
        Prod.fst = some (some 5)) ∧
    ((LrukSt.get (⟨2, ⟨2, []⟩, ⟨10, []⟩, [(1, 5)]⟩ : LrukSt Nat Nat) 1).map
        (fun r => r.2.mainContains 1) = some false) ∧
    ((lrukRun (⟨2, ⟨1, []⟩, ⟨10, []⟩, []⟩ : LrukSt Nat Nat)
        [CacheOp.put 3 4]).map
        (fun s => ((LrukSt.get s 7).map Prod.fst)) = some (some none)) := by
  obtain ⟨s', hget, hmc⟩ :=
    (claim_C10_lruk_pending_get Nat Nat).1
      (⟨2, ⟨2, []⟩, ⟨10, []⟩, [(1, 5)]⟩ : LrukSt Nat Nat) 1 5
      (by decide) (by decide) (by decide) (by decide)
  refine ⟨by rw [hget]; rfl, by rw [hget]; simp [hmc], ?_⟩
  have hrun : lrukRun (⟨2, ⟨1, []⟩, ⟨10, []⟩, []⟩ : LrukSt Nat Nat)
      [CacheOp.put 3 4] =
      some (⟨2, ⟨1, []⟩, ⟨10, [(3, 1)]⟩, [(3, 4)]⟩ : LrukSt Nat Nat) := by decide
  have h := (claim_C10_lruk_pending_get Nat Nat).2 1 10 2 _
    [CacheOp.put 3 4] _ 7 rfl
    (by
      intro v hmem
      simp only [List.mem_singleton] at hmem
      injection hmem with h1 h2
      exact absurd h1 (by decide))
    hrun
  rw [hrun]
  simp only [Option.map_some', Option.some.injEq]
  exact h.2.2

/-!
## `Cache::LfuCache` (src/LfuCache.h)

Frequency-bucketed cache.  `nodeMap_` maps key to node (value + freq);
`freqToFreqList_` maps each frequency to the `FreqList` of keys currently at
that frequency, oldest first (`addNode` appends at the tail, `getFirstNode`
reads the head).  Empty `FreqList`s remain in the map once created, exactly
as in the source.  `operator[]` on a missing frequency default-constructs an
entry; in the source that entry is a null `unique_ptr` and dereferencing it
is undefined behaviour — the model inserts an empty list instead, which
coincides with the source wherever the bucket provably exists.
`handleOverMaxAverageNum` iterates `nodeMap_` in unspecified hash order; the
model fixes insertion order (the claims proved below do not depend on it).
`curTotalNum_ / nodeMap_.size()` divides an `int` by a `size_t`; for the
non-negative values arising here this equals truncating division
(`Int.tdiv`), which is what the model uses.  `INT_MAX` is 2147483647.
-/

/-- State of `Cache::LfuCache<Key, Value>`.  `nodeMap` maps key to
(value, freq); `buckets` is `freqToFreqList_` with each list holding keys
oldest-first. -/
structure LfuSt (K V : Type) where
  capacity : Int
  minFreq : Int
  maxAverageNum : Int
  curAverageNum : Int
  curTotalNum : Int
  nodeMap : List (K × V × Int)
  buckets : List (Int × List K)
deriving Repr, DecidableEq

/-- `INT_MAX`. -/
def INTMAX : Int := 2147483647

namespace LfuSt

/-- Read a frequency's list (empty when the bucket is absent). -/
def bucketGet (bs : List (Int × List K)) (f : Int) : List K :=
  (alookup bs f).getD []

/-- `freqToFreqList_[f]` creating the entry when absent (`operator[]`). -/
def bucketEnsure (bs : List (Int × List K)) (f : Int) : List (Int × List K) :=
  if (alookup bs f).isSome then bs else bs ++ [(f, [])]

/-- Write a frequency's list in place (creating the entry when absent). -/
def bucketSet (bs : List (Int × List K)) (f : Int) (l : List K) :
    List (Int × List K) :=
  aupdate bs f l

/-- Overwrite the freq recorded in a node (`node->freq = ...`). -/
def nmSetFreq (nm : List (K × V × Int)) (k : K) (f : Int) :
    List (K × V × Int) :=
  match nm with
  | [] => []
  | (k0, v0, f0) :: t =>
      if k0 = k then (k0, v0, f) :: nmSetFreq t k f
      else (k0, v0, f0) :: nmSetFreq t k f

/-- Overwrite the value recorded in a node (`node->value = ...`). -/
def nmSetValue (nm : List (K × V × Int)) (k : K) (v : V) :
    List (K × V × Int) :=
  match nm with
  | [] => []
  | (k0, v0, f0) :: t =>
      if k0 = k then (k0, v, f0) :: nmSetValue t k v
      else (k0, v0, f0) :: nmSetValue t k v

/-- `LfuCache::removeFromFreqList`: erase the node from the list at its
recorded frequency. -/
def removeFromFreqList (bs : List (Int × List K)) (k : K) (f : Int) :
    List (Int × List K) :=
  bucketSet bs f ((bucketGet bs f).erase k)

/-- `LfuCache::addToFreqList`: create the list if absent, then append. -/
def addToFreqList (bs : List (Int × List K)) (k : K) (f : Int) :
    List (Int × List K) :=
  bucketSet bs f (bucketGet bs f ++ [k])

/-- `LfuCache::updateMinFreq`: recompute `minFreq_` as the smallest
frequency with a non-empty list, starting from `INT_MAX` and falling back
to 1. -/
def updateMinFreq (s : LfuSt K V) : LfuSt K V :=
  let m := s.buckets.foldl
    (fun acc p => if ¬p.2.isEmpty then min acc p.1 else acc) INTMAX
  { s with minFreq := if m = INTMAX ∨ m < 1 then 1 else m }

/-- One iteration of the aging loop in `LfuCache::handleOverMaxAverageNum`:
detach the node, subtract `maxAverageNum_ / 2` from its frequency (floor 1),
re-attach. -/
def agingStep (maxAvg : Int) (s : LfuSt K V) (e : K × V × Int) : LfuSt K V :=
  let f' := max 1 (e.2.2 - Int.tdiv maxAvg 2)
  { s with
    nodeMap := nmSetFreq s.nodeMap e.1 f'
    buckets := addToFreqList (removeFromFreqList s.buckets e.1 e.2.2) e.1 f' }

/-- `LfuCache::handleOverMaxAverageNum`. -/
def handleOverMaxAverageNum (s : LfuSt K V) : LfuSt K V :=
  if s.nodeMap.isEmpty then s
  else updateMinFreq (s.nodeMap.foldl (agingStep s.maxAverageNum) s)

/-- `LfuCache::addFreqNum`: bump the total, recompute the average, and run
aging when the average exceeds `maxAverageNum_`. -/
def addFreqNum (s : LfuSt K V) : LfuSt K V :=
  let total := s.curTotalNum + 1
  if s.nodeMap.isEmpty then
    { s with curTotalNum := total, curAverageNum := 0 }
  else
    let avg := Int.tdiv total (s.nodeMap.length : Int)
    let s1 := { s with curTotalNum := total, curAverageNum := avg }
    if avg > s.maxAverageNum then handleOverMaxAverageNum s1 else s1

/-- `LfuCache::decreaseFreqNum`. -/
def decreaseFreqNum (s : LfuSt K V) (num : Int) : LfuSt K V :=
  if num ≤ 0 then s
  else
    let total := s.curTotalNum - num
    { s with
      curTotalNum := total
      curAverageNum :=
        if s.nodeMap.isEmpty then 0 else Int.tdiv total (s.nodeMap.length : Int) }

/-- `LfuCache::getInternal` on the node for `key` holding `(v, f)`: detach,
bump the frequency, re-attach, update the counters (possibly aging), then
lazily bump `minFreq_` when the vacated list was the minimum and is now
empty.  Returns `value` (read from the node before the move). -/
def getInternalAux (s : LfuSt K V) (key : K) (v : V) (f : Int) :
    V × LfuSt K V :=
  let f' := f + 1
  let s2 : LfuSt K V := { s with
    nodeMap := nmSetFreq s.nodeMap key f'
    buckets := addToFreqList (removeFromFreqList s.buckets key f) key f' }
  let s4 := addFreqNum s2
  let nf := ((alookup s4.nodeMap key).map (fun e => e.2)).getD f'
  let s5 :=
    if nf - 1 = s4.minFreq then
      let s4' := { s4 with buckets := bucketEnsure s4.buckets s4.minFreq }
      if (bucketGet s4'.buckets s4'.minFreq).isEmpty then
        { s4' with minFreq := s4'.minFreq + 1 }
      else s4'
    else s4
  (v, s5)

/-- `LfuCache::kickOut`: throws (`none`) when the list at `minFreq_` is
missing or empty; otherwise evicts its oldest node.  The evicted node's
recorded frequency is read from `nodeMap` (in the source it is the node's
own field, which agrees under the consistency invariant). -/
def kickOut (s : LfuSt K V) : Option (LfuSt K V) :=
  match alookup s.buckets s.minFreq with
  | none => none
  | some l =>
    match l with
    | [] => none
    | k0 :: _ =>
      let f0 := (((alookup s.nodeMap k0).map (fun e => e.2)).getD s.minFreq)
      let s1 : LfuSt K V := { s with
        buckets := removeFromFreqList s.buckets k0 f0
        nodeMap := aerase s.nodeMap k0 }
      some (decreaseFreqNum s1 f0)

/-- `LfuCache::putInternal`: evict when `nodeMap_.size() == capacity_`
(which may throw), then insert the new node at frequency 1. -/
def putInternal (s : LfuSt K V) (key : K) (v : V) : Option (LfuSt K V) :=
  match (if (s.nodeMap.length : Int) = s.capacity then kickOut s else some s) with
  | none => none
  | some s1 =>
    let s2 : LfuSt K V := { s1 with
      nodeMap := aupdate s1.nodeMap key (v, 1)
      buckets := addToFreqList s1.buckets key 1 }
    let s3 := addFreqNum s2
    some { s3 with minFreq := min s3.minFreq 1 }

/-- `LfuCache::put`. -/
def put (s : LfuSt K V) (key : K) (v : V) : Option (LfuSt K V) :=
  match alookup s.nodeMap key with
  | some (_, f) =>
      let s1 : LfuSt K V := { s with nodeMap := nmSetValue s.nodeMap key v }
      some (getInternalAux s1 key v f).2
  | none => putInternal s key v

/-- `LfuCache::get` (both overloads agree on state and hit value). -/
def get (s : LfuSt K V) (key : K) : Option V × LfuSt K V :=
  match alookup s.nodeMap key with
  | some (v, f) =>
      let r := getInternalAux s key v f
      (some r.1, r.2)
  | none => (none, s)

/-- `LfuCache::purge`. -/
def purge (s : LfuSt K V) : LfuSt K V :=
  { s with
    nodeMap := []
    buckets := []
    curTotalNum := 0
    curAverageNum := 0
    minFreq := INTMAX }

/-- `LfuCache::LfuCache(int capacity, int maxAverageNum = 1000000)`:
rejects `capacity <= 0`; `maxAverageNum` is not validated. -/
def create (K V : Type) (capacity maxAverageNum : Int) :
    Except String (LfuSt K V) :=
  if capacity ≤ 0 then .error "capacity should be greater than 0"
  else .ok { capacity := capacity, minFreq := INTMAX
             maxAverageNum := maxAverageNum
             curAverageNum := 0, curTotalNum := 0
             nodeMap := [], buckets := [] }

end LfuSt

/-- A public operation on the LFU cache. -/
inductive LfuOp (K V : Type) where
  | put (k : K) (v : V)
  | get (k : K)
  | purge
deriving Repr, DecidableEq

/-- One public `LfuCache` operation (`none` = the `kickOut` throw). -/
def lfuStep (s : LfuSt K V) (op : LfuOp K V) : Option (LfuSt K V) :=
  match op with
  | .put k v => s.put k v
  | .get k => some (s.get k).2
  | .purge => some s.purge

/-- Run a list of public operations on an `LfuCache`. -/
def lfuRun (s : LfuSt K V) : List (LfuOp K V) → Option (LfuSt K V)
  | [] => some s
  | op :: ops => match lfuStep s op with
    | none => none
    | some s' => lfuRun s' ops

theorem mem_akeys_of_mem (l : List (K × A)) (e : K × A) (h : e ∈ l) :
    e.1 ∈ akeys l := by
  unfold akeys
  exact List.mem_map_of_mem Prod.fst h

theorem alookup_of_mem_nodup (l : List (K × A)) (e : K × A)
    (h : (akeys l).Nodup) (hm : e ∈ l) : alookup l e.1 = some e.2 := by
  induction l with
  | nil => exact absurd hm (by simp)
  | cons hd t ih =>
    rw [akeys_cons, List.nodup_cons] at h
    rcases List.mem_cons.1 hm with heq | hmem
    · subst heq
      obtain ⟨k0, a0⟩ := e
      simp [alookup]
    · obtain ⟨k0, a0⟩ := hd
      rw [alookup_cons]
      by_cases hk : k0 = e.1
      · exact absurd (mem_akeys_of_mem t e hmem) (hk ▸ h.1)
      · rw [if_neg hk]
        exact ih h.2 hmem

namespace LfuSt

theorem nmSetFreq_cons (k0 : K) (v0 : V) (f0 : Int) (t : List (K × V × Int))
    (k : K) (f : Int) :
    nmSetFreq ((k0, v0, f0) :: t) k f =
      if k0 = k then (k0, v0, f) :: nmSetFreq t k f
      else (k0, v0, f0) :: nmSetFreq t k f := rfl

theorem nmSetValue_cons (k0 : K) (v0 : V) (f0 : Int) (t : List (K × V × Int))
    (k : K) (v : V) :
    nmSetValue ((k0, v0, f0) :: t) k v =
      if k0 = k then (k0, v, f0) :: nmSetValue t k v
      else (k0, v0, f0) :: nmSetValue t k v := rfl

theorem akeys_nmSetFreq (nm : List (K × V × Int)) (k : K) (f : Int) :
    akeys (nmSetFreq nm k f) = akeys nm := by
  induction nm with
  | nil => rfl
  | cons e t ih =>
    obtain ⟨k0, v0, g0⟩ := e
    rw [nmSetFreq_cons]
    by_cases hk : k0 = k
    · rw [if_pos hk, akeys_cons, akeys_cons, ih]
    · rw [if_neg hk, akeys_cons, akeys_cons, ih]

theorem alookup_nmSetFreq_self (nm : List (K × V × Int)) (k : K) (f : Int)
    (v : V) (f0 : Int) (h : alookup nm k = some (v, f0)) :
    alookup (nmSetFreq nm k f) k = some (v, f) := by
  induction nm with
  | nil => exact absurd h (by simp)
  | cons e t ih =>
    obtain ⟨k0, v0, g0⟩ := e
    rw [nmSetFreq_cons]
    by_cases hk : k0 = k
    · rw [alookup_cons, if_pos hk] at h
      simp only [Option.some.injEq, Prod.mk.injEq] at h
      rw [if_pos hk, alookup_cons, if_pos hk, h.1]
    · rw [alookup_cons, if_neg hk] at h
      rw [if_neg hk, alookup_cons, if_neg hk]
      exact ih h

theorem alookup_nmSetFreq_ne (nm : List (K × V × Int)) (k k' : K) (f : Int)
    (h : k' ≠ k) : alookup (nmSetFreq nm k f) k' = alookup nm k' := by
  induction nm with
  | nil => rfl
  | cons e t ih =>
    obtain ⟨k0, v0, g0⟩ := e
    rw [nmSetFreq_cons]
    by_cases hk : k0 = k
    · rw [if_pos hk, alookup_cons, alookup_cons, ih]
      rw [if_neg (by rw [hk]; exact fun hc => h hc.symm)]
      rw [if_neg (by rw [hk]; exact fun hc => h hc.symm)]
    · rw [if_neg hk, alookup_cons, alookup_cons, ih]

/-- Pointwise effect of the aging fold on the node map. -/
theorem aging_fold_nodeMap (maxAvg : Int) :
    ∀ (todo : List (K × V × Int)) (s : LfuSt K V),
      (akeys todo).Nodup →
      (∀ e ∈ todo, alookup s.nodeMap e.1 = some e.2) →
      akeys (todo.foldl (agingStep maxAvg) s).nodeMap = akeys s.nodeMap ∧
      (∀ k, k ∉ akeys todo →
        alookup (todo.foldl (agingStep maxAvg) s).nodeMap k =
          alookup s.nodeMap k) ∧
      (∀ e ∈ todo, alookup (todo.foldl (agingStep maxAvg) s).nodeMap e.1 =
        some (e.2.1, max 1 (e.2.2 - Int.tdiv maxAvg 2))) := by
  intro todo
  induction todo with
  | nil =>
    intro s _ _
    exact ⟨rfl, fun k _ => rfl, fun e he => absurd he (by simp)⟩
  | cons e rest ih =>
    intro s hnodup hlk
    rw [akeys_cons, List.nodup_cons] at hnodup
    have he0 : alookup s.nodeMap e.1 = some e.2 :=
      hlk e (List.mem_cons_self e rest)
    have hs1nm : (agingStep maxAvg s e).nodeMap =
        nmSetFreq s.nodeMap e.1 (max 1 (e.2.2 - Int.tdiv maxAvg 2)) := rfl
    have hrest : ∀ e' ∈ rest,
        alookup (agingStep maxAvg s e).nodeMap e'.1 = some e'.2 := by
      intro e' he'
      rw [hs1nm, alookup_nmSetFreq_ne _ _ _ _ (by
        intro hc
        exact hnodup.1 (hc ▸ List.mem_map_of_mem Prod.fst he'))]
      exact hlk e' (List.mem_cons_of_mem e he')
    obtain ⟨ihk, ihout, ihin⟩ := ih (agingStep maxAvg s e) hnodup.2 hrest
    refine ⟨?_, ?_, ?_⟩
    · rw [List.foldl_cons, ihk, hs1nm, akeys_nmSetFreq]
    · intro k hk
      rw [akeys_cons, List.mem_cons] at hk
      push_neg at hk
      rw [List.foldl_cons, ihout k hk.2, hs1nm,
        alookup_nmSetFreq_ne _ _ _ _ hk.1]
    · intro e' he'
      rcases List.mem_cons.1 he' with he' | he'
      · subst he'
        rw [List.foldl_cons, ihout e'.1 hnodup.1, hs1nm]
        exact alookup_nmSetFreq_self _ _ _ _ _ he0
      · rw [List.foldl_cons]
        exact ihin e' he'

end LfuSt

theorem mem_of_alookup (l : List (K × A)) (k : K) (a : A)
    (h : alookup l k = some a) : (k, a) ∈ l := by
  induction l with
  | nil => exact absurd h (by simp)
  | cons hd t ih =>
    obtain ⟨k0, a0⟩ := hd
    rw [alookup_cons] at h
    by_cases hk : k0 = k
    · rw [if_pos hk] at h
      simp only [Option.some.injEq] at h
      subst hk h
      exact List.mem_cons_self _ _
    · rw [if_neg hk] at h
      exact List.mem_cons_of_mem _ (ih h)

namespace LfuSt

theorem handle_nodeMap_eq (s : LfuSt K V) (h : ¬s.nodeMap.isEmpty) :
    (handleOverMaxAverageNum s).nodeMap =
      (s.nodeMap.foldl (agingStep s.maxAverageNum) s).nodeMap := by
  unfold handleOverMaxAverageNum
  rw [if_neg h]
  rfl

theorem addFreqNum_aging_eq (s : LfuSt K V) (hne : ¬s.nodeMap.isEmpty)
    (hcond : Int.tdiv (s.curTotalNum + 1) (s.nodeMap.length : Int) >
      s.maxAverageNum) :
    addFreqNum s = handleOverMaxAverageNum { s with
      curTotalNum := s.curTotalNum + 1
      curAverageNum := Int.tdiv (s.curTotalNum + 1) (s.nodeMap.length : Int) } := by
  unfold addFreqNum
  rw [if_neg hne, if_pos hcond]

theorem addFreqNum_no_aging_nodeMap (s : LfuSt K V)
    (hcond : ¬(s.nodeMap ≠ [] ∧
      Int.tdiv (s.curTotalNum + 1) (s.nodeMap.length : Int) > s.maxAverageNum)) :
    (addFreqNum s).nodeMap = s.nodeMap := by
  unfold addFreqNum
  by_cases hemp : s.nodeMap.isEmpty
  · rw [if_pos hemp]
  · rw [if_neg hemp]
    have hne : s.nodeMap ≠ [] := by
      intro hc
      rw [hc] at hemp
      exact hemp rfl
    rw [if_neg (fun hc => hcond ⟨hne, hc⟩)]

end LfuSt

/-- **C5**: an access (`addFreqNum`, called by every `get`/`put` path) runs
aging exactly when the updated running average `curTotalNum_ / size`
(truncating division) exceeds `maxAverageNum_`; aging then replaces every
resident entry's frequency `f` by `max 1 (f - maxAverageNum_/2)`, so the
recorded frequency decreases by at most `maxAverageNum_/2` and never drops
below 1. -/
theorem claim_C5_lfu_aging (K V : Type) [DecidableEq K] (s : LfuSt K V)
    (hnodup : (akeys s.nodeMap).Nodup) :
    (¬(s.nodeMap ≠ [] ∧
        Int.tdiv (s.curTotalNum + 1) (s.nodeMap.length : Int) > s.maxAverageNum) →
      (LfuSt.addFreqNum s).nodeMap = s.nodeMap) ∧
    ((s.nodeMap ≠ [] ∧
        Int.tdiv (s.curTotalNum + 1) (s.nodeMap.length : Int) > s.maxAverageNum) →
      akeys (LfuSt.addFreqNum s).nodeMap = akeys s.nodeMap ∧
      (∀ k v f, alookup s.nodeMap k = some (v, f) →
        alookup (LfuSt.addFreqNum s).nodeMap k =
          some (v, max 1 (f - Int.tdiv s.maxAverageNum 2)) ∧
        f - max 1 (f - Int.tdiv s.maxAverageNum 2) ≤ Int.tdiv s.maxAverageNum 2 ∧
        1 ≤ max 1 (f - Int.tdiv s.maxAverageNum 2))) := by
  refine ⟨LfuSt.addFreqNum_no_aging_nodeMap s, ?_⟩
  rintro ⟨hne, hcond⟩
  have hemp : ¬s.nodeMap.isEmpty = true := by
    cases hl : s.nodeMap with
    | nil => exact absurd hl hne
    | cons a t => simp [hl]
  rw [LfuSt.addFreqNum_aging_eq s hemp hcond]
  set s1 : LfuSt K V := { s with
    curTotalNum := s.curTotalNum + 1
    curAverageNum := Int.tdiv (s.curTotalNum + 1) (s.nodeMap.length : Int) }
    with hs1
  rw [LfuSt.handle_nodeMap_eq s1 (by exact hemp)]
  have hfold := LfuSt.aging_fold_nodeMap (K := K) (V := V) s1.maxAverageNum
    s1.nodeMap s1
    (by exact hnodup) (fun e he => alookup_of_mem_nodup s1.nodeMap e (by exact hnodup) he)
  have hnm : s1.nodeMap = s.nodeMap := by rw [hs1]
  have hmx : s1.maxAverageNum = s.maxAverageNum := by rw [hs1]
  rw [hnm, hmx] at hfold
  refine ⟨hfold.1, ?_⟩
  intro k v f hlk
  have hmem : (k, (v, f)) ∈ s.nodeMap := mem_of_alookup _ _ _ hlk
  have h3 := hfold.2.2 (k, (v, f)) hmem
  refine ⟨h3, ?_, le_max_left _ _⟩
  by_cases hfd : 1 ≤ f - Int.tdiv s.maxAverageNum 2
  · rw [max_eq_right hfd]
    omega
  · rw [max_eq_left (by omega)]
    omega

/-- Witness for C5: a concrete two-entry cache with `maxAverageNum_ = 2`;
the access raises the average to 3 > 2, and the entry at frequency 3 drops
to `max 1 (3 - 1) = 2`. -/
theorem claim_C5_lfu_aging_witness :
    alookup (LfuSt.addFreqNum (⟨2, 1, 2, 1, 5, [(1, 10, 3), (2, 20, 1)],
        [(3, [1]), (1, [2])]⟩ : LfuSt Nat Nat)).nodeMap 1 =
      some (10, max 1 ((3 : Int) - Int.tdiv 2 2)) ∧
    (3 : Int) - max 1 ((3 : Int) - Int.tdiv 2 2) ≤ Int.tdiv 2 2 ∧
    1 ≤ max 1 ((3 : Int) - Int.tdiv 2 2) := by
  have h := (claim_C5_lfu_aging Nat Nat
    (⟨2, 1, 2, 1, 5, [(1, 10, 3), (2, 20, 1)], [(3, [1]), (1, [2])]⟩ :
      LfuSt Nat Nat) (by decide)).2 ⟨by decide, by decide⟩
  exact h.2 1 10 3 (by decide)

namespace LfuSt

/-- Mutual consistency of `nodeMap_` and `freqToFreqList_`: unique keys,
unique bucket frequencies, duplicate-free buckets, every bucketed key's
recorded frequency is its bucket's frequency, and every node sits in the
bucket of its frequency. -/
def Cons (nm : List (K × V × Int)) (bs : List (Int × List K)) : Prop :=
  (akeys nm).Nodup ∧ (akeys bs).Nodup ∧
  (∀ f : Int, (bucketGet bs f).Nodup) ∧
  (∀ (f : Int) (k : K), k ∈ bucketGet bs f →
    ((alookup nm k).map (fun e => e.2)) = some f) ∧
  (∀ (k : K) (v : V) (f : Int), alookup nm k = some (v, f) →
    k ∈ bucketGet bs f)

/-- The full `LfuCache` invariant: consistency, positive capacity and
frequencies, and `minFreq_` equal to the smallest non-empty frequency on a
non-empty cache (and at least 1 always). -/
def Inv (s : LfuSt K V) : Prop :=
  Cons s.nodeMap s.buckets ∧ 1 ≤ s.capacity ∧ 1 ≤ s.minFreq ∧
  (∀ (k : K) (v : V) (f : Int), alookup s.nodeMap k = some (v, f) → 1 ≤ f) ∧
  (s.nodeMap ≠ [] → bucketGet s.buckets s.minFreq ≠ [] ∧
    ∀ f : Int, bucketGet s.buckets f ≠ [] → s.minFreq ≤ f)

/-- Frequencies low enough that one increment stays below `INT_MAX`. -/
def FreqBound (s : LfuSt K V) : Prop :=
  ∀ (k : K) (v : V) (f : Int), alookup s.nodeMap k = some (v, f) →
    f ≤ INTMAX - 2

theorem bucketGet_bucketSet_self (bs : List (Int × List K)) (f : Int)
    (l : List K) : bucketGet (bucketSet bs f l) f = l := by
  unfold bucketGet bucketSet
  rw [alookup_aupdate_self]
  rfl

theorem bucketGet_bucketSet_ne (bs : List (Int × List K)) (f g : Int)
    (l : List K) (h : g ≠ f) :
    bucketGet (bucketSet bs f l) g = bucketGet bs g := by
  unfold bucketGet bucketSet
  rw [alookup_aupdate_ne _ _ _ _ (fun hc => h hc.symm)]

theorem akeys_bucketSet_nodup (bs : List (Int × List K)) (f : Int)
    (l : List K) (h : (akeys bs).Nodup) : (akeys (bucketSet bs f l)).Nodup :=
  nodup_akeys_aupdate bs f l h

theorem bucketGet_remove_self (bs : List (Int × List K)) (k : K) (f : Int) :
    bucketGet (removeFromFreqList bs k f) f = (bucketGet bs f).erase k :=
  bucketGet_bucketSet_self _ _ _

theorem bucketGet_remove_ne (bs : List (Int × List K)) (k : K) (f g : Int)
    (h : g ≠ f) : bucketGet (removeFromFreqList bs k f) g = bucketGet bs g :=
  bucketGet_bucketSet_ne _ _ _ _ h

theorem bucketGet_add_self (bs : List (Int × List K)) (k : K) (f : Int) :
    bucketGet (addToFreqList bs k f) f = bucketGet bs f ++ [k] :=
  bucketGet_bucketSet_self _ _ _

theorem bucketGet_add_ne (bs : List (Int × List K)) (k : K) (f g : Int)
    (h : g ≠ f) : bucketGet (addToFreqList bs k f) g = bucketGet bs g :=
  bucketGet_bucketSet_ne _ _ _ _ h

theorem nmSetValue_alookup_self (nm : List (K × V × Int)) (k : K) (v : V)
    (v0 : V) (f0 : Int) (h : alookup nm k = some (v0, f0)) :
    alookup (nmSetValue nm k v) k = some (v, f0) := by
  induction nm with
  | nil => exact absurd h (by simp)
  | cons e t ih =>
    obtain ⟨k0, w0, g0⟩ := e
    rw [nmSetValue_cons]
    by_cases hk : k0 = k
    · rw [alookup_cons, if_pos hk] at h
      simp only [Option.some.injEq, Prod.mk.injEq] at h
      rw [if_pos hk, alookup_cons, if_pos hk, h.2]
    · rw [alookup_cons, if_neg hk] at h
      rw [if_neg hk, alookup_cons, if_neg hk]
      exact ih h

theorem nmSetValue_alookup_ne (nm : List (K × V × Int)) (k k' : K) (v : V)
    (h : k' ≠ k) : alookup (nmSetValue nm k v) k' = alookup nm k' := by
  induction nm with
  | nil => rfl
  | cons e t ih =>
    obtain ⟨k0, w0, g0⟩ := e
    rw [nmSetValue_cons]
    by_cases hk : k0 = k
    · rw [if_pos hk, alookup_cons, alookup_cons, ih]
      rw [if_neg (by rw [hk]; exact fun hc => h hc.symm)]
      rw [if_neg (by rw [hk]; exact fun hc => h hc.symm)]
    · rw [if_neg hk, alookup_cons, alookup_cons, ih]

theorem akeys_nmSetValue (nm : List (K × V × Int)) (k : K) (v : V) :
    akeys (nmSetValue nm k v) = akeys nm := by
  induction nm with
  | nil => rfl
  | cons e t ih =>
    obtain ⟨k0, w0, g0⟩ := e
    rw [nmSetValue_cons]
    by_cases hk : k0 = k
    · rw [if_pos hk, akeys_cons, akeys_cons, ih]
    · rw [if_neg hk, akeys_cons, akeys_cons, ih]

/-- A key recorded at frequency `fOld` sits in no other bucket. -/
theorem bucket_only (nm : List (K × V × Int)) (bs : List (Int × List K))
    (k : K) (v : V) (fOld : Int)
    (hsound : ∀ (f : Int) (k' : K), k' ∈ bucketGet bs f →
      ((alookup nm k').map (fun e => e.2)) = some f)
    (hk : alookup nm k = some (v, fOld)) :
    ∀ g : Int, k ∈ bucketGet bs g → g = fOld := by
  intro g hg
  have h2 := hsound g k hg
  rw [hk] at h2
  simp only [Option.map_some'] at h2
  exact (Option.some.injEq _ _ ▸ h2.symm :)

/-- `Cons` is preserved when a node moves from bucket `fOld` to bucket
`fNew` (the composite of `removeFromFreqList`, the freq write, and
`addToFreqList`, shared by `getInternal` and the aging loop). -/
theorem cons_move (nm : List (K × V × Int)) (bs : List (Int × List K))
    (k : K) (v : V) (fOld fNew : Int) (hC : Cons nm bs)
    (hk : alookup nm k = some (v, fOld)) :
    Cons (nmSetFreq nm k fNew)
      (addToFreqList (removeFromFreqList bs k fOld) k fNew) := by
  obtain ⟨hnm, hbs, hbnd, hsound, hcompl⟩ := hC
  have honly := bucket_only nm bs k v fOld hsound hk
  refine ⟨?_, ?_, ?_, ?_, ?_⟩
  · rw [akeys_nmSetFreq]
    exact hnm
  · exact akeys_bucketSet_nodup _ _ _ (akeys_bucketSet_nodup _ _ _ hbs)
  · intro g
    by_cases hgN : g = fNew
    · rw [hgN, bucketGet_add_self]
      by_cases hON : fNew = fOld
      · rw [hON, bucketGet_remove_self]
        have hnd := hbnd fOld
        refine List.Nodup.append (hnd.erase k) (List.nodup_singleton k) ?_
        intro a ha hb
        rw [List.mem_singleton] at hb
        rw [hb] at ha
        exact ((List.Nodup.mem_erase_iff hnd).1 ha).1 rfl
      · rw [bucketGet_remove_ne _ _ _ _ hON]
        refine List.Nodup.append (hbnd fNew) (List.nodup_singleton k) ?_
        intro a ha hb
        rw [List.mem_singleton] at hb
        rw [hb] at ha
        exact hON (honly fNew ha)
    · rw [bucketGet_add_ne _ _ _ _ hgN]
      by_cases hgO : g = fOld
      · rw [hgO, bucketGet_remove_self]
        exact (hbnd _).erase k
      · rw [bucketGet_remove_ne _ _ _ _ hgO]
        exact hbnd g
  · intro g k' hk'
    by_cases hgN : g = fNew
    · rw [hgN] at hk' ⊢
      rw [bucketGet_add_self] at hk'
      rcases List.mem_append.1 hk' with hk' | hk'
      · have hk'old : k' ∈ bucketGet bs fNew ∧ k' ≠ k := by
          by_cases hON : fNew = fOld
          · rw [hON] at hk' ⊢
            rw [bucketGet_remove_self] at hk'
            have h2 := (List.Nodup.mem_erase_iff (hbnd fOld)).1 hk'
            exact ⟨h2.2, h2.1⟩
          · rw [bucketGet_remove_ne _ _ _ _ hON] at hk'
            refine ⟨hk', fun hc => ?_⟩
            rw [hc] at hk'
            exact hON (honly fNew hk')
        rw [alookup_nmSetFreq_ne _ _ _ _ hk'old.2]
        exact hsound fNew k' hk'old.1
      · rw [List.mem_singleton] at hk'
        rw [hk']
        rw [alookup_nmSetFreq_self _ _ _ _ _ hk]
        rfl
    · rw [bucketGet_add_ne _ _ _ _ hgN] at hk'
      have hk'2 : k' ∈ bucketGet bs g ∧ k' ≠ k := by
        by_cases hgO : g = fOld
        · rw [hgO] at hk' ⊢
          rw [bucketGet_remove_self] at hk'
          have h2 := (List.Nodup.mem_erase_iff (hbnd fOld)).1 hk'
          exact ⟨h2.2, h2.1⟩
        · rw [bucketGet_remove_ne _ _ _ _ hgO] at hk'
          refine ⟨hk', fun hc => ?_⟩
          rw [hc] at hk'
          exact hgO (honly g hk')
      rw [alookup_nmSetFreq_ne _ _ _ _ hk'2.2]
      exact hsound g k' hk'2.1
  · intro k' v' f' hk'
    by_cases hkk : k' = k
    · rw [hkk] at hk' ⊢
      rw [alookup_nmSetFreq_self _ _ _ _ _ hk] at hk'
      simp only [Option.some.injEq, Prod.mk.injEq] at hk'
      rw [← hk'.2, bucketGet_add_self]
      exact List.mem_append_right _ (List.mem_singleton_self _)
    · rw [alookup_nmSetFreq_ne _ _ _ _ hkk] at hk'
      have hmem := hcompl k' v' f' hk'
      by_cases hfN : f' = fNew
      · rw [hfN, bucketGet_add_self]
        refine List.mem_append_left _ ?_
        by_cases hON : fNew = fOld
        · rw [hON, bucketGet_remove_self]
          refine (List.Nodup.mem_erase_iff (hbnd fOld)).2 ⟨hkk, ?_⟩
          rw [← hON, ← hfN]
          exact hmem
        · rw [bucketGet_remove_ne _ _ _ _ hON, ← hfN]
          exact hmem
      · rw [bucketGet_add_ne _ _ _ _ hfN]
        by_cases hfO : f' = fOld
        · rw [hfO, bucketGet_remove_self]
          refine (List.Nodup.mem_erase_iff (hbnd fOld)).2 ⟨hkk, ?_⟩
          rw [← hfO]
          exact hmem
        · rw [bucketGet_remove_ne _ _ _ _ hfO]
          exact hmem

/-- `Cons` is preserved by inserting a fresh key at frequency 1 (the tail
of `putInternal`). -/
theorem cons_insert (nm : List (K × V × Int)) (bs : List (Int × List K))
    (k : K) (v : V) (hC : Cons nm bs) (hk : alookup nm k = none) :
    Cons (aupdate nm k (v, 1)) (addToFreqList bs k 1) := by
  obtain ⟨hnm, hbs, hbnd, hsound, hcompl⟩ := hC
  have hnob : ∀ g : Int, k ∉ bucketGet bs g := by
    intro g hg
    have h2 := hsound g k hg
    rw [hk] at h2
    exact absurd h2 (by simp)
  refine ⟨nodup_akeys_aupdate _ _ _ hnm, akeys_bucketSet_nodup _ _ _ hbs,
    ?_, ?_, ?_⟩
  · intro g
    by_cases hg1 : g = (1 : Int)
    · rw [hg1, bucketGet_add_self]
      refine List.Nodup.append (hbnd 1) (List.nodup_singleton k) ?_
      intro a ha hb
      rw [List.mem_singleton] at hb
      rw [hb] at ha
      exact hnob 1 ha
    · rw [bucketGet_add_ne _ _ _ _ hg1]
      exact hbnd g
  · intro g k' hk'
    by_cases hg1 : g = (1 : Int)
    · rw [hg1] at hk' ⊢
      rw [bucketGet_add_self] at hk'
      rcases List.mem_append.1 hk' with hk' | hk'
      · have hke : k' ≠ k := fun hc => hnob 1 (hc ▸ hk')
        rw [alookup_aupdate_ne _ _ _ _ (fun hc => hke hc.symm)]
        exact hsound 1 k' hk'
      · rw [List.mem_singleton] at hk'
        rw [hk', alookup_aupdate_self]
        rfl
    · rw [bucketGet_add_ne _ _ _ _ hg1] at hk'
      have hke : k' ≠ k := fun hc => hnob g (hc ▸ hk')
      rw [alookup_aupdate_ne _ _ _ _ (fun hc => hke hc.symm)]
      exact hsound g k' hk'
  · intro k' v' f' hk'
    by_cases hkk : k' = k
    · rw [hkk] at hk' ⊢
      rw [alookup_aupdate_self] at hk'
      simp only [Option.some.injEq, Prod.mk.injEq] at hk'
      rw [← hk'.2, bucketGet_add_self]
      exact List.mem_append_right _ (List.mem_singleton_self _)
    · rw [alookup_aupdate_ne _ _ _ _ (fun hc => hkk hc.symm)] at hk'
      have hmem := hcompl k' v' f' hk'
      by_cases hf1 : f' = (1 : Int)
      · rw [hf1] at hmem ⊢
        rw [bucketGet_add_self]
        exact List.mem_append_left _ hmem
      · rw [bucketGet_add_ne _ _ _ _ hf1]
        exact hmem

/-- `Cons` is preserved by evicting a key (the core of `kickOut`). -/
theorem cons_delete (nm : List (K × V × Int)) (bs : List (Int × List K))
    (k0 : K) (v0 : V) (f0 : Int) (hC : Cons nm bs)
    (hk : alookup nm k0 = some (v0, f0)) :
    Cons (aerase nm k0) (removeFromFreqList bs k0 f0) := by
  obtain ⟨hnm, hbs, hbnd, hsound, hcompl⟩ := hC
  have honly := bucket_only nm bs k0 v0 f0 hsound hk
  refine ⟨nodup_akeys_aerase _ _ hnm, akeys_bucketSet_nodup _ _ _ hbs,
    ?_, ?_, ?_⟩
  · intro g
    by_cases hg : g = f0
    · rw [hg, bucketGet_remove_self]
      exact (hbnd f0).erase k0
    · rw [bucketGet_remove_ne _ _ _ _ hg]
      exact hbnd g
  · intro g k' hk'
    have hk'2 : k' ∈ bucketGet bs g ∧ k' ≠ k0 := by
      by_cases hg : g = f0
      · rw [hg] at hk' ⊢
        rw [bucketGet_remove_self] at hk'
        have h2 := (List.Nodup.mem_erase_iff (hbnd f0)).1 hk'
        exact ⟨h2.2, h2.1⟩
      · rw [bucketGet_remove_ne _ _ _ _ hg] at hk'
        refine ⟨hk', fun hc => ?_⟩
        rw [hc] at hk'
        exact hg (honly g hk')
    rw [alookup_aerase_ne _ _ _ (fun hc => hk'2.2 hc.symm)]
    exact hsound g k' hk'2.1
  · intro k' v' f' hk'
    by_cases hkk : k' = k0
    · rw [hkk, alookup_aerase_self _ _ hnm] at hk'
      exact absurd hk' (by simp)
    · rw [alookup_aerase_ne _ _ _ (fun hc => hkk hc.symm)] at hk'
      have hmem := hcompl k' v' f' hk'
      by_cases hf : f' = f0
      · rw [hf] at hmem ⊢
        rw [bucketGet_remove_self]
        exact (List.Nodup.mem_erase_iff (hbnd f0)).2 ⟨hkk, hmem⟩
      · rw [bucketGet_remove_ne _ _ _ _ hf]
        exact hmem

/-- `Cons` only depends on recorded frequencies, not on values. -/
theorem cons_setValue (nm : List (K × V × Int)) (bs : List (Int × List K))
    (k : K) (v : V) (v0 : V) (f0 : Int) (hC : Cons nm bs)
    (hk : alookup nm k = some (v0, f0)) :
    Cons (nmSetValue nm k v) bs := by
  obtain ⟨hnm, hbs, hbnd, hsound, hcompl⟩ := hC
  refine ⟨by rw [akeys_nmSetValue]; exact hnm, hbs, hbnd, ?_, ?_⟩
  · intro g k' hk'
    by_cases hkk : k' = k
    · rw [hkk, nmSetValue_alookup_self _ _ _ _ _ hk]
      have h2 := hsound g k (hkk ▸ hk')
      rw [hk] at h2
      exact h2
    · rw [nmSetValue_alookup_ne _ _ _ _ hkk]
      exact hsound g k' hk'
  · intro k' v' f' hk'
    by_cases hkk : k' = k
    · rw [hkk] at hk' ⊢
      rw [nmSetValue_alookup_self _ _ _ _ _ hk] at hk'
      simp only [Option.some.injEq, Prod.mk.injEq] at hk'
      rw [← hk'.2]
      exact hcompl k v0 f0 hk
    · rw [nmSetValue_alookup_ne _ _ _ _ hkk] at hk'
      exact hcompl k' v' f' hk'

/-- The aging fold preserves consistency. -/
theorem aging_fold_cons (maxAvg : Int) :
    ∀ (todo : List (K × V × Int)) (s : LfuSt K V),
      (akeys todo).Nodup →
      (∀ e ∈ todo, alookup s.nodeMap e.1 = some e.2) →
      Cons s.nodeMap s.buckets →
      Cons (todo.foldl (agingStep maxAvg) s).nodeMap
        (todo.foldl (agingStep maxAvg) s).buckets := by
  intro todo
  induction todo with
  | nil => intro s _ _ hC; exact hC
  | cons e rest ih =>
    intro s hnodup hlk hC
    rw [akeys_cons, List.nodup_cons] at hnodup
    have he0 : alookup s.nodeMap e.1 = some e.2 :=
      hlk e (List.mem_cons_self e rest)
    rw [List.foldl_cons]
    refine ih (agingStep maxAvg s e) hnodup.2 ?_ ?_
    · intro e' he'
      have : (agingStep maxAvg s e).nodeMap =
          nmSetFreq s.nodeMap e.1 (max 1 (e.2.2 - Int.tdiv maxAvg 2)) := rfl
      rw [this, alookup_nmSetFreq_ne _ _ _ _ (by
        intro hc
        exact hnodup.1 (hc ▸ mem_akeys_of_mem rest e' he'))]
      exact hlk e' (List.mem_cons_of_mem e he')
    · exact cons_move s.nodeMap s.buckets e.1 e.2.1 e.2.2 _ hC he0

/-- The aging fold leaves all scalar fields unchanged. -/
theorem aging_fold_fields (maxAvg : Int) :
    ∀ (todo : List (K × V × Int)) (s : LfuSt K V),
      (todo.foldl (agingStep maxAvg) s).capacity = s.capacity ∧
      (todo.foldl (agingStep maxAvg) s).minFreq = s.minFreq ∧
      (todo.foldl (agingStep maxAvg) s).maxAverageNum = s.maxAverageNum ∧
      (todo.foldl (agingStep maxAvg) s).curAverageNum = s.curAverageNum ∧
      (todo.foldl (agingStep maxAvg) s).curTotalNum = s.curTotalNum := by
  intro todo
  induction todo with
  | nil => intro s; exact ⟨rfl, rfl, rfl, rfl, rfl⟩
  | cons e rest ih =>
    intro s
    rw [List.foldl_cons]
    exact ih (agingStep maxAvg s e)

/-- The fold computing the candidate minimum in `updateMinFreq`. -/
def minFold (bs : List (Int × List K)) (acc : Int) : Int :=
  bs.foldl (fun acc p => if ¬p.2.isEmpty then min acc p.1 else acc) acc

theorem updateMinFreq_minFreq (s : LfuSt K V) :
    (updateMinFreq s).minFreq =
      if minFold s.buckets INTMAX = INTMAX ∨ minFold s.buckets INTMAX < 1
      then 1 else minFold s.buckets INTMAX := rfl

theorem updateMinFreq_fields (s : LfuSt K V) :
    (updateMinFreq s).nodeMap = s.nodeMap ∧
    (updateMinFreq s).buckets = s.buckets ∧
    (updateMinFreq s).capacity = s.capacity ∧
    (updateMinFreq s).maxAverageNum = s.maxAverageNum ∧
    (updateMinFreq s).curAverageNum = s.curAverageNum ∧
    (updateMinFreq s).curTotalNum = s.curTotalNum :=
  ⟨rfl, rfl, rfl, rfl, rfl, rfl⟩

theorem minFold_spec (K : Type) [DecidableEq K] :
    ∀ (bs : List (Int × List K)) (acc : Int),
      (minFold bs acc = acc ∨
        ∃ p ∈ bs, ¬p.2.isEmpty ∧ minFold bs acc = p.1) ∧
      minFold bs acc ≤ acc ∧
      (∀ p ∈ bs, ¬p.2.isEmpty → minFold bs acc ≤ p.1) := by
  intro bs
  induction bs with
  | nil =>
    intro acc
    exact ⟨Or.inl rfl, le_rfl, fun p hp => absurd hp (by simp)⟩
  | cons q t ih =>
    intro acc
    have hstep : minFold (q :: t) acc =
        minFold t (if ¬q.2.isEmpty then min acc q.1 else acc) := rfl
    by_cases hq : q.2.isEmpty
    · rw [hstep, if_neg (by simpa using hq)]
      obtain ⟨ih1, ih2, ih3⟩ := ih acc
      refine ⟨?_, ih2, ?_⟩
      · rcases ih1 with h | ⟨p, hp, hpe, hpv⟩
        · exact Or.inl h
        · exact Or.inr ⟨p, List.mem_cons_of_mem q hp, hpe, hpv⟩
      · intro p hp hpe
        rcases List.mem_cons.1 hp with hp | hp
        · rw [hp] at hpe
          exact absurd hq (by simpa using hpe)
        · exact ih3 p hp hpe
    · rw [hstep, if_pos (by simpa using hq)]
      obtain ⟨ih1, ih2, ih3⟩ := ih (min acc q.1)
      refine ⟨?_, le_trans ih2 (min_le_left _ _), ?_⟩
      · rcases ih1 with h | ⟨p, hp, hpe, hpv⟩
        · rcases le_total acc q.1 with hle | hle
          · rw [h, min_eq_left hle]
            exact Or.inl rfl
          · rw [h, min_eq_right hle]
            exact Or.inr ⟨q, List.mem_cons_self q t, by simpa using hq, rfl⟩
        · exact Or.inr ⟨p, List.mem_cons_of_mem q hp, hpe, hpv⟩
      · intro p hp hpe
        rcases List.mem_cons.1 hp with hp | hp
        · rw [hp]
          exact le_trans ih2 (min_le_right _ _)
        · exact ih3 p hp hpe

/-- After `updateMinFreq` on a consistent non-empty cache whose frequencies
are positive and below `INT_MAX`, `minFreq_` is the smallest non-empty
frequency. -/
theorem updateMinFreq_correct (s : LfuSt K V)
    (hC : Cons s.nodeMap s.buckets)
    (hpos : ∀ (k : K) (v : V) (f : Int),
      alookup s.nodeMap k = some (v, f) → 1 ≤ f)
    (hlt : ∀ (k : K) (v : V) (f : Int),
      alookup s.nodeMap k = some (v, f) → f < INTMAX)
    (hne : s.nodeMap ≠ []) :
    1 ≤ (updateMinFreq s).minFreq ∧
    bucketGet s.buckets (updateMinFreq s).minFreq ≠ [] ∧
    (∀ f : Int, bucketGet s.buckets f ≠ [] → (updateMinFreq s).minFreq ≤ f) := by
  obtain ⟨hnm, hbs, hbnd, hsound, hcompl⟩ := hC
  have hminim : ∀ f : Int, bucketGet s.buckets f ≠ [] →
      minFold s.buckets INTMAX ≤ f := by
    intro f hf
    cases hl : alookup s.buckets f with
    | none => rw [bucketGet, hl] at hf; exact absurd rfl hf
    | some l =>
      have hmem := mem_of_alookup s.buckets f l hl
      refine (minFold_spec K s.buckets INTMAX).2.2 (f, l) hmem ?_
      rw [bucketGet, hl] at hf
      simpa using hf
  -- the cache is non-empty, so some bucket is non-empty with a small freq
  obtain ⟨e, he⟩ : ∃ e, e ∈ s.nodeMap := by
    cases hl : s.nodeMap with
    | nil => exact absurd hl hne
    | cons a t => exact ⟨a, hl ▸ List.mem_cons_self a t⟩
  have hlke : alookup s.nodeMap e.1 = some e.2 :=
    alookup_of_mem_nodup s.nodeMap e hnm he
  have hbne : e.1 ∈ bucketGet s.buckets e.2.2 := hcompl e.1 e.2.1 e.2.2 hlke
  have hbne2 : bucketGet s.buckets e.2.2 ≠ [] := by
    intro hc
    rw [hc] at hbne
    exact absurd hbne (by simp)
  have hflt : e.2.2 < INTMAX := hlt e.1 e.2.1 e.2.2 hlke
  have hmle : minFold s.buckets INTMAX ≤ e.2.2 := hminim e.2.2 hbne2
  have hmlt : minFold s.buckets INTMAX < INTMAX := lt_of_le_of_lt hmle hflt
  have hm1 : 1 ≤ minFold s.buckets INTMAX := by
    rcases (minFold_spec K s.buckets INTMAX).1 with h | ⟨p, hp, hpe, hpv⟩
    · rw [h] at hmlt
      exact absurd hmlt (by unfold INTMAX; omega)
    · obtain ⟨k', hk'⟩ : ∃ k', k' ∈ p.2 := by
        cases hl : p.2 with
        | nil => rw [hl] at hpe; simp at hpe
        | cons a t => exact ⟨a, hl ▸ List.mem_cons_self a t⟩
      have hbp : bucketGet s.buckets p.1 = p.2 := by
        rw [bucketGet, alookup_of_mem_nodup s.buckets p hbs hp]
        rfl
      have hsnd := hsound p.1 k' (by rw [hbp]; exact hk')
      cases hlk2 : alookup s.nodeMap k' with
      | none => rw [hlk2] at hsnd; exact absurd hsnd (by simp)
      | some e2 =>
        rw [hlk2] at hsnd
        simp only [Option.map_some', Option.some.injEq] at hsnd
        have := hpos k' e2.1 e2.2 (by
          cases e2 with
          | mk a b => exact hlk2)
        rw [hpv, ← hsnd]
        exact this
  have hmne : ¬(minFold s.buckets INTMAX = INTMAX ∨
      minFold s.buckets INTMAX < 1) := by
    push_neg
    exact ⟨by omega, by omega⟩
  rw [updateMinFreq_minFreq, if_neg hmne]
  refine ⟨hm1, ?_, hminim⟩
  rcases (minFold_spec K s.buckets INTMAX).1 with h | ⟨p, hp, hpe, hpv⟩
  · rw [h] at hmlt
    exact absurd hmlt (by unfold INTMAX; omega)
  · rw [hpv]
    have hbp : bucketGet s.buckets p.1 = p.2 := by
      rw [bucketGet, alookup_of_mem_nodup s.buckets p hbs hp]
      rfl
    rw [hbp]
    intro hc
    rw [hc] at hpe
    simp at hpe

/-- Non-empty buckets carry positive frequencies. -/
theorem bucket_freq_pos (nm : List (K × V × Int)) (bs : List (Int × List K))
    (hC : Cons nm bs)
    (hpos : ∀ (k : K) (v : V) (f : Int), alookup nm k = some (v, f) → 1 ≤ f) :
    ∀ f : Int, bucketGet bs f ≠ [] → 1 ≤ f := by
  obtain ⟨hnm, hbs, hbnd, hsound, hcompl⟩ := hC
  intro f hf
  obtain ⟨k', hk'⟩ : ∃ k', k' ∈ bucketGet bs f := by
    cases hl : bucketGet bs f with
    | nil => exact absurd hl hf
    | cons a t => exact ⟨a, hl ▸ List.mem_cons_self a t⟩
  have hsnd := hsound f k' hk'
  cases hlk : alookup nm k' with
  | none => rw [hlk] at hsnd; exact absurd hsnd (by simp)
  | some e =>
    rw [hlk] at hsnd
    simp only [Option.map_some', Option.some.injEq] at hsnd
    have := hpos k' e.1 e.2 (by cases e with | mk a b => exact hlk)
    rw [← hsnd]
    exact this

theorem addFreqNum_NA_fields (s : LfuSt K V)
    (hcond : ¬(s.nodeMap ≠ [] ∧
      Int.tdiv (s.curTotalNum + 1) (s.nodeMap.length : Int) > s.maxAverageNum)) :
    (addFreqNum s).nodeMap = s.nodeMap ∧
    (addFreqNum s).buckets = s.buckets ∧
    (addFreqNum s).minFreq = s.minFreq ∧
    (addFreqNum s).capacity = s.capacity ∧
    (addFreqNum s).maxAverageNum = s.maxAverageNum := by
  unfold addFreqNum
  by_cases hemp : s.nodeMap.isEmpty
  · rw [if_pos hemp]
    exact ⟨rfl, rfl, rfl, rfl, rfl⟩
  · rw [if_neg hemp]
    have hne : s.nodeMap ≠ [] := by
      intro hc
      rw [hc] at hemp
      exact hemp rfl
    rw [if_neg (fun hc => hcond ⟨hne, hc⟩)]
    exact ⟨rfl, rfl, rfl, rfl, rfl⟩

theorem addFreqNum_cap (s : LfuSt K V) :
    (addFreqNum s).capacity = s.capacity ∧
    (addFreqNum s).maxAverageNum = s.maxAverageNum := by
  unfold addFreqNum
  by_cases hemp : s.nodeMap.isEmpty
  · rw [if_pos hemp]
    exact ⟨rfl, rfl⟩
  · rw [if_neg hemp]
    by_cases hcond : Int.tdiv (s.curTotalNum + 1) (s.nodeMap.length : Int) >
        s.maxAverageNum
    · rw [if_pos hcond]
      unfold handleOverMaxAverageNum
      by_cases hemp2 : s.nodeMap.isEmpty
      · rw [if_pos hemp2]
        exact ⟨rfl, rfl⟩
      · rw [if_neg hemp2]
        have h1 := aging_fold_fields (K := K) (V := V) s.maxAverageNum s.nodeMap
          { s with
            curTotalNum := s.curTotalNum + 1
            curAverageNum := Int.tdiv (s.curTotalNum + 1) (s.nodeMap.length : Int) }
        have h2 := updateMinFreq_fields (K := K) (V := V)
          (s.nodeMap.foldl (agingStep s.maxAverageNum) { s with
            curTotalNum := s.curTotalNum + 1
            curAverageNum := Int.tdiv (s.curTotalNum + 1) (s.nodeMap.length : Int) })
        exact ⟨by rw [h2.2.2.1]; exact h1.1, by rw [h2.2.2.2.1]; exact h1.2.2.1⟩
    · rw [if_neg hcond]
      exact ⟨rfl, rfl⟩

/-- Behaviour of `addFreqNum` relevant to the invariant: either nothing but
the counters changed, or aging ran, consistency survived, every frequency
was clamped to `max 1 (f - maxAverageNum_/2)`, and `minFreq_` was correctly
recomputed. -/
theorem addFreqNum_inv (s : LfuSt K V)
    (hC : Cons s.nodeMap s.buckets)
    (hpos : ∀ (k : K) (v : V) (f : Int),
      alookup s.nodeMap k = some (v, f) → 1 ≤ f)
    (hlt : ∀ (k : K) (v : V) (f : Int),
      alookup s.nodeMap k = some (v, f) → f < INTMAX)
    (hmax : 0 ≤ s.maxAverageNum) :
    ((addFreqNum s).nodeMap = s.nodeMap ∧ (addFreqNum s).buckets = s.buckets ∧
      (addFreqNum s).minFreq = s.minFreq) ∨
    (Cons (addFreqNum s).nodeMap (addFreqNum s).buckets ∧
      akeys (addFreqNum s).nodeMap = akeys s.nodeMap ∧
      (∀ (k : K) (v : V) (f : Int), alookup s.nodeMap k = some (v, f) →
        alookup (addFreqNum s).nodeMap k =
          some (v, max 1 (f - Int.tdiv s.maxAverageNum 2))) ∧
      (∀ (k : K) (v : V) (f : Int),
        alookup (addFreqNum s).nodeMap k = some (v, f) → 1 ≤ f ∧ f < INTMAX) ∧
      (s.nodeMap ≠ [] →
        1 ≤ (addFreqNum s).minFreq ∧
        bucketGet (addFreqNum s).buckets (addFreqNum s).minFreq ≠ [] ∧
        (∀ f : Int, bucketGet (addFreqNum s).buckets f ≠ [] →
          (addFreqNum s).minFreq ≤ f))) := by
  by_cases hcond : s.nodeMap ≠ [] ∧
      Int.tdiv (s.curTotalNum + 1) (s.nodeMap.length : Int) > s.maxAverageNum
  swap
  · left
    have h := addFreqNum_NA_fields s hcond
    exact ⟨h.1, h.2.1, h.2.2.1⟩
  right
  obtain ⟨hne, hgt⟩ := hcond
  have hemp : ¬s.nodeMap.isEmpty = true := by
    cases hl : s.nodeMap with
    | nil => exact absurd hl hne
    | cons a t => simp [hl]
  rw [addFreqNum_aging_eq s hemp hgt]
  set s1 : LfuSt K V := { s with
    curTotalNum := s.curTotalNum + 1
    curAverageNum := Int.tdiv (s.curTotalNum + 1) (s.nodeMap.length : Int) }
    with hs1
  have hs1nm : s1.nodeMap = s.nodeMap := by rw [hs1]
  have hs1bs : s1.buckets = s.buckets := by rw [hs1]
  have hs1mx : s1.maxAverageNum = s.maxAverageNum := by rw [hs1]
  have hemp1 : ¬s1.nodeMap.isEmpty = true := by rw [hs1nm]; exact hemp
  unfold handleOverMaxAverageNum
  rw [if_neg hemp1]
  have hd : 0 ≤ Int.tdiv s.maxAverageNum 2 := Int.tdiv_nonneg hmax (by norm_num)
  have hlk : ∀ e ∈ s1.nodeMap, alookup s1.nodeMap e.1 = some e.2 := by
    intro e he
    exact alookup_of_mem_nodup s1.nodeMap e (by rw [hs1nm]; exact hC.1) he
  have hCf := aging_fold_cons s1.maxAverageNum s1.nodeMap s1
    (by rw [hs1nm]; exact hC.1) hlk (by rw [hs1nm, hs1bs]; exact hC)
  have hLk := aging_fold_nodeMap s1.maxAverageNum s1.nodeMap s1
    (by rw [hs1nm]; exact hC.1) hlk
  set r := s1.nodeMap.foldl (agingStep s1.maxAverageNum) s1 with hr
  have hUf := updateMinFreq_fields (K := K) (V := V) r
  have hrpos : ∀ (k : K) (v : V) (f : Int),
      alookup r.nodeMap k = some (v, f) → 1 ≤ f := by
    intro k v f hf
    have hkin : k ∈ akeys r.nodeMap := by
      rw [← alookup_isSome_iff_mem_akeys, hf]
      rfl
    rw [hLk.1, hs1nm] at hkin
    rw [← alookup_isSome_iff_mem_akeys] at hkin
    cases hlk0 : alookup s.nodeMap k with
    | none => rw [hlk0] at hkin; exact absurd hkin (by simp)
    | some e =>
      have h2 := hLk.2.2 (k, e) (by
        rw [hs1nm]
        exact mem_of_alookup _ _ _ hlk0)
      rw [hs1mx] at h2
      rw [h2] at hf
      simp only [Option.some.injEq, Prod.mk.injEq] at hf
      rw [← hf.2]
      exact le_max_left _ _
  have hrlt : ∀ (k : K) (v : V) (f : Int),
      alookup r.nodeMap k = some (v, f) → f < INTMAX := by
    intro k v f hf
    have hkin : k ∈ akeys r.nodeMap := by
      rw [← alookup_isSome_iff_mem_akeys, hf]
      rfl
    rw [hLk.1, hs1nm] at hkin
    rw [← alookup_isSome_iff_mem_akeys] at hkin
    cases hlk0 : alookup s.nodeMap k with
    | none => rw [hlk0] at hkin; exact absurd hkin (by simp)
    | some e =>
      have h2 := hLk.2.2 (k, e) (by
        rw [hs1nm]
        exact mem_of_alookup _ _ _ hlk0)
      rw [hs1mx] at h2
      rw [h2] at hf
      simp only [Option.some.injEq, Prod.mk.injEq] at hf
      have hf1 : 1 ≤ e.2 := hpos k e.1 e.2 (by
        cases e with | mk a b => exact hlk0)
      have hfl : e.2 < INTMAX := hlt k e.1 e.2 (by
        cases e with | mk a b => exact hlk0)
      rw [← hf.2]
      have : max 1 (e.2 - Int.tdiv s.maxAverageNum 2) ≤ e.2 := by
        rcases le_total 1 (e.2 - Int.tdiv s.maxAverageNum 2) with hle | hle
        · rw [max_eq_right hle]; omega
        · rw [max_eq_left hle]; omega
      omega
  have hrne : r.nodeMap ≠ [] := by
    intro hc
    have h0 := hLk.1
    rw [hc] at h0
    have h2 : akeys s.nodeMap = ([] : List K) := h0.symm
    apply hne
    cases hl : s.nodeMap with
    | nil => rfl
    | cons a t => rw [hl] at h2; simp [akeys] at h2
  have hUc := updateMinFreq_correct r hCf hrpos hrlt hrne
  refine ⟨?_, ?_, ?_, ?_, ?_⟩
  · rw [hUf.1, hUf.2.1]
    exact hCf
  · rw [hUf.1, hLk.1, hs1nm]
  · intro k v f hf
    rw [hUf.1]
    have h2 := hLk.2.2 (k, (v, f)) (by
      rw [hs1nm]
      exact mem_of_alookup _ _ _ hf)
    rw [hs1mx] at h2
    exact h2
  · intro k v f hf
    rw [hUf.1] at hf
    exact ⟨hrpos k v f hf, hrlt k v f hf⟩
  · intro _
    refine ⟨hUc.1, ?_, ?_⟩
    · rw [hUf.2.1]
      exact hUc.2.1
    · intro f hf
      rw [hUf.2.1] at hf
      exact hUc.2.2 f hf

theorem bucketEnsure_of_isSome (bs : List (Int × List K)) (f : Int)
    (h : (alookup bs f).isSome) : bucketEnsure bs f = bs := by
  unfold bucketEnsure
  rw [if_pos h]

theorem bucketGet_isSome_of_ne_nil (bs : List (Int × List K)) (f : Int)
    (h : bucketGet bs f ≠ []) : (alookup bs f).isSome := by
  unfold bucketGet at h
  cases hl : alookup bs f with
  | none => rw [hl] at h; exact absurd rfl h
  | some l => rfl

/-- Unfolding of `getInternal` through a name for the post-`addFreqNum`
state. -/
theorem getInternalAux_state_eq (s : LfuSt K V) (key : K) (v : V) (f : Int)
    (s4 : LfuSt K V)
    (h4 : s4 = addFreqNum { s with
      nodeMap := nmSetFreq s.nodeMap key (f + 1)
      buckets := addToFreqList (removeFromFreqList s.buckets key f)
        key (f + 1) }) :
    (getInternalAux s key v f).2 =
      if ((alookup s4.nodeMap key).map (fun e => e.2)).getD (f + 1) - 1 =
          s4.minFreq then
        if (bucketGet (bucketEnsure s4.buckets s4.minFreq)
            s4.minFreq).isEmpty then
          { s4 with
            buckets := bucketEnsure s4.buckets s4.minFreq
            minFreq := s4.minFreq + 1 }
        else { s4 with buckets := bucketEnsure s4.buckets s4.minFreq }
      else s4 := by
  subst h4
  rfl

/-- `getInternal` preserves the `LfuCache` invariant (given bounded
frequencies and a non-negative `maxAverageNum_`) and leaves the capacity,
`maxAverageNum_` and key set unchanged. -/
theorem getInternalAux_inv (s : LfuSt K V) (key : K) (v : V) (f : Int)
    (hInv : Inv s) (hFB : FreqBound s) (hmax : 0 ≤ s.maxAverageNum)
    (hk : alookup s.nodeMap key = some (v, f)) :
    Inv (getInternalAux s key v f).2 ∧
    (getInternalAux s key v f).2.capacity = s.capacity ∧
    (getInternalAux s key v f).2.maxAverageNum = s.maxAverageNum ∧
    akeys (getInternalAux s key v f).2.nodeMap = akeys s.nodeMap := by
  obtain ⟨hC, hcap, hmf, hpos, hminI⟩ := hInv
  have hne : s.nodeMap ≠ [] := by
    intro hc
    rw [hc] at hk
    exact absurd hk (by simp)
  obtain ⟨hb, hmin⟩ := hminI hne
  have hC2 : Cons (nmSetFreq s.nodeMap key (f + 1))
      (addToFreqList (removeFromFreqList s.buckets key f) key (f + 1)) :=
    cons_move s.nodeMap s.buckets key v f (f + 1) hC hk
  have hk2 : alookup (nmSetFreq s.nodeMap key (f + 1)) key = some (v, f + 1) :=
    alookup_nmSetFreq_self s.nodeMap key (f + 1) v f hk
  have hak2 : akeys (nmSetFreq s.nodeMap key (f + 1)) = akeys s.nodeMap :=
    akeys_nmSetFreq s.nodeMap key (f + 1)
  have hposf : 1 ≤ f := hpos key v f hk
  have hpos2 : ∀ (k' : K) (v' : V) (g : Int),
      alookup (nmSetFreq s.nodeMap key (f + 1)) k' = some (v', g) → 1 ≤ g := by
    intro k' v' g hg
    by_cases hkk : k' = key
    · rw [hkk, hk2] at hg
      simp only [Option.some.injEq, Prod.mk.injEq] at hg
      obtain ⟨-, hg2⟩ := hg
      omega
    · rw [alookup_nmSetFreq_ne s.nodeMap key k' (f + 1) hkk] at hg
      exact hpos k' v' g hg
  have hlt2 : ∀ (k' : K) (v' : V) (g : Int),
      alookup (nmSetFreq s.nodeMap key (f + 1)) k' = some (v', g) →
        g < INTMAX := by
    intro k' v' g hg
    by_cases hkk : k' = key
    · rw [hkk, hk2] at hg
      simp only [Option.some.injEq, Prod.mk.injEq] at hg
      obtain ⟨-, hg2⟩ := hg
      have := hFB key v f hk
      omega
    · rw [alookup_nmSetFreq_ne s.nodeMap key k' (f + 1) hkk] at hg
      have := hFB k' v' g hg
      omega
  have hkb : key ∈ bucketGet s.buckets f := hC.2.2.2.2 key v f hk
  have hmlef : s.minFreq ≤ f := by
    refine hmin f ?_
    intro hc
    rw [hc] at hkb
    exact absurd hkb (List.not_mem_nil key)
  have hbs2_f1 : bucketGet
      (addToFreqList (removeFromFreqList s.buckets key f) key (f + 1)) (f + 1) =
      bucketGet s.buckets (f + 1) ++ [key] := by
    rw [bucketGet_add_self]
    rw [bucketGet_remove_ne _ _ _ _ (by omega)]
  have hbs2_f : bucketGet
      (addToFreqList (removeFromFreqList s.buckets key f) key (f + 1)) f =
      (bucketGet s.buckets f).erase key := by
    rw [bucketGet_add_ne _ _ _ _ (by omega)]
    exact bucketGet_remove_self _ _ _
  have hbs2_o : ∀ g : Int, g ≠ f → g ≠ f + 1 → bucketGet
      (addToFreqList (removeFromFreqList s.buckets key f) key (f + 1)) g =
      bucketGet s.buckets g := by
    intro g h1 h2
    rw [bucketGet_add_ne _ _ _ _ h2]
    exact bucketGet_remove_ne _ _ _ _ h1
  obtain ⟨s4, h4⟩ : ∃ s4, s4 = addFreqNum ({ s with
      nodeMap := nmSetFreq s.nodeMap key (f + 1)
      buckets := addToFreqList (removeFromFreqList s.buckets key f)
        key (f + 1) } : LfuSt K V) := ⟨_, rfl⟩
  rw [getInternalAux_state_eq s key v f s4 h4]
  have hAF := addFreqNum_inv ({ s with
      nodeMap := nmSetFreq s.nodeMap key (f + 1)
      buckets := addToFreqList (removeFromFreqList s.buckets key f)
        key (f + 1) } : LfuSt K V) hC2 hpos2 hlt2 hmax
  rw [← h4] at hAF
  have hcap4 := addFreqNum_cap ({ s with
      nodeMap := nmSetFreq s.nodeMap key (f + 1)
      buckets := addToFreqList (removeFromFreqList s.buckets key f)
        key (f + 1) } : LfuSt K V)
  rw [← h4] at hcap4
  have hc4 : s4.capacity = s.capacity := hcap4.1
  have hm4 : s4.maxAverageNum = s.maxAverageNum := hcap4.2
  rcases hAF with ⟨hnm4, hbs4, hmf4⟩ | ⟨hC4, hak4, hpt4, hpl4, hminf4⟩
  · -- no aging: node map, buckets and minFreq are those of the moved state
    have hmf4' : s4.minFreq = s.minFreq := hmf4
    have hlk4 : alookup s4.nodeMap key = some (v, f + 1) := by
      rw [hnm4]
      exact hk2
    have hnf : ((alookup s4.nodeMap key).map (fun e => e.2)).getD (f + 1) =
        f + 1 := by
      rw [hlk4]
      rfl
    have hC4 : Cons s4.nodeMap s4.buckets := by
      rw [hnm4, hbs4]
      exact hC2
    have hpos4 : ∀ (k' : K) (v' : V) (g : Int),
        alookup s4.nodeMap k' = some (v', g) → 1 ≤ g := by
      rw [hnm4]
      exact hpos2
    have hak4 : akeys s4.nodeMap = akeys s.nodeMap := by
      rw [hnm4]
      exact hak2
    have hnm4ne : s4.nodeMap ≠ [] := by
      intro hc
      have h0 : key ∈ akeys s4.nodeMap := by
        rw [← alookup_isSome_iff_mem_akeys, hlk4]
        rfl
      rw [hc] at h0
      exact absurd h0 (List.not_mem_nil key)
    have hb4f1 : bucketGet s4.buckets (f + 1) =
        bucketGet s.buckets (f + 1) ++ [key] := by
      rw [hbs4]
      exact hbs2_f1
    have hb4f : bucketGet s4.buckets f = (bucketGet s.buckets f).erase key := by
      rw [hbs4]
      exact hbs2_f
    have hb4o : ∀ g : Int, g ≠ f → g ≠ f + 1 →
        bucketGet s4.buckets g = bucketGet s.buckets g := by
      intro g h1 h2
      rw [hbs4]
      exact hbs2_o g h1 h2
    by_cases hcond : ((alookup s4.nodeMap key).map (fun e => e.2)).getD (f + 1)
        - 1 = s4.minFreq
    · rw [if_pos hcond]
      rw [hnf] at hcond
      have hfm : f = s.minFreq := by omega
      have hsome4 : (alookup s4.buckets s4.minFreq).isSome := by
        rw [hbs4, hmf4', ← hfm]
        show (alookup
          (addToFreqList (removeFromFreqList s.buckets key f) key (f + 1))
          f).isSome
        unfold addToFreqList bucketSet
        rw [alookup_aupdate_ne _ _ _ _ (by omega : (f + 1 : Int) ≠ f)]
        unfold removeFromFreqList bucketSet
        rw [alookup_aupdate_self]
        rfl
      have hEns := bucketEnsure_of_isSome s4.buckets s4.minFreq hsome4
      rw [hEns]
      by_cases herase : (bucketGet s.buckets f).erase key = []
      · have hET : (bucketGet s4.buckets s4.minFreq).isEmpty = true := by
          rw [hmf4', ← hfm, hb4f, herase]
          rfl
        rw [if_pos hET]
        refine ⟨⟨hC4, ?_, ?_, hpos4, ?_⟩, hc4, hm4, hak4⟩
        · show 1 ≤ s4.capacity
          rw [hc4]
          exact hcap
        · show 1 ≤ s4.minFreq + 1
          rw [hmf4']
          omega
        · intro _
          constructor
          · show bucketGet s4.buckets (s4.minFreq + 1) ≠ []
            rw [hmf4', ← hfm, hb4f1]
            simp
          · intro g hg
            have hg' : bucketGet s4.buckets g ≠ [] := hg
            show s4.minFreq + 1 ≤ g
            rw [hmf4', ← hfm]
            by_cases hgf : g = f
            · rw [hgf, hb4f, herase] at hg'
              exact absurd rfl hg'
            · by_cases hgf1 : g = f + 1
              · omega
              · rw [hb4o g hgf hgf1] at hg'
                have := hmin g hg'
                omega
      · have hEF : (bucketGet s4.buckets s4.minFreq).isEmpty = false := by
          rw [hmf4', ← hfm, hb4f]
          cases hl : (bucketGet s.buckets f).erase key with
          | nil => exact absurd hl herase
          | cons a t => rfl
        rw [if_neg (by rw [hEF]; exact Bool.false_ne_true)]
        refine ⟨⟨hC4, ?_, ?_, hpos4, ?_⟩, hc4, hm4, hak4⟩
        · show 1 ≤ s4.capacity
          rw [hc4]
          exact hcap
        · show 1 ≤ s4.minFreq
          rw [hmf4']
          exact hmf
        · intro _
          constructor
          · show bucketGet s4.buckets s4.minFreq ≠ []
            rw [hmf4', ← hfm, hb4f]
            exact herase
          · intro g hg
            have hg' : bucketGet s4.buckets g ≠ [] := hg
            show s4.minFreq ≤ g
            rw [hmf4', ← hfm]
            by_cases hgf : g = f
            · omega
            · by_cases hgf1 : g = f + 1
              · omega
              · rw [hb4o g hgf hgf1] at hg'
                have := hmin g hg'
                omega
    · rw [if_neg hcond]
      rw [hnf] at hcond
      have hfne : f ≠ s.minFreq := by omega
      refine ⟨⟨hC4, ?_, ?_, hpos4, ?_⟩, hc4, hm4, hak4⟩
      · rw [hc4]
        exact hcap
      · rw [hmf4']
        exact hmf
      · intro _
        constructor
        · rw [hmf4']
          rw [hb4o s.minFreq (fun hc => hfne hc.symm) (by omega)]
          exact hb
        · intro g hg
          rw [hmf4']
          by_cases hgf : g = f
          · rw [hgf]
            exact hmlef
          · by_cases hgf1 : g = f + 1
            · rw [hgf1]
              omega
            · rw [hb4o g hgf hgf1] at hg
              exact hmin g hg
  · -- aging ran: `minFreq_` was freshly recomputed
    have hnm2ne : nmSetFreq s.nodeMap key (f + 1) ≠ [] := by
      intro hc
      have h0 : key ∈ akeys (nmSetFreq s.nodeMap key (f + 1)) := by
        rw [← alookup_isSome_iff_mem_akeys, hk2]
        rfl
      rw [hc] at h0
      exact absurd h0 (List.not_mem_nil key)
    obtain ⟨hmfpos, hbne, hminim⟩ := hminf4 hnm2ne
    have hmain : Inv s4 ∧ s4.capacity = s.capacity ∧
        s4.maxAverageNum = s.maxAverageNum ∧
        akeys s4.nodeMap = akeys s.nodeMap := by
      refine ⟨⟨hC4, ?_, hmfpos, ?_, ?_⟩, hc4, hm4, hak4.trans hak2⟩
      · rw [hc4]
        exact hcap
      · intro k' v' g hg
        exact (hpl4 k' v' g hg).1
      · intro _
        exact ⟨hbne, hminim⟩
    by_cases hcond : ((alookup s4.nodeMap key).map (fun e => e.2)).getD (f + 1)
        - 1 = s4.minFreq
    · rw [if_pos hcond]
      have hsome4 := bucketGet_isSome_of_ne_nil s4.buckets s4.minFreq hbne
      have hEns := bucketEnsure_of_isSome s4.buckets s4.minFreq hsome4
      rw [hEns]
      have hEF : (bucketGet s4.buckets s4.minFreq).isEmpty = false := by
        cases hl : bucketGet s4.buckets s4.minFreq with
        | nil => exact absurd hl hbne
        | cons a t => rfl
      rw [if_neg (by rw [hEF]; exact Bool.false_ne_true)]
      exact hmain
    · rw [if_neg hcond]
      exact hmain

theorem decreaseFreqNum_fields (s : LfuSt K V) (num : Int) :
    (decreaseFreqNum s num).nodeMap = s.nodeMap ∧
    (decreaseFreqNum s num).buckets = s.buckets ∧
    (decreaseFreqNum s num).minFreq = s.minFreq ∧
    (decreaseFreqNum s num).capacity = s.capacity ∧
    (decreaseFreqNum s num).maxAverageNum = s.maxAverageNum := by
  unfold decreaseFreqNum
  by_cases h : num ≤ 0
  · rw [if_pos h]
    exact ⟨rfl, rfl, rfl, rfl, rfl⟩
  · rw [if_neg h]
    exact ⟨rfl, rfl, rfl, rfl, rfl⟩

/-- On an invariant-satisfying non-empty cache `kickOut` succeeds and
removes one node (recorded at `minFreq_`), leaving a consistent sub-map
with all scalar cache parameters unchanged. -/
theorem kickOut_inv (s : LfuSt K V) (hInv : Inv s) (hne : s.nodeMap ≠ []) :
    ∃ s1 : LfuSt K V, kickOut s = some s1 ∧
      Cons s1.nodeMap s1.buckets ∧
      (∀ (k : K) (a : V × Int), alookup s1.nodeMap k = some a →
        alookup s.nodeMap k = some a) ∧
      s1.minFreq = s.minFreq ∧
      s1.capacity = s.capacity ∧
      s1.maxAverageNum = s.maxAverageNum ∧
      (∀ k : K, alookup s.nodeMap k = none → alookup s1.nodeMap k = none) := by
  obtain ⟨hC, hcap, hmf, hpos, hminI⟩ := hInv
  obtain ⟨hb, hmin⟩ := hminI hne
  cases hl : alookup s.buckets s.minFreq with
  | none =>
    exfalso
    apply hb
    unfold bucketGet
    rw [hl]
    rfl
  | some l =>
    have hlval : l = bucketGet s.buckets s.minFreq := by
      unfold bucketGet
      rw [hl]
      rfl
    cases l with
    | nil => exact absurd hlval.symm hb
    | cons k0 rest =>
      have hk0mem : k0 ∈ bucketGet s.buckets s.minFreq := by
        rw [← hlval]
        exact List.mem_cons_self _ _
      have hsnd := hC.2.2.2.1 s.minFreq k0 hk0mem
      cases hlk0 : alookup s.nodeMap k0 with
      | none => rw [hlk0] at hsnd; exact absurd hsnd (by simp)
      | some e =>
        obtain ⟨v0, g0⟩ := e
        rw [hlk0] at hsnd
        simp only [Option.map_some', Option.some.injEq] at hsnd
        have hlk0' : alookup s.nodeMap k0 = some (v0, s.minFreq) := by
          rw [hlk0, hsnd]
        have hf0 : ((alookup s.nodeMap k0).map (fun e => e.2)).getD s.minFreq =
            s.minFreq := by
          rw [hlk0]
          simp [hsnd]
        have hkick : kickOut s = some (decreaseFreqNum ({ s with
            buckets := removeFromFreqList s.buckets k0
              (((alookup s.nodeMap k0).map (fun e => e.2)).getD s.minFreq)
            nodeMap := aerase s.nodeMap k0 } : LfuSt K V)
            (((alookup s.nodeMap k0).map (fun e => e.2)).getD s.minFreq)) := by
          unfold kickOut
          rw [hl]
        rw [hf0] at hkick
        have hd := decreaseFreqNum_fields ({ s with
            buckets := removeFromFreqList s.buckets k0 s.minFreq
            nodeMap := aerase s.nodeMap k0 } : LfuSt K V) s.minFreq
        refine ⟨_, hkick, ?_, ?_, ?_, ?_, ?_, ?_⟩
        · rw [hd.1, hd.2.1]
          exact cons_delete s.nodeMap s.buckets k0 v0 s.minFreq hC hlk0'
        · intro k a ha
          rw [hd.1] at ha
          by_cases hkk : k = k0
          · rw [hkk] at ha
            rw [alookup_aerase_self s.nodeMap k0 hC.1] at ha
            exact absurd ha (by simp)
          · rw [alookup_aerase_ne s.nodeMap k0 k
              (fun hc => hkk hc.symm)] at ha
            exact ha
        · exact hd.2.2.1
        · exact hd.2.2.2.1
        · exact hd.2.2.2.2
        · intro k hka
          rw [hd.1]
          by_cases hkk : k = k0
          · rw [hkk]
            exact alookup_aerase_self s.nodeMap k0 hC.1
          · rw [alookup_aerase_ne s.nodeMap k0 k (fun hc => hkk hc.symm)]
            exact hka

theorem putInternal_kick_eq (s : LfuSt K V) (key : K) (v : V)
    (s1 : LfuSt K V) (hfull : (s.nodeMap.length : Int) = s.capacity)
    (hkick : kickOut s = some s1) :
    putInternal s key v = some { addFreqNum { s1 with
        nodeMap := aupdate s1.nodeMap key (v, 1)
        buckets := addToFreqList s1.buckets key 1 } with
      minFreq := min (addFreqNum { s1 with
        nodeMap := aupdate s1.nodeMap key (v, 1)
        buckets := addToFreqList s1.buckets key 1 }).minFreq 1 } := by
  unfold putInternal
  rw [if_pos hfull, hkick]

theorem putInternal_nokick_eq (s : LfuSt K V) (key : K) (v : V)
    (hfull : ¬((s.nodeMap.length : Int) = s.capacity)) :
    putInternal s key v = some { addFreqNum { s with
        nodeMap := aupdate s.nodeMap key (v, 1)
        buckets := addToFreqList s.buckets key 1 } with
      minFreq := min (addFreqNum { s with
        nodeMap := aupdate s.nodeMap key (v, 1)
        buckets := addToFreqList s.buckets key 1 }).minFreq 1 } := by
  unfold putInternal
  rw [if_neg hfull]

/-- The tail of `putInternal`: inserting a fresh node at frequency 1 and
running `addFreqNum`, then forcing `minFreq_` to `min(minFreq_, 1)`,
restores the invariant. -/
theorem insert_tail_inv (t : LfuSt K V) (key : K) (v : V) (s3 : LfuSt K V)
    (h3 : s3 = addFreqNum { t with
      nodeMap := aupdate t.nodeMap key (v, 1)
      buckets := addToFreqList t.buckets key 1 })
    (hC : Cons t.nodeMap t.buckets)
    (hpos : ∀ (k : K) (v' : V) (f : Int),
      alookup t.nodeMap k = some (v', f) → 1 ≤ f)
    (hlt : ∀ (k : K) (v' : V) (f : Int),
      alookup t.nodeMap k = some (v', f) → f < INTMAX)
    (hmf : 1 ≤ t.minFreq) (hcap : 1 ≤ t.capacity)
    (hmax : 0 ≤ t.maxAverageNum)
    (hk : alookup t.nodeMap key = none) :
    Inv { s3 with minFreq := min s3.minFreq 1 } ∧
    s3.capacity = t.capacity ∧ s3.maxAverageNum = t.maxAverageNum := by
  have hk2 : alookup (aupdate t.nodeMap key (v, 1)) key = some (v, 1) :=
    alookup_aupdate_self t.nodeMap key (v, 1)
  have hC2 : Cons (aupdate t.nodeMap key (v, 1))
      (addToFreqList t.buckets key 1) :=
    cons_insert t.nodeMap t.buckets key v hC hk
  have hpos2 : ∀ (k' : K) (v' : V) (g : Int),
      alookup (aupdate t.nodeMap key (v, 1)) k' = some (v', g) → 1 ≤ g := by
    intro k' v' g hg
    by_cases hkk : k' = key
    · rw [hkk, hk2] at hg
      simp only [Option.some.injEq, Prod.mk.injEq] at hg
      omega
    · rw [alookup_aupdate_ne t.nodeMap key k' (v, 1)
        (fun hc => hkk hc.symm)] at hg
      exact hpos k' v' g hg
  have hlt2 : ∀ (k' : K) (v' : V) (g : Int),
      alookup (aupdate t.nodeMap key (v, 1)) k' = some (v', g) →
        g < INTMAX := by
    intro k' v' g hg
    by_cases hkk : k' = key
    · rw [hkk, hk2] at hg
      simp only [Option.some.injEq, Prod.mk.injEq] at hg
      obtain ⟨-, hg2⟩ := hg
      rw [← hg2]
      norm_num [INTMAX]
    · rw [alookup_aupdate_ne t.nodeMap key k' (v, 1)
        (fun hc => hkk hc.symm)] at hg
      exact hlt k' v' g hg
  have hAF := addFreqNum_inv ({ t with
      nodeMap := aupdate t.nodeMap key (v, 1)
      buckets := addToFreqList t.buckets key 1 } : LfuSt K V)
    hC2 hpos2 hlt2 hmax
  rw [← h3] at hAF
  have hcap3 := addFreqNum_cap ({ t with
      nodeMap := aupdate t.nodeMap key (v, 1)
      buckets := addToFreqList t.buckets key 1 } : LfuSt K V)
  rw [← h3] at hcap3
  have hc3 : s3.capacity = t.capacity := hcap3.1
  have hm3 : s3.maxAverageNum = t.maxAverageNum := hcap3.2
  rcases hAF with ⟨hnm3, hbs3, hmf3⟩ | ⟨hC3, hak3, hpt3, hpl3, hminf3⟩
  · -- no aging
    have hmf3' : s3.minFreq = t.minFreq := hmf3
    have hminval : min s3.minFreq 1 = 1 := min_eq_right (by omega)
    have hC3 : Cons s3.nodeMap s3.buckets := by
      rw [hnm3, hbs3]
      exact hC2
    have hpos3 : ∀ (k' : K) (v' : V) (g : Int),
        alookup s3.nodeMap k' = some (v', g) → 1 ≤ g := by
      rw [hnm3]
      exact hpos2
    refine ⟨⟨hC3, ?_, ?_, hpos3, ?_⟩, hc3, hm3⟩
    · show 1 ≤ s3.capacity
      omega
    · show 1 ≤ min s3.minFreq 1
      omega
    · intro _
      constructor
      · show bucketGet s3.buckets (min s3.minFreq 1) ≠ []
        rw [hminval, hbs3]
        show bucketGet (addToFreqList t.buckets key 1) 1 ≠ []
        rw [bucketGet_add_self]
        simp
      · intro g hg
        have hg' : bucketGet s3.buckets g ≠ [] := hg
        show min s3.minFreq 1 ≤ g
        rw [hminval]
        exact bucket_freq_pos s3.nodeMap s3.buckets hC3 hpos3 g hg'
  · -- aging ran
    have hne2 : aupdate t.nodeMap key (v, 1) ≠ [] := by
      intro hc
      have h0 : key ∈ akeys (aupdate t.nodeMap key (v, 1)) := by
        rw [← alookup_isSome_iff_mem_akeys, hk2]
        rfl
      rw [hc] at h0
      exact absurd h0 (List.not_mem_nil key)
    obtain ⟨hm3pos, hb3, hmin3⟩ := hminf3 hne2
    have hd : 0 ≤ Int.tdiv t.maxAverageNum 2 :=
      Int.tdiv_nonneg hmax (by norm_num)
    have hkey3 : alookup s3.nodeMap key = some (v, 1) := by
      have h1 := hpt3 key v 1 hk2
      rw [h1]
      have h2 : max 1 (1 - Int.tdiv t.maxAverageNum 2) = 1 :=
        max_eq_left (by omega)
      exact congrArg (fun z => some (v, z)) h2
    have hpos3 : ∀ (k' : K) (v' : V) (g : Int),
        alookup s3.nodeMap k' = some (v', g) → 1 ≤ g := by
      intro k' v' g hg
      exact (hpl3 k' v' g hg).1
    have hminval : min s3.minFreq 1 = 1 := min_eq_right hm3pos
    refine ⟨⟨hC3, ?_, ?_, hpos3, ?_⟩, hc3, hm3⟩
    · show 1 ≤ s3.capacity
      omega
    · show 1 ≤ min s3.minFreq 1
      omega
    · intro _
      constructor
      · show bucketGet s3.buckets (min s3.minFreq 1) ≠ []
        rw [hminval]
        have hkin : key ∈ bucketGet s3.buckets 1 := hC3.2.2.2.2 key v 1 hkey3
        intro hc
        rw [hc] at hkin
        exact absurd hkin (List.not_mem_nil key)
      · intro g hg
        have hg' : bucketGet s3.buckets g ≠ [] := hg
        show min s3.minFreq 1 ≤ g
        rw [hminval]
        exact bucket_freq_pos s3.nodeMap s3.buckets hC3 hpos3 g hg'

/-- `putInternal` on a missing key keeps the invariant (given bounded
frequencies and non-negative `maxAverageNum_`) and succeeds. -/
theorem putInternal_inv (s : LfuSt K V) (key : K) (v : V)
    (hInv : Inv s) (hFB : FreqBound s) (hmax : 0 ≤ s.maxAverageNum)
    (hk : alookup s.nodeMap key = none) :
    ∃ s' : LfuSt K V, putInternal s key v = some s' ∧ Inv s' ∧
      s'.capacity = s.capacity ∧ s'.maxAverageNum = s.maxAverageNum := by
  have hltS : ∀ (k' : K) (v' : V) (f : Int),
      alookup s.nodeMap k' = some (v', f) → f < INTMAX := by
    intro k' v' f hf
    have := hFB k' v' f hf
    omega
  by_cases hfull : (s.nodeMap.length : Int) = s.capacity
  · have hne : s.nodeMap ≠ [] := by
      intro hc
      rw [hc] at hfull
      simp at hfull
      have := hInv.2.1
      omega
    obtain ⟨s1, hkick, hC1, hsub, hmf1, hcap1, hmax1, hnone1⟩ :=
      kickOut_inv s hInv hne
    have heq := putInternal_kick_eq s key v s1 hfull hkick
    have hmain := insert_tail_inv s1 key v _ rfl hC1
      (fun k' v' g hg => hInv.2.2.2.1 k' v' g (hsub k' (v', g) hg))
      (fun k' v' g hg => hltS k' v' g (hsub k' (v', g) hg))
      (by rw [hmf1]; exact hInv.2.2.1)
      (by rw [hcap1]; exact hInv.2.1)
      (by rw [hmax1]; exact hmax)
      (hnone1 key hk)
    refine ⟨_, heq, hmain.1, ?_, ?_⟩
    · show (addFreqNum { s1 with
          nodeMap := aupdate s1.nodeMap key (v, 1)
          buckets := addToFreqList s1.buckets key 1 }).capacity = s.capacity
      rw [hmain.2.1]
      exact hcap1
    · show (addFreqNum { s1 with
          nodeMap := aupdate s1.nodeMap key (v, 1)
          buckets := addToFreqList s1.buckets key 1 }).maxAverageNum =
        s.maxAverageNum
      rw [hmain.2.2]
      exact hmax1
  · have heq := putInternal_nokick_eq s key v hfull
    have hmain := insert_tail_inv s key v _ rfl hInv.1 hInv.2.2.2.1 hltS
      hInv.2.2.1 hInv.2.1 hmax hk
    exact ⟨_, heq, hmain.1, hmain.2.1, hmain.2.2⟩

/-- `purge` re-establishes the invariant outright. -/
theorem purge_inv (s : LfuSt K V) (hcap : 1 ≤ s.capacity) :
    Inv (purge s) := by
  refine ⟨⟨?_, ?_, ?_, ?_, ?_⟩, ?_, ?_, ?_, ?_⟩
  · show (akeys ([] : List (K × V × Int))).Nodup
    exact List.nodup_nil
  · show (akeys ([] : List (Int × List K))).Nodup
    exact List.nodup_nil
  · intro f
    exact List.nodup_nil
  · intro f k hk
    exact absurd hk (List.not_mem_nil k)
  · intro k v f hf
    exact Option.noConfusion hf
  · exact hcap
  · show (1 : Int) ≤ INTMAX
    norm_num [INTMAX]
  · intro k v f hf
    exact Option.noConfusion hf
  · intro hne
    exact absurd rfl hne

/-- Every public `LfuCache` operation preserves the invariant (given
bounded frequencies and a non-negative `maxAverageNum_`), succeeds
(`kickOut` cannot throw), and keeps the capacity. -/
theorem lfuStep_inv (s : LfuSt K V) (op : LfuOp K V)
    (hInv : Inv s) (hFB : FreqBound s) (hmax : 0 ≤ s.maxAverageNum) :
    ∃ s' : LfuSt K V, lfuStep s op = some s' ∧ Inv s' ∧
      s'.capacity = s.capacity := by
  cases op with
  | put key v =>
    show ∃ s', put s key v = some s' ∧ _
    cases hlk : alookup s.nodeMap key with
    | none =>
      obtain ⟨s', h1, h2, h3, -⟩ := putInternal_inv s key v hInv hFB hmax hlk
      refine ⟨s', ?_, h2, h3⟩
      unfold put
      rw [hlk]
      exact h1
    | some e =>
      obtain ⟨v0, f⟩ := e
      have hlk1 : alookup (nmSetValue s.nodeMap key v) key = some (v, f) :=
        nmSetValue_alookup_self s.nodeMap key v v0 f hlk
      have hC1 : Cons (nmSetValue s.nodeMap key v) s.buckets :=
        cons_setValue s.nodeMap s.buckets key v v0 f hInv.1 hlk
      have hpos1 : ∀ (k' : K) (v' : V) (g : Int),
          alookup (nmSetValue s.nodeMap key v) k' = some (v', g) → 1 ≤ g := by
        intro k' v' g hg
        by_cases hkk : k' = key
        · rw [hkk, hlk1] at hg
          simp only [Option.some.injEq, Prod.mk.injEq] at hg
          obtain ⟨-, hg2⟩ := hg
          have := hInv.2.2.2.1 key v0 f hlk
          omega
        · rw [nmSetValue_alookup_ne s.nodeMap key k' v hkk] at hg
          exact hInv.2.2.2.1 k' v' g hg
      have hFB1 : ∀ (k' : K) (v' : V) (g : Int),
          alookup (nmSetValue s.nodeMap key v) k' = some (v', g) →
            g ≤ INTMAX - 2 := by
        intro k' v' g hg
        by_cases hkk : k' = key
        · rw [hkk, hlk1] at hg
          simp only [Option.some.injEq, Prod.mk.injEq] at hg
          obtain ⟨-, hg2⟩ := hg
          have := hFB key v0 f hlk
          omega
        · rw [nmSetValue_alookup_ne s.nodeMap key k' v hkk] at hg
          exact hFB k' v' g hg
      have hInv1 : Inv ({ s with
          nodeMap := nmSetValue s.nodeMap key v } : LfuSt K V) := by
        refine ⟨hC1, hInv.2.1, hInv.2.2.1, hpos1, ?_⟩
        intro hne1
        have hne : s.nodeMap ≠ [] := by
          intro hc
          apply hne1
          show nmSetValue s.nodeMap key v = []
          rw [hc]
          rfl
        exact hInv.2.2.2.2 hne
      have h := getInternalAux_inv ({ s with
          nodeMap := nmSetValue s.nodeMap key v } : LfuSt K V)
        key v f hInv1 hFB1 hmax hlk1
      refine ⟨(getInternalAux ({ s with
          nodeMap := nmSetValue s.nodeMap key v } : LfuSt K V)
          key v f).2, ?_, h.1, h.2.1⟩
      unfold put
      rw [hlk]
  | get key =>
    show ∃ s', some (LfuSt.get s key).2 = some s' ∧ _
    cases hlk : alookup s.nodeMap key with
    | none =>
      refine ⟨s, ?_, hInv, rfl⟩
      unfold LfuSt.get
      rw [hlk]
    | some e =>
      obtain ⟨v, f⟩ := e
      have h := getInternalAux_inv s key v f hInv hFB hmax hlk
      refine ⟨(getInternalAux s key v f).2, ?_, h.1, h.2.1⟩
      unfold LfuSt.get
      rw [hlk]
  | purge =>
    exact ⟨purge s, rfl, purge_inv s hInv.2.1, rfl⟩

end LfuSt

/-- The freshly-constructed LFU state satisfies the invariant (for any
`maxAverageNum`, validated or not). -/
theorem lfu_inv_init (K V : Type) [DecidableEq K] (cap mx : Int)
    (hcap : 1 ≤ cap) :
    LfuSt.Inv (⟨cap, INTMAX, mx, 0, 0, [], []⟩ : LfuSt K V) :=
  ⟨⟨List.nodup_nil, List.nodup_nil, fun _ => List.nodup_nil,
    fun _ k hk => absurd hk (List.not_mem_nil k),
    fun _ _ _ hf => Option.noConfusion hf⟩, hcap, by norm_num [INTMAX],
    fun _ _ _ hf => Option.noConfusion hf, fun hne => absurd rfl hne⟩

/-- **C6** (counterexample to the claim as stated): the `LfuCache`
constructor accepts `maxAverageNum = -4` unvalidated; on the resulting
cache of capacity 1, a single `put(0, 7)` triggers aging (the average
`1/1 = 1` exceeds `-4`), which lifts the node's frequency to
`3 = max(1, 1+1-(-4)/2)` yet leaves `minFreq_ = 1` whose list is empty, so
`minFreq_` is not the smallest non-empty frequency after a public
operation on a non-empty cache; a second `put(1, 8)` then reaches the
error branch in `kickOut`, which the claim calls unreachable. -/
theorem claim_C6_lfu_minfreq_counterexample :
    LfuSt.create Nat Nat 1 (-4) =
      Except.ok (⟨1, INTMAX, -4, 0, 0, [], []⟩ : LfuSt Nat Nat) ∧
    (lfuRun (⟨1, INTMAX, -4, 0, 0, [], []⟩ : LfuSt Nat Nat)
        [LfuOp.put 0 7]).map (fun s =>
      (s.nodeMap.isEmpty, s.minFreq,
        LfuSt.bucketGet s.buckets s.minFreq, LfuSt.bucketGet s.buckets 3)) =
      some (false, 1, [], [0]) ∧
    lfuRun (⟨1, INTMAX, -4, 0, 0, [], []⟩ : LfuSt Nat Nat)
      [LfuOp.put 0 7, LfuOp.put 1 8] = none :=
  ⟨rfl, by decide, by decide⟩

/-- **C6** (amended): provided `maxAverageNum_` is non-negative (which the
constructor fails to validate) and every recorded frequency is at most
`INT_MAX - 2`, each public operation preserves the consistency invariant,
always succeeds — so the error branch in `kickOut` is unreachable — and
leaves `minFreq_` equal to the smallest frequency whose list is non-empty
whenever the cache is non-empty. -/
theorem claim_C6_lfu_minfreq_amended (K V : Type) [DecidableEq K]
    (s : LfuSt K V) (op : LfuOp K V)
    (hInv : LfuSt.Inv s) (hFB : LfuSt.FreqBound s)
    (hmax : 0 ≤ s.maxAverageNum) :
    (lfuStep s op).elim False (fun s' =>
      LfuSt.Inv s' ∧
      (s'.nodeMap ≠ [] → LfuSt.bucketGet s'.buckets s'.minFreq ≠ [] ∧
        ∀ f : Int, LfuSt.bucketGet s'.buckets f ≠ [] → s'.minFreq ≤ f)) := by
  obtain ⟨s', h1, h2, -⟩ := LfuSt.lfuStep_inv s op hInv hFB hmax
  rw [h1]
  exact ⟨h2, h2.2.2.2.2⟩

/-- Witness for the amended C6 on a concrete fresh cache of capacity 2. -/
theorem claim_C6_lfu_minfreq_amended_witness :
    LfuSt.Inv (⟨2, INTMAX, 10, 0, 0, [], []⟩ : LfuSt Nat Nat) ∧
    LfuSt.FreqBound (⟨2, INTMAX, 10, 0, 0, [], []⟩ : LfuSt Nat Nat) ∧
    0 ≤ (⟨2, INTMAX, 10, 0, 0, [], []⟩ : LfuSt Nat Nat).maxAverageNum ∧
    (lfuStep (⟨2, INTMAX, 10, 0, 0, [], []⟩ : LfuSt Nat Nat)
        (LfuOp.put 0 5)).elim False (fun s' =>
      LfuSt.Inv s' ∧
      (s'.nodeMap ≠ [] → LfuSt.bucketGet s'.buckets s'.minFreq ≠ [] ∧
        ∀ f : Int, LfuSt.bucketGet s'.buckets f ≠ [] → s'.minFreq ≤ f)) :=
  ⟨lfu_inv_init Nat Nat 2 10 (by norm_num),
    fun _ _ _ hf => Option.noConfusion hf, by norm_num,
    claim_C6_lfu_minfreq_amended Nat Nat
      (⟨2, INTMAX, 10, 0, 0, [], []⟩ : LfuSt Nat Nat) (LfuOp.put 0 5)
      (lfu_inv_init Nat Nat 2 10 (by norm_num))
      (fun _ _ _ hf => Option.noConfusion hf) (by norm_num)⟩

/-! ## The ARC cache (`ArcCache` = `ArcLruPart` + `ArcLfuPart`)

Nodes are heap objects shared between the hash maps and the intrusive
lists, so the embedding keeps an explicit node store (`nodes`, keyed by an
allocation id) per part; `mainCache_`/`ghostCache_` map keys to node ids
and the intrusive lists are id sequences (head first = most recent).
`removeNode` (a pointer unlink) erases the id from whichever list holds
it, matching the `!prev_.expired() && next_` guard. -/

/-- An `ArcNode`: key, value and access count (`prev_`/`next_` are
represented by list membership). -/
structure ArcNodeData (K V : Type) where
  key : K
  value : V
  accessCount : Nat
deriving Repr, DecidableEq

/-- State of an `ArcLruPart`. -/
structure ArcLruSt (K V : Type) where
  capacity : Nat
  ghostCapacity : Nat
  transformThreshold : Nat
  nodes : List (Nat × ArcNodeData K V)
  nextId : Nat
  mainCache : List (K × Nat)
  ghostCache : List (K × Nat)
  mainList : List Nat
  ghostList : List Nat
deriving Repr, DecidableEq

namespace ArcLruSt

variable {K V : Type} [DecidableEq K]

/-- `ArcLruPart::removeNode`: unlink from whichever list holds the node. -/
def removeNode (s : ArcLruSt K V) (n : Nat) : ArcLruSt K V :=
  { s with mainList := s.mainList.erase n, ghostList := s.ghostList.erase n }

/-- `ArcLruPart::addToFront`. -/
def addToFront (s : ArcLruSt K V) (n : Nat) : ArcLruSt K V :=
  { s with mainList := n :: s.mainList }

/-- `ArcLruPart::moveToFront`. -/
def moveToFront (s : ArcLruSt K V) (n : Nat) : ArcLruSt K V :=
  addToFront (removeNode s n) n

/-- `node->setValue(value)`. -/
def setValue (s : ArcLruSt K V) (n : Nat) (v : V) : ArcLruSt K V :=
  { s with nodes :=
      match alookup s.nodes n with
      | some d => aupdate s.nodes n { d with value := v }
      | none => s.nodes }

/-- `node->incrementAccessCount()`. -/
def incAccess (s : ArcLruSt K V) (n : Nat) : ArcLruSt K V :=
  { s with nodes :=
      match alookup s.nodes n with
      | some d => aupdate s.nodes n { d with accessCount := d.accessCount + 1 }
      | none => s.nodes }

/-- `ArcLruPart::resetAccessCount`. -/
def resetAccess (s : ArcLruSt K V) (n : Nat) : ArcLruSt K V :=
  { s with nodes :=
      match alookup s.nodes n with
      | some d => aupdate s.nodes n { d with accessCount := 1 }
      | none => s.nodes }

/-- `ArcLruPart::updateExistingNode`. -/
def updateExistingNode (s : ArcLruSt K V) (n : Nat) (v : V) :
    Bool × ArcLruSt K V :=
  (true, moveToFront (setValue s n v) n)

/-- `ArcLruPart::addToGhost`: reset the count, link at the ghost head and
record the key. -/
def addToGhost (s : ArcLruSt K V) (n : Nat) : ArcLruSt K V :=
  let s1 := resetAccess s n
  match alookup s1.nodes n with
  | some d => { s1 with
      ghostList := n :: s1.ghostList
      ghostCache := aupdate s1.ghostCache d.key n }
  | none => s1

/-- `ArcLruPart::removeOldestGhost`. -/
def removeOldestGhost (s : ArcLruSt K V) : ArcLruSt K V :=
  match s.ghostList.getLast? with
  | none => s
  | some n =>
    let s1 := removeNode s n
    match alookup s1.nodes n with
    | some d => { s1 with ghostCache := aerase s1.ghostCache d.key }
    | none => s1

/-- `ArcLruPart::evictLeastRecent`: the victim is the last *linked* main
node; when the intrusive list is empty nothing is evicted (even if the
`mainCache_` map is non-empty). -/
def evictLeastRecent (s : ArcLruSt K V) : ArcLruSt K V :=
  match s.mainList.getLast? with
  | none => s
  | some n =>
    let s1 := removeNode s n
    let s2 := match alookup s1.nodes n with
      | some d => { s1 with mainCache := aerase s1.mainCache d.key }
      | none => s1
    let s3 := if s2.ghostCache.length ≥ s2.ghostCapacity
      then removeOldestGhost s2 else s2
    addToGhost s3 n

/-- `ArcLruPart::addNewNode`. -/
def addNewNode (s : ArcLruSt K V) (key : K) (value : V) :
    Bool × ArcLruSt K V :=
  let s1 := if s.mainCache.length ≥ s.capacity then evictLeastRecent s else s
  let n := s1.nextId
  let s2 := { s1 with
    nodes := aupdate s1.nodes n ⟨key, value, 1⟩
    nextId := n + 1 }
  let s3 := addToFront s2 n
  (true, { s3 with mainCache := aupdate s3.mainCache key n })

/-- `ArcLruPart::put`. -/
def put (s : ArcLruSt K V) (key : K) (value : V) : Bool × ArcLruSt K V :=
  if s.capacity = 0 then (false, s)
  else match alookup s.mainCache key with
    | some n => updateExistingNode s n value
    | none => addNewNode s key value

/-- `ArcLruPart::updateNodeAccess`: move to front, bump the count, report
whether the transform threshold is reached. -/
def updateNodeAccess (s : ArcLruSt K V) (n : Nat) : Bool × ArcLruSt K V :=
  let s1 := incAccess (moveToFront s n) n
  (decide (((alookup s1.nodes n).map
    (fun d => d.accessCount)).getD 0 ≥ s1.transformThreshold), s1)

/-- `ArcLruPart::get`: on a `mainCache_` hit return the value and the
`shouldTransform` flag. -/
def get (s : ArcLruSt K V) (key : K) :
    Option (V × Bool) × ArcLruSt K V :=
  match alookup s.mainCache key with
  | some n =>
    let r := updateNodeAccess s n
    match alookup r.2.nodes n with
    | some d => (some (d.value, r.1), r.2)
    | none => (none, r.2)
  | none => (none, s)

/-- `ArcLruPart::checkGhost`. -/
def checkGhost (s : ArcLruSt K V) (key : K) : Bool × ArcLruSt K V :=
  match alookup s.ghostCache key with
  | some n =>
    let s1 := removeNode s n
    (true, { s1 with ghostCache := aerase s1.ghostCache key })
  | none => (false, s)

/-- `ArcLruPart::increaseCapacity`. -/
def increaseCapacity (s : ArcLruSt K V) : ArcLruSt K V :=
  { s with capacity := s.capacity + 1 }

/-- `ArcLruPart::decreaseCapacity`. -/
def decreaseCapacity (s : ArcLruSt K V) : Bool × ArcLruSt K V :=
  if s.capacity = 0 then (false, s)
  else
    let s1 := if s.mainCache.length = s.capacity then evictLeastRecent s
      else s
    (true, { s1 with capacity := s1.capacity - 1 })

/-- `ArcLruPart::remove`: unlinks the node but never erases the
`mainCache_` map entry (on a missing key the source logs and dereferences
an invalid iterator; call sites only pass present keys). -/
def remove (s : ArcLruSt K V) (key : K) : ArcLruSt K V :=
  match alookup s.mainCache key with
  | some n => removeNode s n
  | none => s

end ArcLruSt

/-- State of an `ArcLfuPart` (`freqMap_` is a `std::map`, so its minimum
key — `begin()->first` — is computed, not positional). -/
structure ArcLfuSt (K V : Type) where
  capacity : Nat
  ghostCapacity : Nat
  transformThreshold : Nat
  minFreq : Nat
  nodes : List (Nat × ArcNodeData K V)
  nextId : Nat
  mainCache : List (K × Nat)
  ghostCache : List (K × Nat)
  freqMap : List (Nat × List Nat)
  ghostList : List Nat
deriving Repr, DecidableEq

namespace ArcLfuSt

variable {K V : Type} [DecidableEq K]

/-- Read a frequency bucket (empty when absent). -/
def fGet (bs : List (Nat × List Nat)) (f : Nat) : List Nat :=
  (alookup bs f).getD []

/-- `freqMap_[f]` as an lvalue: insert an empty bucket when absent. -/
def fEnsure (bs : List (Nat × List Nat)) (f : Nat) : List (Nat × List Nat) :=
  if (alookup bs f).isSome then bs else aupdate bs f []

/-- `freqMap_.begin()->first`: the smallest frequency present (`freqMap_`
is an ordered `std::map`). -/
def minKey (bs : List (Nat × List Nat)) : Nat :=
  match bs with
  | [] => 0
  | (f, _) :: t => t.foldl (fun acc p => min acc p.1) f

def setValue (s : ArcLfuSt K V) (n : Nat) (v : V) : ArcLfuSt K V :=
  { s with nodes :=
      match alookup s.nodes n with
      | some d => aupdate s.nodes n { d with value := v }
      | none => s.nodes }

def incAccess (s : ArcLfuSt K V) (n : Nat) : ArcLfuSt K V :=
  { s with nodes :=
      match alookup s.nodes n with
      | some d => aupdate s.nodes n { d with accessCount := d.accessCount + 1 }
      | none => s.nodes }

/-- `ArcLfuPart::updateNodeFrequency`. -/
def updateNodeFrequency (s : ArcLfuSt K V) (n : Nat) : ArcLfuSt K V :=
  let oldFreq := ((alookup s.nodes n).map (fun d => d.accessCount)).getD 0
  let s1 := incAccess s n
  let newFreq := oldFreq + 1
  let bs1 := fEnsure s1.freqMap oldFreq
  let ol := (fGet bs1 oldFreq).filter (fun m => m ≠ n)
  let bs2 := aupdate bs1 oldFreq ol
  let r := if ol.isEmpty then
      (aerase bs2 oldFreq,
        if oldFreq = s1.minFreq then newFreq else s1.minFreq)
    else (bs2, s1.minFreq)
  let bs4 := if (alookup r.1 newFreq).isSome then r.1 else aupdate r.1 newFreq []
  { s1 with
    freqMap := aupdate bs4 newFreq (fGet bs4 newFreq ++ [n])
    minFreq := r.2 }

/-- `ArcLfuPart::updateExistingNode`. -/
def updateExistingNode (s : ArcLfuSt K V) (n : Nat) (v : V) :
    Bool × ArcLfuSt K V :=
  (true, updateNodeFrequency (setValue s n v) n)

/-- `ArcLfuPart::removeOldestElementInGhost`. -/
def removeOldestGhost (s : ArcLfuSt K V) : ArcLfuSt K V :=
  match s.ghostList.getLast? with
  | none => s
  | some n =>
    let s1 := { s with ghostList := s.ghostList.erase n }
    match alookup s1.nodes n with
    | some d => { s1 with ghostCache := aerase s1.ghostCache d.key }
    | none => s1

/-- `ArcLfuPart::addToGhost`. -/
def addToGhost (s : ArcLfuSt K V) (n : Nat) : ArcLfuSt K V :=
  let s1 := if s.ghostCache.length ≥ s.ghostCapacity then removeOldestGhost s
    else s
  match alookup s1.nodes n with
  | some d => { s1 with
      ghostCache := aupdate s1.ghostCache d.key n
      ghostList := n :: s1.ghostList }
  | none => s1

/-- `ArcLfuPart::evictLeastFrequent`: note `freqMap_[minFreq_]` inserts an
empty bucket when `minFreq_` is stale. -/
def evictLeastFrequent (s : ArcLfuSt K V) : ArcLfuSt K V :=
  if s.freqMap.isEmpty then s
  else
    let bs1 := fEnsure s.freqMap s.minFreq
    match fGet bs1 s.minFreq with
    | [] => { s with freqMap := bs1 }
    | n :: rest =>
      let bs2 := aupdate bs1 s.minFreq rest
      let r := if rest.isEmpty then
          let bs' := aerase bs2 s.minFreq
          (bs', if bs'.isEmpty then s.minFreq else minKey bs')
        else (bs2, s.minFreq)
      let s1 := { s with freqMap := r.1, minFreq := r.2 }
      let s2 := if s1.ghostCache.length ≥ s1.ghostCapacity
        then removeOldestGhost s1 else s1
      let s3 := addToGhost s2 n
      match alookup s3.nodes n with
      | some d => { s3 with mainCache := aerase s3.mainCache d.key }
      | none => s3

/-- `ArcLfuPart::addNewNodeToMainCache`. -/
def addNewNodeToMainCache (s : ArcLfuSt K V) (key : K) (value : V) :
    Bool × ArcLfuSt K V :=
  let s1 := if s.mainCache.length ≥ s.capacity then evictLeastFrequent s
    else s
  let n := s1.nextId
  let s2 := { s1 with
    nodes := aupdate s1.nodes n ⟨key, value, 1⟩
    nextId := n + 1
    mainCache := aupdate s1.mainCache key n }
  let bs := if (alookup s2.freqMap 1).isSome then s2.freqMap
    else aupdate s2.freqMap 1 []
  (true, { s2 with
    freqMap := aupdate bs 1 (fGet bs 1 ++ [n])
    minFreq := 1 })

/-- `ArcLfuPart::put`. -/
def put (s : ArcLfuSt K V) (key : K) (value : V) : Bool × ArcLfuSt K V :=
  if s.capacity = 0 then (false, s)
  else match alookup s.mainCache key with
    | some n => updateExistingNode s n value
    | none => addNewNodeToMainCache s key value

/-- `ArcLfuPart::get`. -/
def get (s : ArcLfuSt K V) (key : K) : Option V × ArcLfuSt K V :=
  match alookup s.mainCache key with
  | some n =>
    let s1 := updateNodeFrequency s n
    ((alookup s1.nodes n).map (fun d => d.value), s1)
  | none => (none, s)

/-- `ArcLfuPart::contain`. -/
def contain (s : ArcLfuSt K V) (key : K) : Bool :=
  (alookup s.mainCache key).isSome

/-- `ArcLfuPart::checkGhost`. -/
def checkGhost (s : ArcLfuSt K V) (key : K) : Bool × ArcLfuSt K V :=
  match alookup s.ghostCache key with
  | some n =>
    let s1 := { s with ghostList := s.ghostList.erase n }
    (true, { s1 with ghostCache := aerase s1.ghostCache key })
  | none => (false, s)

/-- `ArcLfuPart::increaseCapacity`. -/
def increaseCapacity (s : ArcLfuSt K V) : ArcLfuSt K V :=
  { s with capacity := s.capacity + 1 }

/-- `ArcLfuPart::decreaseCapacity`. -/
def decreaseCapacity (s : ArcLfuSt K V) : Bool × ArcLfuSt K V :=
  if s.capacity = 0 then (false, s)
  else
    let s1 := if s.mainCache.length = s.capacity then evictLeastFrequent s
      else s
    (true, { s1 with capacity := s1.capacity - 1 })

end ArcLfuSt

/-- State of an `ArcCache`. -/
structure ArcSt (K V : Type) where
  capacity : Nat
  transformThreshold : Nat
  lru : ArcLruSt K V
  lfu : ArcLfuSt K V
deriving Repr, DecidableEq

namespace ArcSt

variable {K V : Type} [DecidableEq K]

/-- `ArcCache::ArcCache(capacity, transformThreshold)`: both parts get the
full capacity (and a ghost capacity equal to it); nothing is validated. -/
def create (K V : Type) (capacity transformThreshold : Nat) : ArcSt K V :=
  ⟨capacity, transformThreshold,
    ⟨capacity, capacity, transformThreshold, [], 0, [], [], [], []⟩,
    ⟨capacity, capacity, transformThreshold, 0, [], 0, [], [], [], []⟩⟩

/-- `ArcCache::checkGhostCaches`. -/
def checkGhostCaches (s : ArcSt K V) (key : K) : ArcSt K V :=
  let rl := s.lru.checkGhost key
  if rl.1 then
    let rf := s.lfu.decreaseCapacity
    if rf.1 then { s with lru := rl.2.increaseCapacity, lfu := rf.2 }
    else { s with lru := rl.2, lfu := rf.2 }
  else
    let rf := s.lfu.checkGhost key
    if rf.1 then
      let rl2 := rl.2.decreaseCapacity
      if rl2.1 then { s with lru := rl2.2, lfu := rf.2.increaseCapacity }
      else { s with lru := rl2.2, lfu := rf.2 }
    else { s with lru := rl.2, lfu := rf.2 }

/-- `ArcCache::put`. -/
def put (s : ArcSt K V) (key : K) (value : V) : ArcSt K V :=
  let s1 := checkGhostCaches s key
  if s1.lfu.contain key then { s1 with lfu := (s1.lfu.put key value).2 }
  else { s1 with lru := (s1.lru.put key value).2 }

/-- `ArcCache::get` (both overloads; the bool variant's out-value is the
returned option). On an LRU hit that `shouldTransform`, the entry is
`remove`d from the LRU part and `put` into the LFU part. -/
def get (s : ArcSt K V) (key : K) : Option V × ArcSt K V :=
  let s1 := checkGhostCaches s key
  match s1.lru.get key with
  | (some r, lru1) =>
    if r.2 then
      let lru2 := lru1.remove key
      let lfu1 := (s1.lfu.put key r.1).2
      (some r.1, { s1 with lru := lru2, lfu := lfu1 })
    else (some r.1, { s1 with lru := lru1 })
  | (none, lru1) =>
    let rf := s1.lfu.get key
    (rf.1, { s1 with lru := lru1, lfu := rf.2 })

end ArcSt

/-- A public operation on the ARC cache. -/
inductive ArcOp (K V : Type) where
  | put (k : K) (v : V)
  | get (k : K)
deriving Repr, DecidableEq

/-- One public `ArcCache` operation. -/
def arcStep [DecidableEq K] (s : ArcSt K V) (op : ArcOp K V) : ArcSt K V :=
  match op with
  | .put k v => s.put k v
  | .get k => (s.get k).2

/-- Run a list of public operations on an `ArcCache`. -/
def arcRun [DecidableEq K] (s : ArcSt K V) (ops : List (ArcOp K V)) :
    ArcSt K V :=
  ops.foldl arcStep s

/-- **C1**: the ARC resident-size bound `|T1| + |T2| ≤ c` fails in the
code.  On `ArcCache(2, 2)` the six public operations
`put 1; put 2; get 1; get 2; put 3; put 4` leave 3 keys resident in the
LRU part's `mainCache_` plus 2 in the LFU part's — 5 > 2.  Two causes:
each part is constructed with the full capacity `c` (so the design bound
is already `2c`), and `ArcLruPart::remove` (used on promotion to the LFU
part) unlinks the node but never erases the `mainCache_` entry, so
promoted keys occupy LRU slots that eviction (which walks the intrusive
list) can never reclaim. -/
theorem claim_C1_arc_capacity_violation :
    (ArcSt.create Nat Nat 2 2).capacity = 2 ∧
    ((arcRun (ArcSt.create Nat Nat 2 2)
        [ArcOp.put 1 1, ArcOp.put 2 2, ArcOp.get 1, ArcOp.get 2,
         ArcOp.put 3 3, ArcOp.put 4 4]).lru.mainCache.length +
      (arcRun (ArcSt.create Nat Nat 2 2)
        [ArcOp.put 1 1, ArcOp.put 2 2, ArcOp.get 1, ArcOp.get 2,
         ArcOp.put 3 3, ArcOp.put 4 4]).lfu.mainCache.length = 5) := by
  decide

/-- **C7**: on promotion the entry is *not* removed from the LRU part.
On `ArcCache(2, 2)`, after `put 1` and one `get 1` (which reaches the
transform threshold and calls `lruPart_->remove(1)` then
`lfuPart_->put(1, …)`), key 1 is in the LFU part's `mainCache_` *and*
still in the LRU part's `mainCache_` map — only the intrusive list entry
is gone, because `ArcLruPart::remove` never calls `mainCache_.erase`. -/
theorem claim_C7_arc_promote_remove_bug :
    (arcRun (ArcSt.create Nat Nat 2 2)
      [ArcOp.put 1 100, ArcOp.get 1]).lfu.contain 1 = true ∧
    (alookup (arcRun (ArcSt.create Nat Nat 2 2)
      [ArcOp.put 1 100, ArcOp.get 1]).lru.mainCache 1).isSome = true ∧
    (arcRun (ArcSt.create Nat Nat 2 2)
      [ArcOp.put 1 100, ArcOp.get 1]).lru.mainList = [] := by
  decide

/-- **C2** (counterexample): on `ArcCache(2, 2)` the trace
`put(1,10); get 1; put(1,30); get 1` returns `10` from the final get,
not the `30` just put: the first get promoted key 1 to the LFU part but
left a stale `mainCache_` entry in the LRU part (see C7); `put(1,30)`
updates the LFU copy, but the final get probes the LRU part first, hits
the stale node, returns `10` — and re-promotes it, overwriting the LFU
value `30` with `10`. -/
theorem claim_C2_put_get_counterexample :
    (ArcSt.get (arcRun (ArcSt.create Nat Nat 2 2)
      [ArcOp.put 1 10, ArcOp.get 1, ArcOp.put 1 30]) 1).1 = some 10 ∧
    some 10 ≠ some 30 := by
  decide

/-! ## The sharded wrappers (`HashLruCaches`, `HashLfuCache`)

`std::hash` is implementation-defined, so the shard choice is a function
parameter `hash : K → Nat`; the shard index is `hash key % sliceNum`. -/

/-- State of `HashLruCaches`. -/
structure HashLruSt (K V : Type) where
  capacity : Nat
  sliceNum : Nat
  slices : List (LruSt K V)
deriving Repr, DecidableEq

/-- `HashLruCaches::HashLruCaches(size_t capacity, size_t sliceNum)`:
rejects `sliceNum == 0`; each shard is an `LruCache(ceil(capacity /
sliceNum))` — and `LruCache`'s constructor accepts any capacity (its
`std::invalid_argument` is constructed but never thrown), so `capacity
== 0` is accepted here too. -/
def hashLruCreate (K V : Type) (capacity sliceNum : Nat) :
    Except String (HashLruSt K V) :=
  if sliceNum ≤ 0 then .error "sliceNum must be greater than 0"
  else .ok ⟨capacity, sliceNum, List.replicate sliceNum
    { capacity := (((capacity + sliceNum - 1) / sliceNum : Nat) : Int)
      entries := [] }⟩

/-- `HashLruCaches::put`. -/
def hashLruPut (hash : K → Nat) (s : HashLruSt K V) (key : K) (v : V) :
    HashLruSt K V :=
  let i := hash key % s.sliceNum
  match s.slices.get? i with
  | some sl => { s with slices := s.slices.set i (sl.put key v) }
  | none => s

/-- `HashLruCaches::get(Key, Value&)`: forwards the shard's boolean. -/
def hashLruGetB (hash : K → Nat) (s : HashLruSt K V) (key : K) (out : V) :
    Bool × V × HashLruSt K V :=
  let i := hash key % s.sliceNum
  match s.slices.get? i with
  | some sl =>
    let r := sl.getB key out
    (r.1, r.2.1, { s with slices := s.slices.set i r.2.2 })
  | none => (false, out, s)

/-- `HashLruCaches::get(Key)` (value-returning): default-constructed value
(`dflt`) on a miss. -/
def hashLruGetV (hash : K → Nat) (dflt : V) (s : HashLruSt K V) (key : K) :
    V × HashLruSt K V :=
  let r := hashLruGetB hash s key dflt
  (r.2.1, r.2.2)

/-- State of `HashLfuCache`. -/
structure HashLfuSt (K V : Type) where
  capacity : Nat
  sliceNum : Nat
  slices : List (LfuSt K V)
deriving Repr, DecidableEq

/-- `HashLfuCache::HashLfuCache(size_t capacity, size_t sliceNum)`:
rejects `sliceNum == 0`; each shard is an
`LfuCache(ceil(capacity / sliceNum))` (default `maxAverageNum` 1000000),
whose constructor throws when the shard capacity is 0. -/
def hashLfuCreate (K V : Type) (capacity sliceNum : Nat) :
    Except String (HashLfuSt K V) :=
  if sliceNum ≤ 0 then .error "sliceNum must be bigger than 0"
  else
    match LfuSt.create K V (((capacity + sliceNum - 1) / sliceNum : Nat) : Int)
        1000000 with
    | .error e => .error e
    | .ok sl => .ok ⟨capacity, sliceNum, List.replicate sliceNum sl⟩

/-- `HashLfuCache::put` (`none` = the shard's `kickOut` throw). -/
def hashLfuPut (hash : K → Nat) (s : HashLfuSt K V) (key : K) (v : V) :
    Option (HashLfuSt K V) :=
  let i := hash key % s.sliceNum
  match s.slices.get? i with
  | some sl =>
    match sl.put key v with
    | some sl' => some { s with slices := s.slices.set i sl' }
    | none => none
  | none => some s

/-- `HashLfuCache::get(Key, Value&)`: calls the shard's get (which writes
the out-value only on a hit) but ignores its result and returns `true`
unconditionally. -/
def hashLfuGetB (hash : K → Nat) (s : HashLfuSt K V) (key : K) (out : V) :
    Bool × V × HashLfuSt K V :=
  let i := hash key % s.sliceNum
  match s.slices.get? i with
  | some sl =>
    let r := sl.get key
    (true, r.1.getD out, { s with slices := s.slices.set i r.2 })
  | none => (true, out, s)

/-- `HashLfuCache::get(Key)` (value-returning): default-constructed value
on a miss (the boolean it consults is the unconditional `true`). -/
def hashLfuGetV (hash : K → Nat) (dflt : V) (s : HashLfuSt K V) (key : K) :
    V × HashLfuSt K V :=
  let r := hashLfuGetB hash s key dflt
  (r.2.1, r.2.2)

/-- **C8**: constructor validation is absent or broken outside
`LfuCache`/`LruKCache`: `LruCache(0)` and `LruCache(-5)` complete
normally (the source builds `std::invalid_argument` but never throws
it), `ArcCache(0, 2)` validates nothing, and `HashLruCaches(0, 2)`
accepts a zero capacity (building zero-capacity shards); by contrast
`LfuCache(0)` does throw. -/
theorem claim_C8_constructor_no_throw :
    LruSt.create Nat Nat 0 = Except.ok ⟨0, []⟩ ∧
    LruSt.create Nat Nat (-5) = Except.ok ⟨-5, []⟩ ∧
    ArcSt.create Nat Nat 0 2 =
      ⟨0, 2, ⟨0, 0, 2, [], 0, [], [], [], []⟩,
        ⟨0, 0, 2, 0, [], 0, [], [], [], []⟩⟩ ∧
    hashLruCreate Nat Nat 0 2 =
      Except.ok ⟨0, 2, List.replicate 2 ⟨0, []⟩⟩ ∧
    LfuSt.create Nat Nat 0 1000000 =
      Except.error "capacity should be greater than 0" :=
  ⟨rfl, rfl, rfl, rfl, rfl⟩

/-- **C9**: `HashLfuCache::get(key, out)` ignores the shard's boolean and
returns `true` even on a miss (out-value left default-constructed), while
`HashLruCaches::get` correctly forwards the shard's boolean: on a
freshly-built cache of capacity 2 with 1 shard (identity hash), getting
the never-inserted key 5 yields `true` from the LFU wrapper and `false`
from the LRU wrapper, both with the default value 0. -/
theorem claim_C9_hashlfu_get_true_on_miss :
    (hashLfuCreate Nat Nat 2 1).map
      (fun s => (hashLfuGetB (fun k => k) s 5 0).1) = Except.ok true ∧
    (hashLfuCreate Nat Nat 2 1).map
      (fun s => (hashLfuGetV (fun k => k) 0 s 5).1) = Except.ok 0 ∧
    (hashLruCreate Nat Nat 2 1).map
      (fun s => (hashLruGetB (fun k => k) s 5 0).1) = Except.ok false :=
  ⟨rfl, rfl, rfl⟩

namespace LfuSt

/-- `getInternal` never changes the node map after `addFreqNum` (the lazy
`minFreq_` fix-up only touches `minFreq_` and the bucket table). -/
theorem getInternalAux_nodeMap (s : LfuSt K V) (key : K) (v : V) (f : Int) :
    (getInternalAux s key v f).2.nodeMap =
      (addFreqNum { s with
        nodeMap := nmSetFreq s.nodeMap key (f + 1)
        buckets := addToFreqList (removeFromFreqList s.buckets key f)
          key (f + 1) }).nodeMap := by
  obtain ⟨s4, h4⟩ : ∃ s4, s4 = addFreqNum ({ s with
      nodeMap := nmSetFreq s.nodeMap key (f + 1)
      buckets := addToFreqList (removeFromFreqList s.buckets key f)
        key (f + 1) } : LfuSt K V) := ⟨_, rfl⟩
  rw [getInternalAux_state_eq s key v f s4 h4, ← h4]
  by_cases h1 : ((alookup s4.nodeMap key).map (fun e => e.2)).getD (f + 1) - 1
      = s4.minFreq
  · rw [if_pos h1]
    by_cases h2 : (bucketGet (bucketEnsure s4.buckets s4.minFreq)
        s4.minFreq).isEmpty
    · rw [if_pos h2]
    · rw [if_neg h2]
  · rw [if_neg h1]

/-- `addFreqNum` keeps every stored value (aging only rewrites
frequencies). -/
theorem addFreqNum_lookup (s : LfuSt K V) (key : K) (v : V) (f : Int)
    (hnd : (akeys s.nodeMap).Nodup)
    (hk : alookup s.nodeMap key = some (v, f)) :
    ∃ g : Int, alookup (addFreqNum s).nodeMap key = some (v, g) := by
  by_cases hcond : s.nodeMap ≠ [] ∧
      Int.tdiv (s.curTotalNum + 1) (s.nodeMap.length : Int) > s.maxAverageNum
  · obtain ⟨hne, hgt⟩ := hcond
    have hemp : ¬s.nodeMap.isEmpty = true := by
      cases hl : s.nodeMap with
      | nil => exact absurd hl hne
      | cons a t => simp [hl]
    rw [addFreqNum_aging_eq s hemp hgt]
    have hLk := aging_fold_nodeMap (K := K) (V := V) s.maxAverageNum s.nodeMap
      ({ s with
        curTotalNum := s.curTotalNum + 1
        curAverageNum := Int.tdiv (s.curTotalNum + 1)
          (s.nodeMap.length : Int) } : LfuSt K V)
      hnd (fun e he => alookup_of_mem_nodup s.nodeMap e hnd he)
    unfold handleOverMaxAverageNum
    rw [if_neg hemp]
    rw [(updateMinFreq_fields _).1]
    have h2 := hLk.2.2 (key, (v, f)) (mem_of_alookup _ _ _ hk)
    exact ⟨_, h2⟩
  · rw [(addFreqNum_NA_fields s hcond).1]
    exact ⟨f, hk⟩

/-- `getInternal` keeps the node's value. -/
theorem getInternalAux_lookup (s : LfuSt K V) (key : K) (v : V) (f : Int)
    (hnd : (akeys s.nodeMap).Nodup)
    (hk : alookup s.nodeMap key = some (v, f)) :
    ∃ g : Int, alookup (getInternalAux s key v f).2.nodeMap key =
      some (v, g) := by
  rw [getInternalAux_nodeMap]
  exact addFreqNum_lookup _ key v (f + 1)
    (by rw [akeys_nmSetFreq]; exact hnd)
    (alookup_nmSetFreq_self s.nodeMap key (f + 1) v f hk)

/-- A stored binding makes `get` a hit with that value. -/
theorem get_value_of_lookup (s : LfuSt K V) (key : K) (v : V) (g : Int)
    (h : alookup s.nodeMap key = some (v, g)) : (get s key).1 = some v := by
  unfold get
  rw [h]
  rfl

/-- `put` succeeds (under the invariant) and stores exactly the offered
value. -/
theorem put_value (s : LfuSt K V) (key : K) (v : V)
    (hInv : Inv s) (hFB : FreqBound s) (hmax : 0 ≤ s.maxAverageNum) :
    ∃ s1 : LfuSt K V, put s key v = some s1 ∧
      ∃ g : Int, alookup s1.nodeMap key = some (v, g) := by
  cases hlk : alookup s.nodeMap key with
  | some e =>
    obtain ⟨v0, f⟩ := e
    have hnd1 : (akeys (nmSetValue s.nodeMap key v)).Nodup := by
      rw [akeys_nmSetValue]
      exact hInv.1.1
    have hlk1 : alookup (nmSetValue s.nodeMap key v) key = some (v, f) :=
      nmSetValue_alookup_self s.nodeMap key v v0 f hlk
    obtain ⟨g, hg⟩ := getInternalAux_lookup
      ({ s with nodeMap := nmSetValue s.nodeMap key v } : LfuSt K V)
      key v f hnd1 hlk1
    refine ⟨_, ?_, g, hg⟩
    unfold put
    rw [hlk]
  | none =>
    by_cases hfull : (s.nodeMap.length : Int) = s.capacity
    · have hne : s.nodeMap ≠ [] := by
        intro hc
        rw [hc] at hfull
        simp at hfull
        have := hInv.2.1
        omega
      obtain ⟨s1, hkick, hC1, -, -, -, -, hnone1⟩ := kickOut_inv s hInv hne
      have heq := putInternal_kick_eq s key v s1 hfull hkick
      obtain ⟨g, hg⟩ := addFreqNum_lookup
        ({ s1 with
          nodeMap := aupdate s1.nodeMap key (v, 1)
          buckets := addToFreqList s1.buckets key 1 } : LfuSt K V)
        key v 1 (nodup_akeys_aupdate _ _ _ hC1.1)
        (alookup_aupdate_self s1.nodeMap key (v, 1))
      refine ⟨{ addFreqNum ({ s1 with
          nodeMap := aupdate s1.nodeMap key (v, 1)
          buckets := addToFreqList s1.buckets key 1 } : LfuSt K V) with
        minFreq := min (addFreqNum ({ s1 with
          nodeMap := aupdate s1.nodeMap key (v, 1)
          buckets := addToFreqList s1.buckets key 1 } : LfuSt K V)).minFreq
          1 }, ?_, g, hg⟩
      unfold put
      rw [hlk]
      exact heq
    · have heq := putInternal_nokick_eq s key v hfull
      obtain ⟨g, hg⟩ := addFreqNum_lookup
        ({ s with
          nodeMap := aupdate s.nodeMap key (v, 1)
          buckets := addToFreqList s.buckets key 1 } : LfuSt K V)
        key v 1 (nodup_akeys_aupdate _ _ _ hInv.1.1)
        (alookup_aupdate_self s.nodeMap key (v, 1))
      refine ⟨{ addFreqNum ({ s with
          nodeMap := aupdate s.nodeMap key (v, 1)
          buckets := addToFreqList s.buckets key 1 } : LfuSt K V) with
        minFreq := min (addFreqNum ({ s with
          nodeMap := aupdate s.nodeMap key (v, 1)
          buckets := addToFreqList s.buckets key 1 } : LfuSt K V)).minFreq
          1 }, ?_, g, hg⟩
      unfold put
      rw [hlk]
      exact heq

end LfuSt

namespace LrukSt

/-- `LruKCache::get` on a non-resident key with a pending value returns
that value (whether or not it promotes). -/
theorem get_pending_value (s : LrukSt K V) (key : K) (v : V)
    (hwh : s.history.wf)
    (hml : alookup s.main.entries key = none)
    (hp : alookup s.pending key = some v) :
    (get s key).map (fun r => r.1) = some (some v) := by
  rw [get_miss_pending_eq s key v hml hp, histNewCount_eq]
  by_cases hcnt : s.k ≤ histNewCount s key
  · rw [if_pos hcnt]
    obtain ⟨s2, hs2, -⟩ := moveToLruCache_isSome
      ({ s with history := (LruSt.get s.history key).2.put key (histNewCount s key) } : LrukSt K V) key v
      (by
        show alookup ((LruSt.get s.history key).2.put key
          (histNewCount s key)).entries key ≠ none
        rw [LruSt.alookup_put_self _ _ _ (LruSt.wf_get s.history key hwh)]
        simp)
    rw [hs2]
    rfl
  · rw [if_neg hcnt]
    rfl

/-- `LruKCache`: a `put` followed immediately by a `get` of the same key
returns the value just put (as a main-cache hit when the put promoted the
key, as the pending value otherwise), and neither operation throws. -/
theorem put_get_value (s : LrukSt K V) (key : K) (v : V) (hw : s.wf) :
    (put s key v).bind
      (fun s1 => (get s1 key).map (fun r => r.1)) = some (some v) := by
  obtain ⟨hwm, hwh, hwp⟩ := hw
  cases hml : alookup s.main.entries key with
  | some v0 =>
    rw [put_hit_eq s key v0 v hml]
    show (get ({ s with
      main := ((LruSt.get s.main key).2).put key v } : LrukSt K V) key).map
        (fun r => r.1) = some (some v)
    have hm1 : alookup (((LruSt.get s.main key).2).put key v).entries key =
        some v :=
      LruSt.alookup_put_self _ _ _ (LruSt.wf_get s.main key hwm)
    rw [get_hit_eq _ key v hm1]
    rfl
  | none =>
    rw [put_miss_eq s key v hml, histNewCount_eq]
    have hwh2 : ((LruSt.get s.history key).2.put key
        (histNewCount s key)).wf :=
      LruSt.wf_put _ _ _ (LruSt.wf_get s.history key hwh)
    by_cases hcnt : s.k ≤ histNewCount s key
    · rw [if_pos hcnt]
      obtain ⟨s2, hs2, hdef⟩ := moveToLruCache_isSome
        ({ s with
          history := (LruSt.get s.history key).2.put key (histNewCount s key)
          pending := aupdate s.pending key v } : LrukSt K V) key v
        (by
          show alookup ((LruSt.get s.history key).2.put key
            (histNewCount s key)).entries key ≠ none
          rw [LruSt.alookup_put_self _ _ _ (LruSt.wf_get s.history key hwh)]
          simp)
      rw [hs2]
      show (get s2 key).map (fun r => r.1) = some (some v)
      have hm2 : alookup s2.main.entries key = some v := by
        rw [hdef]
        exact LruSt.alookup_put_self _ _ _ hwm
      rw [get_hit_eq s2 key v hm2]
      rfl
    · rw [if_neg hcnt]
      show (get ({ s with
        history := (LruSt.get s.history key).2.put key (histNewCount s key)
        pending := aupdate s.pending key v } : LrukSt K V) key).map
          (fun r => r.1) = some (some v)
      exact get_pending_value _ key v hwh2 hml
        (alookup_aupdate_self s.pending key v)

end LrukSt

/-- **C2** (amended): put-then-get (no intervening operation) returns the
value just put for `LruCache` (any well-formed state), for `LruKCache`
(any well-formed state: the get is a main-cache hit when the put promoted
the key, else it returns the pending value; neither call throws), and for
`LfuCache` (under its consistency invariant, non-negative
`maxAverageNum_` and frequencies at most `INT_MAX - 2`).  For `ArcCache`
the property is false (see the counterexample): a promoted key leaves a
stale LRU-part entry that a later get hits first. -/
theorem claim_C2_put_get_amended :
    (∀ (K V : Type) [DecidableEq K] (s : LruSt K V) (key : K) (v : V),
      s.wf → (LruSt.get (LruSt.put s key v) key).1 = some v) ∧
    (∀ (K V : Type) [DecidableEq K] (s : LrukSt K V) (key : K) (v : V),
      s.wf → (LrukSt.put s key v).bind
        (fun s1 => (LrukSt.get s1 key).map (fun r => r.1)) =
        some (some v)) ∧
    (∀ (K V : Type) [DecidableEq K] (s : LfuSt K V) (key : K) (v : V),
      LfuSt.Inv s → LfuSt.FreqBound s → 0 ≤ s.maxAverageNum →
      (LfuSt.put s key v).map (fun s1 => (LfuSt.get s1 key).1) =
        some (some v)) := by
  refine ⟨?_, ?_, ?_⟩
  · intro K V _ s key v hw
    rw [LruSt.get_fst]
    exact LruSt.alookup_put_self s key v hw
  · intro K V _ s key v hw
    exact LrukSt.put_get_value s key v hw
  · intro K V _ s key v hInv hFB hmax
    obtain ⟨s1, h1, g, hg⟩ := LfuSt.put_value s key v hInv hFB hmax
    rw [h1]
    simp only [Option.map_some']
    rw [LfuSt.get_value_of_lookup s1 key v g hg]

/-- Witness for the amended C2 on concrete fresh caches. -/
theorem claim_C2_put_get_amended_witness :
    (⟨2, []⟩ : LruSt Nat Nat).wf ∧
    (⟨2, ⟨2, []⟩, ⟨3, []⟩, []⟩ : LrukSt Nat Nat).wf ∧
    LfuSt.Inv (⟨2, INTMAX, 10, 0, 0, [], []⟩ : LfuSt Nat Nat) ∧
    (LruSt.get (LruSt.put (⟨2, []⟩ : LruSt Nat Nat) 1 5) 1).1 = some 5 ∧
    (LrukSt.put (⟨2, ⟨2, []⟩, ⟨3, []⟩, []⟩ : LrukSt Nat Nat) 1 5).bind
      (fun s1 => (LrukSt.get s1 1).map (fun r => r.1)) = some (some 5) ∧
    (LfuSt.put (⟨2, INTMAX, 10, 0, 0, [], []⟩ : LfuSt Nat Nat) 1 5).map
      (fun s1 => (LfuSt.get s1 1).1) = some (some 5) :=
  ⟨by decide, by decide, lfu_inv_init Nat Nat 2 10 (by norm_num),
    claim_C2_put_get_amended.1 Nat Nat (⟨2, []⟩ : LruSt Nat Nat) 1 5
      (by decide),
    claim_C2_put_get_amended.2.1 Nat Nat
      (⟨2, ⟨2, []⟩, ⟨3, []⟩, []⟩ : LrukSt Nat Nat) 1 5 (by decide),
    claim_C2_put_get_amended.2.2 Nat Nat
      (⟨2, INTMAX, 10, 0, 0, [], []⟩ : LfuSt Nat Nat) 1 5
      (lfu_inv_init Nat Nat 2 10 (by norm_num))
      (fun _ _ _ hf => Option.noConfusion hf) (by norm_num)⟩

end LRUCacheRepo
